import Mathlib

/-! # batchsql: multi-row INSERT rewriting

A shallow embedding of `multi_row.go`.

* Statement texts are lists of characters.  The patterns of the source only
  name ASCII characters, and every other character is matched by the dot and
  by the negated class alike, so the reading by characters agrees with Go's
  reading of the UTF-8 bytes.
* The Go `regexp` calls made by the source are embedded through a small
  regular-expression syntax tree and a backtracking matcher with the
  leftmost-first priority of Go's engine; the four patterns of the source are
  written as values of that syntax tree.  A declarative reading of the
  expressions is proved equivalent to the matcher and is used to reason about
  all texts.
* `MultiInsert` is embedded with the trace of the calls it makes on the
  connection and on prepared statements; the results of these calls are given
  by the connection, as functions of the calls made so far.  The loop carries
  fuel, so that a run that never ends (a batch size of zero) is a value too.
  Go's `int` arithmetic is embedded in the integers: `i + BatchSize` cannot
  overflow for a slice that fits in memory.
-/

namespace Batchsql

/-- Statement text: the sequence of characters of a Go string. -/
abbrev Text := List Char

/-- Go `error` values are identified with the message they carry. -/
abbrev GoError := String

/-- Submatches recorded during a match, most recent first: group name
(empty for an unnamed group) and captured text. -/
abbrev Caps := List (String × Text)

/-! ## Regular expressions (the part of Go `regexp` syntax the source uses) -/

/-- Syntax of the regular expressions used by the source. -/
inductive Regex where
  /-- The empty expression. -/
  | eps : Regex
  /-- One character satisfying a predicate (a literal, a class, or the dot). -/
  | set : (Char → Bool) → Regex
  /-- Concatenation. -/
  | cat : Regex → Regex → Regex
  /-- Alternation; the left branch is preferred. -/
  | alt : Regex → Regex → Regex
  /-- Repetition, zero or more times; the flag says greedy (star) or not (star, question mark). -/
  | star : Regex → Bool → Regex
  /-- Capturing group with its name (empty when unnamed). -/
  | group : String → Regex → Regex
  /-- End of text, written as a dollar sign (no multi-line flag). -/
  | eot : Regex

namespace Regex

/-- A single literal character. -/
def chr (c : Char) : Regex := set (fun x => x == c)

/-- A literal string. -/
def lit : List Char → Regex
  | [] => eps
  | c :: cs => cat (chr c) (lit cs)

/-- One or more repetitions, greedy. -/
def plus (a : Regex) : Regex := cat a (star a true)

/-- The dot: any character except newline (no `s` flag). -/
def dot : Regex := set (fun x => x != '\n')

end Regex

/-- The Perl class of whitespace in Go: tab, newline, form feed, carriage return, space. -/
def isSpace (c : Char) : Bool :=
  c == '\t' || c == '\n' || c == '\x0c' || c == '\r' || c == ' '

/-- One of the three quote characters: double quote, apostrophe, back quote. -/
def isQuote (c : Char) : Bool :=
  c == '\x22' || c == '\x27' || c == '\x60'

/-- Loop of a repetition.  `step` runs the body once; an iteration that does
not consume input is not repeated.  The fuel bounds the number of iterations
and is at least the length of the input. -/
def starLoop {α : Type} (step : Text → Caps → (Text → Caps → Option α) → Option α)
    (greedy : Bool) : Nat → Text → Caps → (Text → Caps → Option α) → Option α
  | 0, s, c, k => k s c
  | n + 1, s, c, k =>
    if greedy then
      match step s c (fun s1 c1 =>
          if s1.length < s.length then starLoop step greedy n s1 c1 k else none) with
      | some x => some x
      | none => k s c
    else
      match k s c with
      | some x => some x
      | none => step s c (fun s1 c1 =>
          if s1.length < s.length then starLoop step greedy n s1 c1 k else none)

/-- Backtracking matcher in continuation-passing style: `run r s c k` matches
`r` at the head of `s` and hands the rest of the text and the submatches to
`k`; alternatives are tried in the priority order of the engine. -/
def run {α : Type} : Regex → Text → Caps → (Text → Caps → Option α) → Option α
  | .eps, s, c, k => k s c
  | .set _, [], _, _ => none
  | .set p, x :: s, c, k => if p x then k s c else none
  | .cat a b, s, c, k => run a s c (fun s1 c1 => run b s1 c1 k)
  | .alt a b, s, c, k =>
    match run a s c k with
    | some x => some x
    | none => run b s c k
  | .star a g, s, c, k => starLoop (run a) g s.length s c k
  | .group n a, s, c, k =>
    run a s c (fun s1 c1 => k s1 ((n, s.take (s.length - s1.length)) :: c1))
  | .eot, [], c, k => k [] c
  | .eot, _ :: _, _, _ => none

/-- A match found in a text: the text before it, the matched text, the text
after it, and the submatches. -/
structure Match where
  /-- Text before the match. -/
  pre : Text
  /-- The matched text. -/
  matched : Text
  /-- Text after the match. -/
  post : Text
  /-- Submatches, most recent first. -/
  caps : Caps

/-- Match attempt anchored at the head of `s`: the rest of the text and the submatches. -/
def matchAt (r : Regex) (s : Text) : Option (Text × Caps) :=
  run r s [] (fun s1 c1 => some (s1, c1))

/-- Leftmost match of `r` in `s`: start positions are tried from left to right. -/
def find (r : Regex) : Text → Option Match
  | [] =>
    match matchAt r [] with
    | some (rest, c) => some ⟨[], [], rest, c⟩
    | none => none
  | x :: s =>
    match matchAt r (x :: s) with
    | some (rest, c) => some ⟨[], (x :: s).take ((x :: s).length - rest.length), rest, c⟩
    | none =>
      match find r s with
      | some m => some ⟨x :: m.pre, m.matched, m.post, m.caps⟩
      | none => none

/-- Embedding of `Regexp.MatchString`. -/
def MatchString (r : Regex) (s : Text) : Bool := (find r s).isSome

/-- Loop of `Regexp.ReplaceAllString(src, "")`: `lastMatchEnd` and `searchPos`
are positions in `src`, `buf` is the output built so far.  The text between
two matches is copied; the replacement is empty, so nothing is written for a
match.  After a match the search goes on at its end, and one character
further after an empty match. -/
def replaceAllLoop (r : Regex) (src : Text) : Nat → Nat → Nat → Text → Text
  | 0, lastMatchEnd, _, buf => buf ++ src.drop lastMatchEnd
  | fuel + 1, lastMatchEnd, searchPos, buf =>
    if searchPos ≤ src.length then
      match find r (src.drop searchPos) with
      | none => buf ++ src.drop lastMatchEnd
      | some m =>
        let a0 := searchPos + m.pre.length
        let a1 := a0 + m.matched.length
        let buf1 := buf ++ (src.drop lastMatchEnd).take (a0 - lastMatchEnd)
        let width := if searchPos < src.length then 1 else 0
        let next :=
          if searchPos + width > a1 then searchPos + width
          else if searchPos + 1 > a1 then searchPos + 1
          else a1
        replaceAllLoop r src fuel a1 next buf1
    else buf ++ src.drop lastMatchEnd

/-- Embedding of `Regexp.ReplaceAllString(src, "")`: every match is deleted. -/
def replaceAllEmpty (r : Regex) (src : Text) : Text :=
  replaceAllLoop r src (src.length + 2) 0 0 []

/-- The submatch named `name` of a match: the text of the most recent capture
of that group, empty when the group took no part in the match. -/
def Match.submatch (m : Match) (name : String) : Text :=
  match m.caps.find? (fun p => p.1 == name) with
  | some p => p.2
  | none => []

/-! ## The patterns of `multi_row.go` -/

open Regex in
/-- The constant `sqlComment`: a comment block, slash star to star slash. -/
def sqlComment : Regex :=
  group "" (cat (chr '/') (cat (chr '*')
    (cat (star dot false) (cat (chr '*') (chr '/')))))

open Regex in
/-- The pattern `reSQLValues`. -/
def reSQLValues : Regex :=
  cat (star dot true) (cat (lit "VALUES".toList)
    (cat (star (group "" (alt (chr '\n') (set isSpace))) false)
      (cat (group "values" (cat (chr '(') (cat (plus dot) (chr ')'))))
        (star dot true))))

open Regex in
/-- The pattern `reEmptyValues`. -/
def reEmptyValues : Regex :=
  cat (chr '(') (cat (plus (set isSpace)) (cat (chr ')') (star dot true)))

open Regex in
/-- The pattern `reSQLInsertStmt`: the alternation is the outermost operator. -/
def reSQLInsertStmt : Regex :=
  alt
    (cat (star (group "" (alt sqlComment (set isSpace))) true)
      (cat (lit "INSERT".toList)
        (cat (star (group "" (alt sqlComment (set isSpace))) true)
          (cat (lit "INTO".toList) (plus dot)))))
    (cat (star (chr '\n') true) (cat (lit "VALUES".toList) (star dot true)))

open Regex in
/-- The pattern `reMySQLOnDuplicateKey`. -/
def reMySQLOnDuplicateKey : Regex :=
  cat (star (set isSpace) true) (cat (lit "ON".toList)
    (cat (plus (set isSpace)) (cat (lit "DUPLICATE".toList)
      (cat (plus (set isSpace)) (cat (lit "KEY".toList)
        (cat (star (cat (star (set (fun x => !isQuote x)) true)
                (cat (set isQuote)
                  (cat (star (set (fun x => !isQuote x)) true) (set isQuote)))) true)
          (cat (star (set (fun x => !isQuote x)) true) eot)))))))

/-! ## The functions of `multi_row.go` -/

/-- The shape-error message of `CheckQuery`. -/
def errShape : GoError :=
  "Invalid statement for multi-row INSERT: INSERT [ INTO ] <object> [ column_list ] VALUES sequence not recognized"

/-- The values-error message of `CheckQuery`. -/
def errValues : GoError :=
  "Invalid statement for multi-row INSERT: ... VALUES (? [, ...?]) ... sequence not recognized"

/-- The message of `extractValues`. -/
def errParse : GoError := "Unable to parse VALUES (? [, ...?]) sequence"

/-- The message of `MultiInsert` for a call without rows. -/
def errNoArgs : GoError := "Invalid multi-row INSERT call with no arguments"

/-- The first statement of `CheckQuery` and of `extractValues`: the query with
the matches of `reMySQLOnDuplicateKey` deleted when there is one. -/
def stripOnDuplicateKey (query : Text) : Text :=
  if MatchString reMySQLOnDuplicateKey query then
    replaceAllEmpty reMySQLOnDuplicateKey query
  else query

/-- Embedding of `CheckQuery`; `none` is the nil error. -/
def CheckQuery (query : Text) : Option GoError :=
  let query := stripOnDuplicateKey query
  if !MatchString reSQLInsertStmt query then
    some errShape
  else if !MatchString reSQLValues query then
    some errValues
  else none

/-- Embedding of `extractValues`. -/
def extractValues (query : Text) : Except GoError Text :=
  let query := stripOnDuplicateKey query
  match find reSQLValues query with
  | none => .error errParse
  | some m =>
    let v := m.submatch "values"
    if !MatchString reEmptyValues v then .ok v else .error errParse

/-- Embedding of `strings.Join`. -/
def stringsJoin (sep : Text) : List Text → Text
  | [] => []
  | [a] => a
  | a :: b :: rest => a ++ sep ++ stringsJoin sep (b :: rest)

/-- The text before and the text after the first occurrence of the non-empty
`old` in a text (`strings.Index`), when there is one. -/
def splitFirst (old : Text) : Text → Option (Text × Text)
  | [] => none
  | x :: s =>
    if old.isPrefixOf (x :: s) then some ([], (x :: s).drop old.length)
    else
      match splitFirst old s with
      | some (a, b) => some (x :: a, b)
      | none => none

/-- Embedding of `strings.Replace(s, old, new, 1)`: the text is returned as
it is when `old` and `new` are equal or `old` does not occur; an empty `old`
matches at the beginning of the text. -/
def stringsReplaceFirst (s old new : Text) : Text :=
  if old = new then s
  else
    match old with
    | [] => new ++ s
    | _ :: _ =>
      match splitFirst old s with
      | some (a, b) => a ++ new ++ b
      | none => s

/-- Embedding of `rewriteInsertSQL`; `count` is the length of the slice the
source makes, a natural number. -/
def rewriteInsertSQL (query params : Text) (count : Nat) : Text :=
  stringsReplaceFirst query params (stringsJoin ",".toList (List.replicate count params))

/-- Embedding of `joinArgs`: the rows are appended one after the other. -/
def joinArgs {α : Type} (args : List (List α)) : List α :=
  args.foldl (fun joined p => joined ++ p) []

/-- Embedding of `min`. -/
def min (a b : Int) : Int := if a ≤ b then a else b

/-! ## The connection and `MultiInsert` -/

/-- A call made on the connection or on a prepared statement, with the error
it returned (`none` for nil).  A statement is named by the position of its
`Prepare` call in the trace. -/
inductive Event (α : Type) where
  /-- The call `Conn.Prepare(query)`. -/
  | prepare (query : Text) (err : Option GoError)
  /-- The call `stmt.Exec(args...)`. -/
  | exec (stmt : Nat) (args : List α) (err : Option GoError)
  /-- The call `stmt.Close()`. -/
  | close (stmt : Nat) (err : Option GoError)

/-- The external connection: the error each call returns may depend on the
calls made so far and on the arguments of the call. -/
structure Driver (α : Type) where
  /-- Result of `Prepare`. -/
  prepare : List (Event α) → Text → Option GoError
  /-- Result of `Exec` on the statement with the given name and text. -/
  exec : List (Event α) → Nat → Text → List α → Option GoError
  /-- Result of `Close` on the statement with the given name. -/
  close : List (Event α) → Nat → Option GoError

/-- A prepared statement: its name and the text it was prepared from. -/
structure Stmt where
  /-- Position of the `Prepare` call in the trace. -/
  id : Nat
  /-- The text passed to `Prepare`. -/
  query : Text

/-- How a call of `MultiInsert` ends. -/
inductive Outcome where
  /-- The function returned this error (`none` for nil). -/
  | returned (err : Option GoError)
  /-- A run-time panic (slice bounds out of range, nil statement). -/
  | panicked
  /-- The loop was still running when the fuel of the model ran out. -/
  | running
  deriving DecidableEq

/-- A run of `MultiInsert`: the calls made, in order, and the outcome. -/
structure Run (α : Type) where
  /-- The calls made on the connection and on statements, in order. -/
  trace : List (Event α)
  /-- The outcome of the run. -/
  outcome : Outcome

/-- The local variables of the loop of `MultiInsert`, with the trace so far. -/
structure LoopState (α : Type) where
  /-- The loop variable `i`. -/
  i : Int
  /-- The variable `size`. -/
  size : Nat
  /-- The variable `stmt`; `none` is nil. -/
  stmt : Option Stmt
  /-- The calls made so far. -/
  trace : List (Event α)

/-- The call `stmt.Exec(batchArgs...)` of one iteration and what follows it:
on an error the statement is closed and the error returned, otherwise `i`
advances by `BatchSize`. -/
def execBatch {α : Type} (conn : Driver α) (BatchSize : Int) (i : Int) (size : Nat)
    (st : Stmt) (tr : List (Event α)) (batch : List (List α)) : Run α ⊕ LoopState α :=
  let batchArgs := joinArgs batch
  match conn.exec tr st.id st.query batchArgs with
  | some err =>
    let tr1 := tr ++ [Event.exec st.id batchArgs (some err)]
    .inl ⟨tr1 ++ [Event.close st.id (conn.close tr1 st.id)], .returned (some err)⟩
  | none => .inr ⟨i + BatchSize, size, some st, tr ++ [Event.exec st.id batchArgs none]⟩

/-- One iteration of the loop of `MultiInsert`, entered with `i < len(args)`:
either the run ends, or the state of the next iteration. -/
def loopBody {α : Type} (conn : Driver α) (BatchSize : Int) (query values : Text)
    (args : List (List α)) (s : LoopState α) : Run α ⊕ LoopState α :=
  let j := min (s.i + BatchSize) args.length
  if 0 ≤ s.i ∧ s.i ≤ j then
    let batch := (args.drop s.i.toNat).take (j - s.i).toNat
    match s.stmt with
    | some st =>
      if batch.length ≠ s.size then
        let tr1 := s.trace ++ [Event.close st.id (conn.close s.trace st.id)]
        let multiQuery := rewriteInsertSQL query values batch.length
        match conn.prepare tr1 multiQuery with
        | some err => .inl ⟨tr1 ++ [Event.prepare multiQuery (some err)], .returned (some err)⟩
        | none =>
          execBatch conn BatchSize s.i batch.length ⟨tr1.length, multiQuery⟩
            (tr1 ++ [Event.prepare multiQuery none]) batch
      else execBatch conn BatchSize s.i s.size st s.trace batch
    | none =>
      let multiQuery := rewriteInsertSQL query values batch.length
      match conn.prepare s.trace multiQuery with
      | some err => .inl ⟨s.trace ++ [Event.prepare multiQuery (some err)], .returned (some err)⟩
      | none =>
        execBatch conn BatchSize s.i batch.length ⟨s.trace.length, multiQuery⟩
          (s.trace ++ [Event.prepare multiQuery none]) batch
  else .inl ⟨s.trace, .panicked⟩

/-- The loop of `MultiInsert` and the final `return stmt.Close()`; the fuel
bounds the number of iterations the model follows. -/
def batchLoop {α : Type} (conn : Driver α) (BatchSize : Int) (query values : Text)
    (args : List (List α)) : Nat → LoopState α → Run α
  | 0, s => ⟨s.trace, .running⟩
  | fuel + 1, s =>
    if s.i < args.length then
      match loopBody conn BatchSize query values args s with
      | .inl r => r
      | .inr s1 => batchLoop conn BatchSize query values args fuel s1
    else
      match s.stmt with
      | some st =>
        ⟨s.trace ++ [Event.close st.id (conn.close s.trace st.id)],
          .returned (conn.close s.trace st.id)⟩
      | none => ⟨s.trace, .panicked⟩

/-- Embedding of `MultiRow.MultiInsert`: `conn` and `BatchSize` are the fields
of the receiver, `fuel` bounds the number of loop iterations followed. -/
def MultiInsert {α : Type} (conn : Driver α) (BatchSize : Int) (fuel : Nat)
    (query : Text) (args : List (List α)) : Run α :=
  if args.length = 0 then ⟨[], .returned (some errNoArgs)⟩
  else
    match CheckQuery query with
    | some err => ⟨[], .returned (some err)⟩
    | none =>
      match extractValues query with
      | .error err => ⟨[], .returned (some err)⟩
      | .ok values => batchLoop conn BatchSize query values args fuel ⟨0, 0, none, []⟩

/-! ## Counting calls in a trace -/

/-- Whether a call is a `Prepare`. -/
def Event.isPrepare {α : Type} : Event α → Bool
  | .prepare _ _ => true
  | _ => false

/-- Whether a call is an `Exec`. -/
def Event.isExec {α : Type} : Event α → Bool
  | .exec _ _ _ => true
  | _ => false

/-- Number of `Prepare` calls in a trace. -/
def prepareCount {α : Type} (tr : List (Event α)) : Nat := tr.countP Event.isPrepare

/-- Number of `Exec` calls in a trace. -/
def execCount {α : Type} (tr : List (Event α)) : Nat := tr.countP Event.isExec

/-! ## Declarative reading of the expressions -/

/-- Declarative reading of the expressions with submatches: `Sem r s c s1 c1`
says that `r` matches a prefix of `s` leaving `s1`, and that the submatches
`c` before the match become `c1`. -/
inductive Sem : Regex → Text → Caps → Text → Caps → Prop
  | eps (s : Text) (c : Caps) : Sem .eps s c s c
  | set (p : Char → Bool) (x : Char) (s : Text) (c : Caps) : p x = true →
      Sem (.set p) (x :: s) c s c
  | cat {a b : Regex} {s s1 s2 : Text} {c c1 c2 : Caps} :
      Sem a s c s1 c1 → Sem b s1 c1 s2 c2 → Sem (.cat a b) s c s2 c2
  | altL {a : Regex} (b : Regex) {s s1 : Text} {c c1 : Caps} :
      Sem a s c s1 c1 → Sem (.alt a b) s c s1 c1
  | altR (a : Regex) {b : Regex} {s s1 : Text} {c c1 : Caps} :
      Sem b s c s1 c1 → Sem (.alt a b) s c s1 c1
  | starNil (a : Regex) (g : Bool) (s : Text) (c : Caps) : Sem (.star a g) s c s c
  | starCons {a : Regex} {g : Bool} {s s1 s2 : Text} {c c1 c2 : Caps} :
      Sem a s c s1 c1 → Sem (.star a g) s1 c1 s2 c2 → Sem (.star a g) s c s2 c2
  | group (n : String) {a : Regex} {s s1 : Text} {c c1 : Caps} :
      Sem a s c s1 c1 →
      Sem (.group n a) s c s1 ((n, s.take (s.length - s1.length)) :: c1)
  | eot (c : Caps) : Sem .eot [] c [] c

/-- The language of an expression: `Lang r s s1` says that `r` matches a
prefix of `s` leaving `s1`. -/
inductive Lang : Regex → Text → Text → Prop
  | eps (s : Text) : Lang .eps s s
  | set (p : Char → Bool) (x : Char) (s : Text) : p x = true → Lang (.set p) (x :: s) s
  | cat {a b : Regex} {s s1 s2 : Text} :
      Lang a s s1 → Lang b s1 s2 → Lang (.cat a b) s s2
  | altL {a : Regex} (b : Regex) {s s1 : Text} : Lang a s s1 → Lang (.alt a b) s s1
  | altR (a : Regex) {b : Regex} {s s1 : Text} : Lang b s s1 → Lang (.alt a b) s s1
  | starNil (a : Regex) (g : Bool) (s : Text) : Lang (.star a g) s s
  | starCons {a : Regex} {g : Bool} {s s1 s2 : Text} :
      Lang a s s1 → Lang (.star a g) s1 s2 → Lang (.star a g) s s2
  | group (n : String) {a : Regex} {s s1 : Text} : Lang a s s1 → Lang (.group n a) s s1
  | eot : Lang .eot [] []

/-! ## Predicates on texts and expressions -/

/-- A text without a newline. -/
def NoNewline (s : Text) : Prop := ∀ x ∈ s, x ≠ '\n'

instance (s : Text) : Decidable (NoNewline s) := by
  unfold NoNewline; infer_instance

/-- A text made of whitespace only. -/
def AllSpace (s : Text) : Prop := ∀ x ∈ s, isSpace x = true

instance (s : Text) : Decidable (AllSpace s) := by
  unfold AllSpace; infer_instance

/-- A text with an even number of quote characters. -/
def EvenQuotes (s : Text) : Prop := s.countP isQuote % 2 = 0

instance (s : Text) : Decidable (EvenQuotes s) := by
  unfold EvenQuotes; infer_instance

/-- A text without quote characters. -/
def NoQuote (s : Text) : Prop := ∀ x ∈ s, (!isQuote x) = true

instance (s : Text) : Decidable (NoQuote s) := by
  unfold NoQuote; infer_instance

/-- The body of the repetition in `reMySQLOnDuplicateKey`: text up to and
including a second quote character. -/
def quotePair : Regex :=
  .cat (.star (.set (fun x => !isQuote x)) true)
    (.cat (.set isQuote) (.cat (.star (.set (fun x => !isQuote x)) true) (.set isQuote)))

/-- Whether an expression has no capturing group. -/
def Regex.groupFree : Regex → Bool
  | .eps => true
  | .set _ => true
  | .cat a b => a.groupFree && b.groupFree
  | .alt a b => a.groupFree && b.groupFree
  | .star a _ => a.groupFree
  | .group _ _ => false
  | .eot => true

instance : DecidableEq (Except GoError Text) := fun a b =>
  match a, b with
  | .ok x, .ok y => if h : x = y then isTrue (by rw [h]) else isFalse (fun e => h (by injection e))
  | .error x, .error y =>
    if h : x = y then isTrue (by rw [h]) else isFalse (fun e => h (by injection e))
  | .ok _, .error _ => isFalse (fun e => by cases e)
  | .error _, .ok _ => isFalse (fun e => by cases e)

/-! ## Concrete inputs -/

/-- A connection on which every call succeeds. -/
def okDriver : Driver Nat :=
  ⟨fun _ _ => none, fun _ _ _ _ => none, fun _ _ => none⟩

/-- The rows `[1], [2], ..., [n]`. -/
def rowsUpTo (n : Nat) : List (List Nat) := (List.range n).map (fun i => [i + 1])

/-- The statement of the test of an INSERT ... SELECT with a trailing clause. -/
def insertSelectOnDuplicateKey : Text :=
  "INSERT INTO tbl_temp2 (fld_id)\n  SELECT tbl_temp1.fld_order_id\n  FROM tbl_temp1 WHERE tbl_temp1.fld_order_id > 100\n  ON DUPLICATE KEY UPDATE fld_id=VALUES(fld_id)+VALUES(fld_id)\n".toList

/-- The text of the broken-insert test. -/
def emptyTupleInsert : Text := "INSERT INTO t (x,y,z) VALUES ( )".toList

/-- A statement with a one-placeholder tuple. -/
def clauseHead : Text := "INSERT INTO t (c) VALUES (?)".toList

/-- A trailing clause whose string literal holds a back quote: three quote characters. -/
def oddQuoteClause : Text :=
  " ON DUPLICATE KEY UPDATE c = VALUES(c), d = 'a\x60b'".toList

/-- The statement of the test of the trailing clause, without the clause. -/
def onDuplicateKeyHead : Text :=
  "INSERT INTO \x60t1\x60 (\x60c\x60, \x60t\x60, \x60d\x60) VALUES (?, CURRENT_TIMESTAMP,?)".toList

/-- The trailing clause of that test. -/
def onDuplicateKeyClause : Text :=
  " ON DUPLICATE KEY UPDATE \x60c\x60 = VALUES (\x60c\x60), \x60d\x60 = VALUES(\x60d\x60)".toList

/-- A statement whose column list reads like its tuple. -/
def sameColumnAndTuple : Text := "INSERT INTO t (a) VALUES (a)".toList

/-- A statement whose tuple holds a call with a blank between its parentheses. -/
def nowCallInsert : Text := "INSERT INTO t VALUES (?, NOW( ))".toList

/-- A statement whose tuple spans two lines. -/
def twoLineTuple : Text := "INSERT INTO t VALUES (?,\n?)".toList

/-- The statement of the test without a column list, on four lines. -/
def multilineInsert : Text :=
  "INSERT INTO\n    t1\nVALUES\n    (?, CURRENT_TIMESTAMP,?)".toList

/-- The slice expression `args[i:j]` for bounds in range. -/
def slice {α : Type} (args : List (List α)) (i j : Int) : List (List α) :=
  (args.drop i.toNat).take (j - i).toNat

/-- The batch of the iteration that starts at `i`: the slice
`args[i:min(i+BatchSize, len(args))]`. -/
def window {α : Type} (args : List (List α)) (i b : Nat) : List (List α) :=
  slice args (i : Int) (min ((i : Int) + (b : Int)) (args.length : Int))

/-- The trace after the call `stmt.Close()` made before a new `Prepare`, which
is made when a statement is open. -/
def closeOld {α : Type} (conn : Driver α) (s : LoopState α) : List (Event α) :=
  match s.stmt with
  | none => s.trace
  | some st => s.trace ++ [Event.close st.id (conn.close s.trace st.id)]

/-- The paths through one iteration of the loop of `MultiInsert`, entered at
`i` with a batch size `b`: the statement is kept or prepared anew, and
`Prepare` and `Exec` succeed or fail. -/
inductive LoopStep {α : Type} (conn : Driver α) (b : Nat) (q v : Text) (args : List (List α))
    (s : LoopState α) (i : Nat) : Run α ⊕ LoopState α → Prop
  /-- The open statement has the width of the batch and `Exec` succeeds. -/
  | keepOk (st : Stmt) : s.stmt = some st → (window args i b).length = s.size →
      conn.exec s.trace st.id st.query (joinArgs (window args i b)) = none →
      LoopStep conn b q v args s i
        (.inr ⟨(i : Int) + (b : Int), s.size, some st,
          s.trace ++ [Event.exec st.id (joinArgs (window args i b)) none]⟩)
  /-- The open statement has the width of the batch and `Exec` fails. -/
  | keepFail (st : Stmt) (e : GoError) : s.stmt = some st →
      (window args i b).length = s.size →
      conn.exec s.trace st.id st.query (joinArgs (window args i b)) = some e →
      LoopStep conn b q v args s i
        (.inl ⟨s.trace ++ [Event.exec st.id (joinArgs (window args i b)) (some e)]
            ++ [Event.close st.id (conn.close
              (s.trace ++ [Event.exec st.id (joinArgs (window args i b)) (some e)]) st.id)],
          .returned (some e)⟩)
  /-- A statement is needed and `Prepare` fails. -/
  | prepareFail (e : GoError) : (∀ st, s.stmt = some st → (window args i b).length ≠ s.size) →
      conn.prepare (closeOld conn s) (rewriteInsertSQL q v (window args i b).length) = some e →
      LoopStep conn b q v args s i
        (.inl ⟨closeOld conn s
            ++ [Event.prepare (rewriteInsertSQL q v (window args i b).length) (some e)],
          .returned (some e)⟩)
  /-- A statement is prepared and `Exec` succeeds. -/
  | prepareOk : (∀ st, s.stmt = some st → (window args i b).length ≠ s.size) →
      conn.prepare (closeOld conn s) (rewriteInsertSQL q v (window args i b).length) = none →
      conn.exec (closeOld conn s
          ++ [Event.prepare (rewriteInsertSQL q v (window args i b).length) none])
        (closeOld conn s).length (rewriteInsertSQL q v (window args i b).length)
        (joinArgs (window args i b)) = none →
      LoopStep conn b q v args s i
        (.inr ⟨(i : Int) + (b : Int), (window args i b).length,
          some ⟨(closeOld conn s).length, rewriteInsertSQL q v (window args i b).length⟩,
          closeOld conn s
            ++ [Event.prepare (rewriteInsertSQL q v (window args i b).length) none]
            ++ [Event.exec (closeOld conn s).length (joinArgs (window args i b)) none]⟩)
  /-- A statement is prepared and `Exec` fails. -/
  | prepareOkFail (e : GoError) :
      (∀ st, s.stmt = some st → (window args i b).length ≠ s.size) →
      conn.prepare (closeOld conn s) (rewriteInsertSQL q v (window args i b).length) = none →
      conn.exec (closeOld conn s
          ++ [Event.prepare (rewriteInsertSQL q v (window args i b).length) none])
        (closeOld conn s).length (rewriteInsertSQL q v (window args i b).length)
        (joinArgs (window args i b)) = some e →
      LoopStep conn b q v args s i
        (.inl ⟨closeOld conn s
            ++ [Event.prepare (rewriteInsertSQL q v (window args i b).length) none]
            ++ [Event.exec (closeOld conn s).length (joinArgs (window args i b)) (some e)]
            ++ [Event.close (closeOld conn s).length (conn.close
              (closeOld conn s
                ++ [Event.prepare (rewriteInsertSQL q v (window args i b).length) none]
                ++ [Event.exec (closeOld conn s).length (joinArgs (window args i b)) (some e)])
              (closeOld conn s).length)],
          .returned (some e)⟩)

/-- The error of a failed `Prepare` or `Exec` call; `none` for a call that
succeeded and for a `Close`. -/
def Event.failure {α : Type} : Event α → Option GoError
  | .prepare _ e => e
  | .exec _ _ e => e
  | .close _ _ => none

/-- Whether a call is a `Close`. -/
def Event.isClose {α : Type} : Event α → Bool
  | .close _ _ => true
  | _ => false

/-- A trace in which no `Prepare` and no `Exec` failed. -/
def NoFail {α : Type} (tr : List (Event α)) : Prop := ∀ ev ∈ tr, ev.failure = none

/-- The two ways a run of `MultiInsert` that reached the loop ends: every
`Prepare` and `Exec` succeeded and the run returns what the final `Close`
returned; or one `Prepare` or `Exec` failed, only `Close` calls follow it, and
the run returns its error. -/
def RunShape {α : Type} (conn : Driver α) (r : Run α) : Prop :=
  (NoFail r.trace ∧ ∃ tr id, r.trace = tr ++ [Event.close id (conn.close tr id)]
      ∧ r.outcome = Outcome.returned (conn.close tr id))
    ∨ ∃ tr0 ev e closes, r.trace = tr0 ++ ev :: closes ∧ NoFail tr0 ∧ ev.failure = some e
        ∧ (∀ x ∈ closes, x.isClose = true) ∧ r.outcome = Outcome.returned (some e)
        ∧ ((∃ mq, conn.prepare tr0 mq = some e) ∨ ∃ id sq a, conn.exec tr0 id sq a = some e)

/-- A connection on which every `Prepare` fails, as in the test of a failed prepare. -/
def errPrepareDB : Driver Nat :=
  ⟨fun _ _ => some "Unable to prepare any statement", fun _ _ _ _ => none, fun _ _ => none⟩

/-- A connection on which `Prepare` and `Exec` succeed and every `Close` fails. -/
def closeFailDriver : Driver Nat :=
  ⟨fun _ _ => none, fun _ _ _ _ => none, fun _ _ => some "close failed"⟩

/-- One call read against the life cycle of prepared statements.  The state
is the number of calls read and the statement that is open, if any; the
result is `none` when the call breaks the discipline: a `Prepare` while a
statement is open, an `Exec` or a `Close` on a statement that is not the open
one.  A `Prepare` that succeeds opens the statement named by its position, a
`Close` leaves no statement open. -/
def protoStep {α : Type} : Option (Nat × Option Nat) → Event α → Option (Nat × Option Nat)
  | none, _ => none
  | some (n, none), .prepare _ none => some (n + 1, some n)
  | some (n, none), .prepare _ (some _) => some (n + 1, none)
  | some (_, some _), .prepare _ _ => none
  | some (n, live), .exec id _ _ => if live = some id then some (n + 1, live) else none
  | some (n, live), .close id _ => if live = some id then some (n + 1, none) else none

/-- A trace read against the life cycle of prepared statements, from the
state in which no call was made and no statement is open. -/
def replay {α : Type} (tr : List (Event α)) : Option (Nat × Option Nat) :=
  tr.foldl protoStep (some (0, none))

/-- Number of `Close` calls on the statement named `p` in a trace. -/
def closeCount {α : Type} (p : Nat) (tr : List (Event α)) : Nat :=
  tr.countP (fun ev => match ev with
    | .close id _ => id == p
    | _ => false)

/-- A connection on which the second `Exec` fails. -/
def secondExecFails : Driver Nat :=
  ⟨fun _ _ => none, fun h _ _ _ => if 2 ≤ h.length then some "exec failed" else none,
    fun _ _ => none⟩

/-- The bounds `(i, j)` of the slices taken by the loop header of
`MultiInsert`, `for i := 0; i < len(args); i += BatchSize` with
`j := min(i+BatchSize, len(args))`, for as many iterations as the fuel allows. -/
def windowBounds (BatchSize : Int) (len : Nat) : Nat → Int → List (Int × Int)
  | 0, _ => []
  | fuel + 1, i =>
    if i < (len : Int) then
      (i, min (i + BatchSize) (len : Int)) :: windowBounds BatchSize len fuel (i + BatchSize)
    else []

/-- The argument lists of the `Exec` calls of a trace, in order. -/
def execArgs {α : Type} : List (Event α) → List (List α)
  | [] => []
  | .exec _ a _ :: tr => a :: execArgs tr
  | _ :: tr => execArgs tr

/-- Every `Exec` of the trace, the one after `n` earlier `Exec` calls, is made
with the joined arguments of the rows `args[n*b : min(n*b+b, len(args))]`, on
a statement whose `Prepare` call stands earlier in the trace, succeeded, and
was given the statement text rewritten for the number of these rows. -/
def ExecsPrepared {α : Type} (q t : Text) (b : Nat) (args : List (List α))
    (tr : List (Event α)) : Prop :=
  ∀ (k id : Nat) (a : List α) (e : Option GoError), tr[k]? = some (Event.exec id a e) →
    execCount (tr.take k) * b < args.length
      ∧ a = joinArgs (window args (execCount (tr.take k) * b) b)
      ∧ id < k
      ∧ tr[id]? = some (Event.prepare
          (rewriteInsertSQL q t (window args (execCount (tr.take k) * b) b).length) none)

/-- A run of whitespace characters and one-line comment blocks, slash star to
star slash: the texts matched by the repetition that `reSQLInsertStmt` puts
before INSERT and between INSERT and INTO. -/
inductive CommentsOrSpace : Text → Prop
  /-- The empty run. -/
  | nil : CommentsOrSpace []
  /-- A whitespace character before a run. -/
  | space (x : Char) (rest : Text) : isSpace x = true → CommentsOrSpace rest →
      CommentsOrSpace (x :: rest)
  /-- A comment block, without a newline inside, before a run. -/
  | comment (body rest : Text) : NoNewline body → CommentsOrSpace rest →
      CommentsOrSpace ('/' :: '*' :: (body ++ ('*' :: '/' :: rest)))

/-- The shape asked by the first branch of `reSQLInsertStmt`: the keyword
INSERT, a run of whitespace and comment blocks, the keyword INTO and one more
character on the same line. -/
def InsertShape (s : Text) : Prop :=
  ∃ (pre gap post : Text) (x : Char),
    s = pre ++ ("INSERT".toList ++ (gap ++ ("INTO".toList ++ x :: post)))
      ∧ CommentsOrSpace gap ∧ x ≠ '\n'

/-! ## Text lemmas -/

theorem stringsJoin_replicate_succ (sep t : Text) (n : Nat) :
    stringsJoin sep (List.replicate (n + 2) t) = t ++ sep ++ stringsJoin sep (List.replicate (n + 1) t) := by
  simp [List.replicate_succ, stringsJoin]

theorem stringsJoin_replicate_length (sep t : Text) (n : Nat) :
    (stringsJoin sep (List.replicate (n + 1) t)).length = (n + 1) * t.length + n * sep.length := by
  induction n with
  | zero => simp [stringsJoin]
  | succ n ih =>
    rw [stringsJoin_replicate_succ, List.length_append, List.length_append, ih]
    ring

theorem splitFirst_first (t : Text) (ht : t ≠ []) (post : Text) :
    ∀ pre : Text, (∀ a b : Text, pre ++ t = a ++ t ++ b → b = []) →
      splitFirst t (pre ++ t ++ post) = some (pre, post) := by
  intro pre
  induction pre with
  | nil =>
    intro _
    obtain ⟨x, t1, rfl⟩ := List.exists_cons_of_ne_nil ht
    have hp : (x :: t1).isPrefixOf (x :: t1 ++ post) = true := by
      rw [List.isPrefixOf_iff_prefix]; exact List.prefix_append _ _
    simp only [List.nil_append, List.cons_append] at hp ⊢
    rw [splitFirst, if_pos hp]
    simp
  | cons x pre ih =>
    intro h
    have hn : t.isPrefixOf (x :: pre ++ t ++ post) = false := by
      cases hq : t.isPrefixOf (x :: pre ++ t ++ post) with
      | false => rfl
      | true =>
        rw [List.isPrefixOf_iff_prefix] at hq
        have h1 : t <+: (x :: pre ++ t) := by
          apply List.prefix_of_prefix_length_le hq (List.prefix_append _ _)
          simp only [List.length_append, List.length_cons]
          omega
        obtain ⟨b, hb⟩ := h1
        have hb0 := h [] b (by simpa using hb.symm)
        subst hb0
        have hl := congrArg List.length hb
        simp only [List.length_append, List.length_cons, List.length_nil] at hl
        omega
    simp only [List.cons_append] at hn ⊢
    rw [splitFirst, hn]
    have ih1 := ih (fun a b hab => h (x :: a) b (by simp [hab]))
    simp only [List.append_assoc] at ih1
    simp [ih1]

theorem rewriteInsertSQL_first (pre t post : Text) (N : Nat) (ht : t ≠ [])
    (hfirst : ∀ a b : Text, pre ++ t = a ++ t ++ b → b = []) :
    rewriteInsertSQL (pre ++ t ++ post) t N
      = pre ++ stringsJoin ",".toList (List.replicate N t) ++ post := by
  unfold rewriteInsertSQL stringsReplaceFirst
  split
  · next h => rw [← h]
  · obtain ⟨x, t1, rfl⟩ := List.exists_cons_of_ne_nil ht
    simp only
    rw [splitFirst_first (x :: t1) ht post pre hfirst]

/-! ## The batching loop when every call succeeds -/

theorem batch_length {α : Type} (args : List (List α)) (i b : Nat) (hi : i < args.length) :
    ((args.drop (i : Int).toNat).take
        (min ((i : Int) + (b : Int)) (args.length : Int) - (i : Int)).toNat).length
      = Nat.min b (args.length - i) := by
  unfold min
  split
  · next h =>
    have : ((i : Int) + (b : Int) - (i : Int)).toNat = b := by omega
    rw [this]
    simp
  · next h =>
    have : ((args.length : Int) - (i : Int)).toNat = args.length - i := by omega
    rw [this]
    simp
    omega

theorem min_bounds (i b R : Nat) (hi : i < R) :
    (0 : Int) ≤ (i : Int) ∧ (i : Int) ≤ min ((i : Int) + (b : Int)) (R : Int) := by
  unfold min
  split <;> omega

theorem batchLoop_ok {α : Type} (conn : Driver α) (b : Nat) (hb : 1 ≤ b) (q v : Text)
    (args : List (List α))
    (hp : ∀ h s, conn.prepare h s = none) (he : ∀ h n s a, conn.exec h n s a = none) :
    ∀ (fuel : Nat) (s : LoopState α) (i : Nat) (st : Stmt), s.i = (i : Int) → s.stmt = some st →
      (s.size = b ∨ args.length ≤ i) → args.length - i < fuel →
      (∃ e, (batchLoop conn (b : Int) q v args fuel s).outcome = Outcome.returned e)
      ∧ execCount (batchLoop conn (b : Int) q v args fuel s).trace
          = execCount s.trace + (args.length - i + b - 1) / b
      ∧ prepareCount (batchLoop conn (b : Int) q v args fuel s).trace
          = prepareCount s.trace + (if (args.length - i) % b = 0 then 0 else 1) := by
  intro fuel
  induction fuel with
  | zero => intro s i st _ _ _ h; omega
  | succ fuel ih =>
    intro s i st hi hst hsz hfuel
    obtain ⟨si, ssize, sstmt, str⟩ := s
    simp only at hi hst hsz
    subst hi hst
    rw [batchLoop]
    by_cases hlt : i < args.length
    · have hlt' : (i : Int) < (args.length : Int) := by exact_mod_cast hlt
      have hsz' : ssize = b := by
        rcases hsz with h | h
        · exact h
        · omega
      subst hsz'
      simp only [hlt', if_true, loopBody, min_bounds i ssize args.length hlt, and_self,
        batch_length args i ssize hlt]
      by_cases hfull : ssize ≤ args.length - i
      · have hm : Nat.min ssize (args.length - i) = ssize := Nat.min_eq_left hfull
        simp only [hm, ne_eq, not_true_eq_false, if_false, execBatch, he]
        have := ih ⟨(i : Int) + (ssize : Int), ssize, some st,
          str ++ [Event.exec st.id (joinArgs ((args.drop (i : Int).toNat).take
            (min ((i : Int) + (ssize : Int)) (args.length : Int) - (i : Int)).toNat)) none]⟩
          (i + ssize) st (by push_cast; rfl) rfl (Or.inl rfl) (by omega)
        obtain ⟨h1, h2, h3⟩ := this
        refine ⟨h1, ?_, ?_⟩
        · rw [h2]
          simp only [execCount, List.countP_append, List.countP_cons, List.countP_nil,
            Event.isExec, if_true]
          have e1 : args.length - i + ssize - 1 = (args.length - (i + ssize) + ssize - 1) + ssize := by
            omega
          rw [e1, Nat.add_div_right _ (by omega)]
          omega
        · rw [h3]
          simp only [prepareCount, List.countP_append, List.countP_cons, List.countP_nil,
            Event.isPrepare]
          have e1 : args.length - i = (args.length - (i + ssize)) + ssize := by omega
          rw [e1, Nat.add_mod_right]
          simp
      · have hm : Nat.min ssize (args.length - i) = args.length - i := Nat.min_eq_right (by omega)
        have hne : args.length - i ≠ ssize := by omega
        simp only [hm, ne_eq, hne, not_false_eq_true, if_true, execBatch, he, hp]
        have := ih ⟨(i : Int) + (ssize : Int), args.length - i,
          some ⟨(str ++ [Event.close st.id (conn.close str st.id)]).length,
            rewriteInsertSQL q v (args.length - i)⟩,
          str ++ [Event.close st.id (conn.close str st.id)]
            ++ [Event.prepare (rewriteInsertSQL q v (args.length - i)) none]
            ++ [Event.exec (str ++ [Event.close st.id (conn.close str st.id)]).length
              (joinArgs ((args.drop (i : Int).toNat).take
            (min ((i : Int) + (ssize : Int)) (args.length : Int) - (i : Int)).toNat)) none]⟩
          (i + ssize) _ (by push_cast; rfl) rfl (Or.inr (by omega)) (by omega)
        obtain ⟨h1, h2, h3⟩ := this
        refine ⟨h1, ?_, ?_⟩
        · rw [h2]
          simp only [execCount, List.countP_append, List.countP_cons, List.countP_nil,
            Event.isExec, if_true]
          have e0 : args.length - (i + ssize) + ssize - 1 = ssize - 1 := by omega
          rw [e0, Nat.div_eq_of_lt (by omega)]
          have e1 : (args.length - i + ssize - 1) / ssize = 1 := by
            apply Nat.div_eq_of_lt_le <;> omega
          rw [e1]
          simp
        · rw [h3]
          simp only [prepareCount, List.countP_append, List.countP_cons, List.countP_nil,
            Event.isPrepare]
          have e0 : (args.length - (i + ssize)) % ssize = 0 := by
            have : args.length - (i + ssize) = 0 := by omega
            rw [this]; simp
          have e1 : (args.length - i) % ssize ≠ 0 := by
            rw [Nat.mod_eq_of_lt (by omega)]; omega
          simp [e0, e1]
    · have hlt' : ¬ (i : Int) < (args.length : Int) := by
        intro h; exact hlt (by exact_mod_cast h)
      have e0 : args.length - i = 0 := by omega
      simp only [hlt', if_false, e0]
      refine ⟨⟨_, rfl⟩, ?_, ?_⟩
      · simp [execCount, Event.isExec, Nat.div_eq_of_lt (show b - 1 < b by omega)]
      · simp [prepareCount, Event.isPrepare]

/-! ## The matcher and the declarative reading agree -/

theorem Sem.lang {r : Regex} {s s1 : Text} {c c1 : Caps} (h : Sem r s c s1 c1) :
    Lang r s s1 := by
  induction h with
  | eps s c => exact Lang.eps s
  | set p x s c hp => exact Lang.set p x s hp
  | cat _ _ iha ihb => exact Lang.cat iha ihb
  | altL b _ ih => exact Lang.altL b ih
  | altR a _ ih => exact Lang.altR a ih
  | starNil a g s c => exact Lang.starNil a g s
  | starCons _ _ iha ihb => exact Lang.starCons iha ihb
  | group n _ ih => exact Lang.group n ih
  | eot c => exact Lang.eot

theorem Lang.suffix {r : Regex} {s s1 : Text} (h : Lang r s s1) : s1 <:+ s := by
  induction h with
  | eps s => exact List.suffix_refl s
  | set p x s hp => exact List.suffix_cons x s
  | cat _ _ iha ihb => exact ihb.trans iha
  | altL b _ ih => exact ih
  | altR a _ ih => exact ih
  | starNil a g s => exact List.suffix_refl s
  | starCons _ _ iha ihb => exact ihb.trans iha
  | group n _ ih => exact ih
  | eot => exact List.suffix_refl _

theorem starLoop_sound {α : Type} (a : Regex) (g : Bool)
    (step : Text → Caps → (Text → Caps → Option α) → Option α)
    (hstep : ∀ s c k x, step s c k = some x → ∃ s1 c1, Sem a s c s1 c1 ∧ k s1 c1 = some x) :
    ∀ (n : Nat) (s : Text) (c : Caps) (k : Text → Caps → Option α) (x : α),
      starLoop step g n s c k = some x →
      ∃ s1 c1, Sem (.star a g) s c s1 c1 ∧ k s1 c1 = some x := by
  intro n
  induction n with
  | zero =>
    intro s c k x h
    exact ⟨s, c, Sem.starNil a g s c, h⟩
  | succ n ih =>
    intro s c k x h
    have hmore : ∀ y, step s c (fun s1 c1 =>
        if s1.length < s.length then starLoop step g n s1 c1 k else none) = some y →
        ∃ s1 c1, Sem (.star a g) s c s1 c1 ∧ k s1 c1 = some y := by
      intro y hy
      obtain ⟨s1, c1, h1, h2⟩ := hstep _ _ _ _ hy
      split at h2
      · obtain ⟨s2, c2, h3, h4⟩ := ih _ _ _ _ h2
        exact ⟨s2, c2, Sem.starCons h1 h3, h4⟩
      · cases h2
    rw [starLoop] at h
    cases g with
    | true =>
      simp only [if_true] at h
      split at h
      · next y hy =>
        cases h
        exact hmore _ hy
      · exact ⟨s, c, Sem.starNil a _ s c, h⟩
    | false =>
      simp only [Bool.false_eq_true, if_false] at h
      split at h
      · next y hy =>
        cases h
        exact ⟨s, c, Sem.starNil a _ s c, hy⟩
      · exact hmore _ h

theorem run_sound {α : Type} (r : Regex) :
    ∀ (s : Text) (c : Caps) (k : Text → Caps → Option α) (x : α),
      run r s c k = some x → ∃ s1 c1, Sem r s c s1 c1 ∧ k s1 c1 = some x := by
  induction r with
  | eps =>
    intro s c k x h
    exact ⟨s, c, Sem.eps s c, by simpa [run] using h⟩
  | set p =>
    intro s c k x h
    cases s with
    | nil => simp [run] at h
    | cons y s =>
      rw [run] at h
      split at h
      · next hp => exact ⟨s, c, Sem.set p y s c hp, h⟩
      · cases h
  | cat a b iha ihb =>
    intro s c k x h
    rw [run] at h
    obtain ⟨s1, c1, h1, h2⟩ := iha _ _ _ _ h
    obtain ⟨s2, c2, h3, h4⟩ := ihb _ _ _ _ h2
    exact ⟨s2, c2, Sem.cat h1 h3, h4⟩
  | alt a b iha ihb =>
    intro s c k x h
    rw [run] at h
    split at h
    · next y hy =>
      cases h
      obtain ⟨s1, c1, h1, h2⟩ := iha _ _ _ _ hy
      exact ⟨s1, c1, Sem.altL b h1, h2⟩
    · obtain ⟨s1, c1, h1, h2⟩ := ihb _ _ _ _ h
      exact ⟨s1, c1, Sem.altR a h1, h2⟩
  | star a g iha =>
    intro s c k x h
    rw [run] at h
    exact starLoop_sound a g (run a) iha _ _ _ _ _ h
  | group n a iha =>
    intro s c k x h
    rw [run] at h
    obtain ⟨s1, c1, h1, h2⟩ := iha _ _ _ _ h
    exact ⟨s1, _, Sem.group n h1, h2⟩
  | eot =>
    intro s c k x h
    cases s with
    | nil => exact ⟨[], c, Sem.eot c, by simpa [run] using h⟩
    | cons y s => simp [run] at h

theorem starLoop_exit {α : Type} (step : Text → Caps → (Text → Caps → Option α) → Option α)
    (g : Bool) (n : Nat) (s : Text) (c : Caps) (k : Text → Caps → Option α)
    (h : (k s c).isSome = true) : (starLoop step g n s c k).isSome = true := by
  cases n with
  | zero => simpa [starLoop] using h
  | succ n =>
    rw [starLoop]
    cases g with
    | true =>
      simp only [if_true]
      split
      · rfl
      · exact h
    | false =>
      simp only [Bool.false_eq_true, if_false]
      split
      · rfl
      · next hn => rw [hn] at h; cases h

theorem run_complete_aux {α : Type} {r : Regex} {s s1 : Text} (h : Lang r s s1) :
    ∀ (c : Caps) (k : Text → Caps → Option α), (∀ c2, (k s1 c2).isSome = true) →
      (run r s c k).isSome = true
        ∧ ∀ a g, r = Regex.star a g → ∀ n, s.length ≤ n →
            (starLoop (run a) g n s c k).isSome = true := by
  induction h with
  | eps s =>
    intro c k hk
    exact ⟨by simpa [run] using hk c, fun a g h => by cases h⟩
  | set p x s hp =>
    intro c k hk
    exact ⟨by simpa [run, hp] using hk c, fun a g h => by cases h⟩
  | @cat a b s s1 s2 _ _ iha ihb =>
    intro c k hk
    refine ⟨?_, fun a g h => by cases h⟩
    rw [run]
    exact (iha c _ (fun c2 => (ihb c2 k hk).1)).1
  | altL b _ ih =>
    intro c k hk
    refine ⟨?_, fun a g h => by cases h⟩
    rw [run]
    have := (ih c k hk).1
    split
    · rfl
    · next hn => rw [hn] at this; cases this
  | altR a _ ih =>
    intro c k hk
    refine ⟨?_, fun a g h => by cases h⟩
    rw [run]
    split
    · rfl
    · exact (ih c k hk).1
  | starNil a g s =>
    intro c k hk
    refine ⟨?_, ?_⟩
    · rw [run]; exact starLoop_exit _ _ _ _ _ _ (hk c)
    · intro a1 g1 h n _
      cases h
      exact starLoop_exit _ _ _ _ _ _ (hk c)
  | @starCons a g s s1 s2 h1 h2 iha ihb =>
    intro c k hk
    have hsuf := h1.suffix
    have key : ∀ n, s.length ≤ n → (starLoop (run a) g n s c k).isSome = true := by
      intro n hn
      by_cases hlen : s1.length < s.length
      · obtain ⟨n, rfl⟩ : ∃ m, n = m + 1 := ⟨n - 1, by omega⟩
        have hcont : ∀ c2, ((fun (t : Text) (c1 : Caps) =>
            if t.length < s.length then starLoop (run a) g n t c1 k else none) s1 c2).isSome
              = true := by
          intro c2
          simp only [hlen, if_true]
          exact (ihb c2 k hk).2 a g rfl n (by omega)
        have hbody := (iha c (fun (t : Text) (c1 : Caps) =>
            if t.length < s.length then starLoop (run a) g n t c1 k else none) hcont).1
        rw [starLoop]
        cases g with
        | true =>
          simp only [if_true]
          split
          · rfl
          · next hn => rw [hn] at hbody; cases hbody
        | false =>
          simp only [Bool.false_eq_true, if_false]
          split
          · rfl
          · exact hbody
      · have heq : s1 = s := by
          apply List.IsSuffix.eq_of_length hsuf
          have := hsuf.length_le
          omega
        subst heq
        exact (ihb c k hk).2 a g rfl n hn
    refine ⟨?_, ?_⟩
    · rw [run]; exact key _ (Nat.le_refl _)
    · intro a1 g1 h n hn
      cases h
      exact key n hn
  | @group n a s s1 _ ih =>
    intro c k hk
    refine ⟨?_, fun a g h => by cases h⟩
    rw [run]
    exact (ih c (fun t c1 => k t ((n, s.take (s.length - t.length)) :: c1)) (fun c2 => hk _)).1
  | eot =>
    intro c k hk
    exact ⟨by simpa [run] using hk c, fun a g h => by cases h⟩

theorem run_complete {α : Type} {r : Regex} {s s1 : Text} (h : Lang r s s1)
    (c : Caps) (k : Text → Caps → Option α) (hk : ∀ c2, (k s1 c2).isSome = true) :
    (run r s c k).isSome = true :=
  (run_complete_aux h c k hk).1

theorem matchAt_sound {r : Regex} {s rest : Text} {c : Caps}
    (h : matchAt r s = some (rest, c)) : Sem r s [] rest c := by
  obtain ⟨s1, c1, h1, h2⟩ := run_sound r s [] _ _ h
  cases h2
  exact h1

theorem matchAt_complete {r : Regex} {s s1 : Text} (h : Lang r s s1) :
    (matchAt r s).isSome = true :=
  run_complete h [] _ (fun _ => rfl)

theorem matchAt_none {r : Regex} {s : Text} (h : matchAt r s = none) (s1 : Text) :
    ¬ Lang r s s1 := by
  intro hl
  have := matchAt_complete hl
  rw [h] at this
  cases this

theorem take_suffix_append {s rest : Text} (h : rest <:+ s) :
    s.take (s.length - rest.length) ++ rest = s := by
  obtain ⟨m, rfl⟩ := h
  simp

/-- What a successful `find` returns: a split of the text around a match of
the expression, with no match starting further left. -/
theorem find_some {r : Regex} : ∀ {s : Text} {m : Match}, find r s = some m →
    s = m.pre ++ (m.matched ++ m.post)
      ∧ Sem r (m.matched ++ m.post) [] m.post m.caps
      ∧ ∀ a b : Text, s = a ++ b → a.length < m.pre.length → ∀ s1, ¬ Lang r b s1 := by
  intro s
  induction s with
  | nil =>
    intro m h
    rw [find] at h
    split at h
    · next rest c hm =>
      cases h
      have hs := matchAt_sound hm
      have hnil : rest = [] := List.suffix_nil.mp hs.lang.suffix
      subst hnil
      exact ⟨rfl, hs, fun a b _ hlt => by simp at hlt⟩
    · cases h
  | cons x s ih =>
    intro m h
    rw [find] at h
    split at h
    · next rest c hm =>
      cases h
      have hs := matchAt_sound hm
      have hcat := take_suffix_append hs.lang.suffix
      refine ⟨by simpa using hcat.symm, ?_, fun a b _ hlt => by simp at hlt⟩
      simp only
      rw [hcat]
      exact hs
    · next hm =>
      split at h
      · next m1 hf =>
        cases h
        obtain ⟨h1, h2, h3⟩ := ih hf
        refine ⟨by simp [← h1], h2, ?_⟩
        intro a b hab hlt s1
        cases a with
        | nil =>
          simp only [List.nil_append] at hab
          subst hab
          exact matchAt_none hm s1
        | cons y a =>
          simp only [List.cons_append, List.cons.injEq] at hab
          exact h3 a b hab.2 (by simpa using hlt) s1
      · cases h

theorem find_none {r : Regex} : ∀ {s : Text}, find r s = none →
    ∀ a b : Text, s = a ++ b → ∀ s1, ¬ Lang r b s1 := by
  intro s
  induction s with
  | nil =>
    intro h a b hab s1
    rw [find] at h
    split at h
    · cases h
    · next hm =>
      have : b = [] := (List.append_eq_nil.mp hab.symm).2
      subst this
      exact matchAt_none hm s1
  | cons x s ih =>
    intro h a b hab s1
    rw [find] at h
    split at h
    · cases h
    · next hm =>
      split at h
      · cases h
      · next hf =>
        cases a with
        | nil =>
          simp only [List.nil_append] at hab
          subst hab
          exact matchAt_none hm s1
        | cons y a =>
          simp only [List.cons_append, List.cons.injEq] at hab
          exact ih hf a b hab.2 s1

theorem find_isSome {r : Regex} {s a b s1 : Text} (hs : s = a ++ b) (h : Lang r b s1) :
    (find r s).isSome = true := by
  cases hf : find r s with
  | some m => rfl
  | none => exact absurd h (find_none hf a b hs s1)

/-- `MatchString` holds exactly when the expression matches somewhere in the text. -/
theorem matchString_iff (r : Regex) (s : Text) :
    MatchString r s = true ↔ ∃ a b s1 : Text, s = a ++ b ∧ Lang r b s1 := by
  constructor
  · intro h
    unfold MatchString at h
    cases hf : find r s with
    | none => rw [hf] at h; cases h
    | some m =>
      obtain ⟨h1, h2, _⟩ := find_some hf
      exact ⟨m.pre, m.matched ++ m.post, m.post, h1, h2.lang⟩
  · rintro ⟨a, b, s1, hs, hl⟩
    exact find_isSome hs hl

theorem first_occurrence_of_drop (pre t : Text)
    (h : ∀ k, k < pre.length → ¬ t <+: (pre ++ t).drop k) :
    ∀ a b : Text, pre ++ t = a ++ t ++ b → b = [] := by
  intro a b hab
  by_contra hb
  have hlen := congrArg List.length hab
  simp only [List.length_append] at hlen
  have hb1 : 0 < b.length := List.length_pos.mpr hb
  apply h a.length (by omega)
  rw [hab, List.append_assoc, List.drop_left]
  exact List.prefix_append _ _

/-! ## The matches of the patterns -/

theorem lang_eps {s s1 : Text} : Lang .eps s s1 ↔ s = s1 := by
  constructor
  · intro h; cases h; rfl
  · rintro rfl; exact Lang.eps s

theorem lang_set {p : Char → Bool} {s s1 : Text} :
    Lang (.set p) s s1 ↔ ∃ x, s = x :: s1 ∧ p x = true := by
  constructor
  · intro h; cases h with | set _ x _ hp => exact ⟨x, rfl, hp⟩
  · rintro ⟨x, rfl, hp⟩; exact Lang.set p x s1 hp

theorem lang_cat {a b : Regex} {s s2 : Text} :
    Lang (.cat a b) s s2 ↔ ∃ s1, Lang a s s1 ∧ Lang b s1 s2 := by
  constructor
  · intro h; cases h with | cat h1 h2 => exact ⟨_, h1, h2⟩
  · rintro ⟨s1, h1, h2⟩; exact Lang.cat h1 h2

theorem lang_alt {a b : Regex} {s s1 : Text} :
    Lang (.alt a b) s s1 ↔ Lang a s s1 ∨ Lang b s s1 := by
  constructor
  · intro h
    cases h with
    | altL _ h => exact Or.inl h
    | altR _ h => exact Or.inr h
  · rintro (h | h)
    · exact Lang.altL b h
    · exact Lang.altR a h

theorem lang_group {n : String} {a : Regex} {s s1 : Text} :
    Lang (.group n a) s s1 ↔ Lang a s s1 := by
  constructor
  · intro h; cases h with | group _ h => exact h
  · intro h; exact Lang.group n h

theorem lang_eot {s s1 : Text} : Lang .eot s s1 ↔ s = [] ∧ s1 = [] := by
  constructor
  · intro h; cases h; exact ⟨rfl, rfl⟩
  · rintro ⟨rfl, rfl⟩; exact Lang.eot

theorem lang_chr {c : Char} {s s1 : Text} : Lang (Regex.chr c) s s1 ↔ s = c :: s1 := by
  unfold Regex.chr
  rw [lang_set]
  constructor
  · rintro ⟨x, rfl, hx⟩
    simp only [beq_iff_eq] at hx
    rw [hx]
  · rintro rfl
    exact ⟨c, rfl, by simp⟩

theorem lang_lit {w s s1 : Text} : Lang (Regex.lit w) s s1 ↔ s = w ++ s1 := by
  induction w generalizing s with
  | nil => simp [Regex.lit, lang_eps]
  | cons c w ih =>
    simp only [Regex.lit, lang_cat, lang_chr, List.cons_append]
    constructor
    · rintro ⟨t, rfl, h⟩
      rw [ih.mp h]
    · rintro rfl
      exact ⟨w ++ s1, rfl, ih.mpr rfl⟩

/-- Repetition of an expression that matches exactly one character of a class. -/
theorem lang_star_single {a : Regex} {p : Char → Bool} {g : Bool}
    (ha : ∀ s s1, Lang a s s1 ↔ ∃ x, s = x :: s1 ∧ p x = true) {s s1 : Text} :
    Lang (.star a g) s s1 ↔ ∃ m : Text, s = m ++ s1 ∧ ∀ x ∈ m, p x = true := by
  constructor
  · intro h
    generalize hr : Regex.star a g = r at h
    induction h with
    | starNil a1 g1 s => exact ⟨[], rfl, by simp⟩
    | @starCons a1 g1 s t s2 h1 _ _ ih2 =>
      cases hr
      obtain ⟨x, rfl, hx⟩ := (ha _ _).mp h1
      obtain ⟨m, rfl, hm⟩ := ih2 rfl
      exact ⟨x :: m, rfl, by simpa [hx] using hm⟩
    | _ => cases hr
  · rintro ⟨m, rfl, hm⟩
    induction m with
    | nil => exact Lang.starNil a g _
    | cons x m ih =>
      have hx : p x = true := hm x (List.mem_cons_self _ _)
      exact Lang.starCons ((ha _ _).mpr ⟨x, rfl, hx⟩)
        (ih (fun y hy => hm y (List.mem_cons_of_mem _ hy)))

theorem lang_plus_single {a : Regex} {p : Char → Bool}
    (ha : ∀ s s1, Lang a s s1 ↔ ∃ x, s = x :: s1 ∧ p x = true) {s s1 : Text} :
    Lang (Regex.plus a) s s1 ↔ ∃ m : Text, m ≠ [] ∧ s = m ++ s1 ∧ ∀ x ∈ m, p x = true := by
  unfold Regex.plus
  rw [lang_cat]
  constructor
  · rintro ⟨t, h1, h2⟩
    obtain ⟨x, rfl, hx⟩ := (ha _ _).mp h1
    obtain ⟨m, rfl, hm⟩ := (lang_star_single ha).mp h2
    exact ⟨x :: m, by simp, rfl, by simpa [hx] using hm⟩
  · rintro ⟨m, hne, rfl, hm⟩
    obtain ⟨x, m1, rfl⟩ := List.exists_cons_of_ne_nil hne
    exact ⟨m1 ++ s1, (ha _ _).mpr ⟨x, rfl, hm x (List.mem_cons_self _ _)⟩,
      (lang_star_single ha).mpr ⟨m1, rfl, fun y hy => hm y (List.mem_cons_of_mem _ hy)⟩⟩

theorem lang_star_set {p : Char → Bool} {g : Bool} {s s1 : Text} :
    Lang (.star (.set p) g) s s1 ↔ ∃ m : Text, s = m ++ s1 ∧ ∀ x ∈ m, p x = true :=
  lang_star_single (fun _ _ => lang_set)

theorem lang_plus_set {p : Char → Bool} {s s1 : Text} :
    Lang (Regex.plus (.set p)) s s1 ↔ ∃ m : Text, m ≠ [] ∧ s = m ++ s1 ∧ ∀ x ∈ m, p x = true :=
  lang_plus_single (fun _ _ => lang_set)

theorem lang_star_dot {g : Bool} {s s1 : Text} :
    Lang (.star Regex.dot g) s s1 ↔ ∃ m : Text, s = m ++ s1 ∧ NoNewline m := by
  unfold Regex.dot
  rw [lang_star_set]
  simp [NoNewline]

theorem lang_plus_dot {s s1 : Text} :
    Lang (Regex.plus Regex.dot) s s1 ↔ ∃ m : Text, m ≠ [] ∧ s = m ++ s1 ∧ NoNewline m := by
  unfold Regex.dot
  rw [lang_plus_set]
  simp [NoNewline]

theorem lang_space_group {s s1 : Text} :
    Lang (.group "" (.alt (Regex.chr '\n') (.set isSpace))) s s1
      ↔ ∃ x, s = x :: s1 ∧ isSpace x = true := by
  rw [lang_group, lang_alt, lang_chr, lang_set]
  constructor
  · rintro (rfl | h)
    · exact ⟨'\n', rfl, by decide⟩
    · exact h
  · intro h; exact Or.inr h

/-- The matches of `reSQLValues`: the token VALUES on the line where the match
starts, whitespace, and a parenthesised non-empty group within one line. -/
theorem lang_reSQLValues {s s1 : Text} :
    Lang reSQLValues s s1 ↔ ∃ a ws body rest : Text,
      s = a ++ ("VALUES".toList ++ (ws ++ ('(' :: (body ++ (')' :: (rest ++ s1))))))
        ∧ NoNewline a ∧ AllSpace ws ∧ body ≠ [] ∧ NoNewline body ∧ NoNewline rest := by
  unfold reSQLValues
  simp only [lang_cat, lang_star_dot, lang_lit, lang_group, lang_chr, lang_plus_dot,
    lang_star_single (fun _ _ => lang_space_group)]
  constructor
  · rintro ⟨t1, ⟨a, rfl, ha⟩, t2, rfl, t3, ⟨ws, rfl, hws⟩, t4, ⟨t5, rfl, t6, ⟨body, hb, rfl, hbody⟩, rfl⟩,
      rest, rfl, hrest⟩
    exact ⟨a, ws, body, rest, rfl, ha, hws, hb, hbody, hrest⟩
  · rintro ⟨a, ws, body, rest, rfl, ha, hws, hb, hbody, hrest⟩
    exact ⟨_, ⟨a, rfl, ha⟩, _, rfl, _, ⟨ws, rfl, hws⟩, _, ⟨_, rfl, _, ⟨body, hb, rfl, hbody⟩, rfl⟩,
      rest, rfl, hrest⟩

/-- The texts on which `reSQLValues` has a match. -/
theorem matchString_reSQLValues (s : Text) :
    MatchString reSQLValues s = true ↔ ∃ pre ws body post : Text,
      s = pre ++ ("VALUES".toList ++ (ws ++ ('(' :: (body ++ (')' :: post)))))
        ∧ AllSpace ws ∧ body ≠ [] ∧ NoNewline body := by
  rw [matchString_iff]
  constructor
  · rintro ⟨a, b, s1, rfl, h⟩
    obtain ⟨a1, ws, body, rest, rfl, _, hws, hb, hbody, _⟩ := lang_reSQLValues.mp h
    exact ⟨a ++ a1, ws, body, rest ++ s1, by simp, hws, hb, hbody⟩
  · rintro ⟨pre, ws, body, post, rfl, hws, hb, hbody⟩
    refine ⟨pre, _, post, rfl, lang_reSQLValues.mpr ⟨[], ws, body, [], ?_, ?_, hws, hb, hbody, ?_⟩⟩
    · simp
    · intro x hx; cases hx
    · intro x hx; cases hx

theorem infix_values_of_matchString {s : Text} (h : MatchString reSQLValues s = true) :
    "VALUES".toList <:+: s := by
  obtain ⟨pre, ws, body, post, rfl, _⟩ := (matchString_reSQLValues s).mp h
  exact ⟨pre, ws ++ ('(' :: (body ++ (')' :: post))), by simp⟩

/-- The second branch of `reSQLInsertStmt` matches wherever the token VALUES occurs. -/
theorem matchString_insertStmt_of_values {s : Text} (h : "VALUES".toList <:+: s) :
    MatchString reSQLInsertStmt s = true := by
  obtain ⟨a, b, rfl⟩ := h
  rw [matchString_iff]
  refine ⟨a, "VALUES".toList ++ b, b, by simp, ?_⟩
  unfold reSQLInsertStmt
  apply Lang.altR
  exact Lang.cat (Lang.starNil _ _ _) (Lang.cat (lang_lit.mpr rfl) (Lang.starNil _ _ _))

/-- The first branch of `reSQLInsertStmt` matches wherever INSERT INTO and a
space occur. -/
theorem matchString_insertStmt_of_insert_into {s : Text}
    (h : "INSERT INTO ".toList <:+: s) : MatchString reSQLInsertStmt s = true := by
  obtain ⟨a, b, rfl⟩ := h
  rw [matchString_iff]
  refine ⟨a, "INSERT INTO ".toList ++ b, b, by simp, ?_⟩
  unfold reSQLInsertStmt
  apply Lang.altL
  refine Lang.cat (Lang.starNil _ _ _) (@Lang.cat _ _ _ (' ' :: ("INTO ".toList ++ b)) _
    (lang_lit.mpr rfl) (@Lang.cat _ _ _ ("INTO ".toList ++ b) _ ?_
      (@Lang.cat _ _ _ (' ' :: b) _ (lang_lit.mpr rfl) ?_)))
  · exact Lang.starCons (Lang.group _ (Lang.altR _ (Lang.set _ _ _ (by decide))))
      (Lang.starNil _ _ _)
  · exact lang_plus_dot.mpr ⟨[' '], by simp, rfl, by intro x hx; simp at hx; subst hx; decide⟩

theorem strip_insertSelectOnDuplicateKey :
    stripOnDuplicateKey insertSelectOnDuplicateKey
      = "INSERT INTO tbl_temp2 (fld_id)\n  SELECT tbl_temp1.fld_order_id\n  FROM tbl_temp1 WHERE tbl_temp1.fld_order_id > 100".toList := by
  decide!

theorem countP_noQuote {s : Text} (h : NoQuote s) : s.countP isQuote = 0 := by
  rw [List.countP_eq_zero]
  intro x hx
  have := h x hx
  simpa using this

theorem split_first_quote : ∀ t : Text, t.countP isQuote ≠ 0 →
    ∃ n q r, t = n ++ q :: r ∧ NoQuote n ∧ isQuote q = true := by
  intro t
  induction t with
  | nil => intro h; simp at h
  | cons x t ih =>
    intro h
    by_cases hx : isQuote x = true
    · exact ⟨[], x, t, rfl, (by intro y hy; cases hy), hx⟩
    · have hx' : isQuote x = false := by simpa using hx
      rw [List.countP_cons_of_neg _ _ hx] at h
      obtain ⟨n, q, r, rfl, hn, hq⟩ := ih h
      refine ⟨x :: n, q, r, rfl, ?_, hq⟩
      intro y hy
      rcases List.mem_cons.mp hy with rfl | hy
      · simp [hx']
      · exact hn y hy

theorem lang_quotePair {s s1 : Text} :
    Lang quotePair s s1 ↔ ∃ n1 q1 n2 q2, s = n1 ++ q1 :: (n2 ++ q2 :: s1)
      ∧ NoQuote n1 ∧ isQuote q1 = true ∧ NoQuote n2 ∧ isQuote q2 = true := by
  unfold quotePair
  simp only [lang_cat, lang_star_set, lang_set]
  constructor
  · rintro ⟨t1, ⟨n1, rfl, h1⟩, t2, ⟨q1, rfl, hq1⟩, t3, ⟨n2, rfl, h2⟩, q2, rfl, hq2⟩
    exact ⟨n1, q1, n2, q2, rfl, h1, hq1, h2, hq2⟩
  · rintro ⟨n1, q1, n2, q2, rfl, h1, hq1, h2, hq2⟩
    exact ⟨_, ⟨n1, rfl, h1⟩, _, ⟨q1, rfl, hq1⟩, _, ⟨n2, rfl, h2⟩, q2, rfl, hq2⟩

theorem lang_star_quotePair_even {g : Bool} {s s1 : Text} (h : Lang (.star quotePair g) s s1) :
    ∃ m : Text, s = m ++ s1 ∧ EvenQuotes m := by
  generalize hr : Regex.star quotePair g = r at h
  induction h with
  | starNil a1 g1 s => exact ⟨[], rfl, by decide⟩
  | @starCons a1 g1 s t s2 h1 _ _ ih2 =>
    cases hr
    obtain ⟨n1, q1, n2, q2, rfl, hn1, hq1, hn2, hq2⟩ := lang_quotePair.mp h1
    obtain ⟨m, rfl, hm⟩ := ih2 rfl
    refine ⟨n1 ++ q1 :: (n2 ++ q2 :: m), by simp, ?_⟩
    unfold EvenQuotes at hm ⊢
    simp only [List.countP_append, List.countP_cons, hq1, hq2, if_true, countP_noQuote hn1,
      countP_noQuote hn2]
    omega
  | _ => cases hr

theorem lang_star_quotePair_of_even {g : Bool} : ∀ (n : Nat) (t : Text), t.length ≤ n →
    EvenQuotes t → ∃ m : Text, Lang (.star quotePair g) t m ∧ NoQuote m := by
  intro n
  induction n with
  | zero =>
    intro t ht _
    have : t = [] := List.length_eq_zero.mp (by omega)
    subst this
    exact ⟨[], Lang.starNil _ _ _, (by intro x hx; cases hx)⟩
  | succ n ih =>
    intro t ht hev
    by_cases h0 : t.countP isQuote = 0
    · refine ⟨t, Lang.starNil _ _ _, ?_⟩
      intro x hx
      have := (List.countP_eq_zero.mp h0) x hx
      simpa using this
    · obtain ⟨n1, q1, r1, rfl, hn1, hq1⟩ := split_first_quote t h0
      unfold EvenQuotes at hev
      simp only [List.countP_append, List.countP_cons, hq1, if_true, countP_noQuote hn1] at hev
      have h1 : r1.countP isQuote ≠ 0 := by omega
      obtain ⟨n2, q2, r2, rfl, hn2, hq2⟩ := split_first_quote r1 h1
      simp only [List.countP_append, List.countP_cons, hq2, if_true, countP_noQuote hn2] at hev
      have hlen : r2.length ≤ n := by
        simp only [List.length_append, List.length_cons] at ht
        omega
      obtain ⟨m, hm, hnq⟩ := ih r2 hlen (by unfold EvenQuotes; omega)
      exact ⟨m, Lang.starCons (lang_quotePair.mpr ⟨n1, q1, n2, q2, rfl, hn1, hq1, hn2, hq2⟩) hm,
        hnq⟩

/-- The end of `reMySQLOnDuplicateKey`: pairs of quote characters up to the
end of the text. -/
theorem lang_quoteTail {s s1 : Text} :
    Lang (.cat (.star quotePair true) (.cat (.star (.set (fun x => !isQuote x)) true) .eot)) s s1
      ↔ s1 = [] ∧ EvenQuotes s := by
  simp only [lang_cat, lang_star_set, lang_eot]
  constructor
  · rintro ⟨t1, h1, t2, ⟨m2, rfl, hm2⟩, rfl, rfl⟩
    obtain ⟨m, rfl, hm⟩ := lang_star_quotePair_even h1
    refine ⟨rfl, ?_⟩
    unfold EvenQuotes at hm ⊢
    simp only [List.append_nil, List.countP_append, countP_noQuote hm2]
    omega
  · rintro ⟨rfl, hev⟩
    obtain ⟨m, hm, hnq⟩ := lang_star_quotePair_of_even s.length s (Nat.le_refl _) hev
    exact ⟨m, hm, [], ⟨m, by simp, hnq⟩, rfl, rfl⟩

/-- The matches of `reMySQLOnDuplicateKey`: whitespace, the three keywords
separated by whitespace, and a rest of the text with an even number of quote
characters; a match always ends at the end of the text. -/
theorem lang_reMySQLOnDuplicateKey {s s1 : Text} :
    Lang reMySQLOnDuplicateKey s s1 ↔ s1 = [] ∧ ∃ w w1 w2 tail : Text,
      s = w ++ ("ON".toList ++ (w1 ++ ("DUPLICATE".toList ++ (w2 ++ ("KEY".toList ++ tail)))))
        ∧ AllSpace w ∧ w1 ≠ [] ∧ AllSpace w1 ∧ w2 ≠ [] ∧ AllSpace w2 ∧ EvenQuotes tail := by
  have htail := @lang_quoteTail
  unfold quotePair at htail
  unfold reMySQLOnDuplicateKey
  rw [lang_cat]
  simp only [lang_star_set]
  constructor
  · rintro ⟨t1, ⟨w, rfl, hw⟩, h⟩
    rw [lang_cat] at h
    obtain ⟨t2, h2, h⟩ := h
    rw [lang_lit] at h2
    subst h2
    rw [lang_cat] at h
    obtain ⟨t3, h3, h⟩ := h
    obtain ⟨w1, hw1, rfl, hs1⟩ := lang_plus_set.mp h3
    rw [lang_cat] at h
    obtain ⟨t4, h4, h⟩ := h
    rw [lang_lit] at h4
    subst h4
    rw [lang_cat] at h
    obtain ⟨t5, h5, h⟩ := h
    obtain ⟨w2, hw2, rfl, hs2⟩ := lang_plus_set.mp h5
    rw [lang_cat] at h
    obtain ⟨t6, h6, h⟩ := h
    rw [lang_lit] at h6
    subst h6
    obtain ⟨rfl, hev⟩ := htail.mp h
    exact ⟨rfl, w, w1, w2, t6, rfl, hw, hw1, hs1, hw2, hs2, hev⟩
  · rintro ⟨rfl, w, w1, w2, tail, rfl, hw, hw1, hs1, hw2, hs2, hev⟩
    refine ⟨_, ⟨w, rfl, hw⟩, ?_⟩
    refine Lang.cat (lang_lit.mpr rfl) (Lang.cat (lang_plus_set.mpr ⟨w1, hw1, rfl, hs1⟩)
      (Lang.cat (lang_lit.mpr rfl) (Lang.cat (lang_plus_set.mpr ⟨w2, hw2, rfl, hs2⟩)
        (Lang.cat (lang_lit.mpr rfl) (htail.mpr ⟨rfl, hev⟩)))))

theorem find_reMySQL_nil : find reMySQLOnDuplicateKey [] = none := by rfl

/-- A match of `reMySQLOnDuplicateKey` reaches the end of the text and is not empty. -/
theorem find_reMySQL_some {q : Text} {m : Match} (h : find reMySQLOnDuplicateKey q = some m) :
    q = m.pre ++ m.matched ∧ m.post = [] ∧ 2 ≤ m.matched.length := by
  obtain ⟨h1, h2, _⟩ := find_some h
  obtain ⟨hpost, w, w1, w2, tail, hm, _⟩ := lang_reMySQLOnDuplicateKey.mp h2.lang
  rw [hpost, List.append_nil] at h1 hm
  refine ⟨h1, hpost, ?_⟩
  rw [hm]
  simp only [List.length_append, String.toList]
  simp
  omega

/-- Deleting the matches of `reMySQLOnDuplicateKey` keeps the text before the
leftmost match. -/
theorem replaceAllEmpty_reMySQL {q : Text} {m : Match}
    (h : find reMySQLOnDuplicateKey q = some m) :
    replaceAllEmpty reMySQLOnDuplicateKey q = m.pre := by
  obtain ⟨hq, _, hlen⟩ := find_reMySQL_some h
  have hql : q.length = m.pre.length + m.matched.length := by
    rw [hq]; simp
  unfold replaceAllEmpty
  rw [show q.length + 2 = (q.length + 1) + 1 from rfl, replaceAllLoop]
  simp only [Nat.zero_le, if_true, List.drop_zero, h, Nat.zero_add, Nat.sub_zero, List.nil_append]
  have hpos : 0 < q.length := by omega
  have hn1 : ¬ (1 > m.pre.length + m.matched.length) := by omega
  simp only [hpos, if_true, hn1, if_false]
  rw [replaceAllLoop]
  have hle : m.pre.length + m.matched.length ≤ q.length := by omega
  have hdrop : q.drop (m.pre.length + m.matched.length) = [] := by
    rw [← hql]; exact List.drop_length q
  simp only [hle, if_true, hdrop, find_reMySQL_nil, List.append_nil]
  rw [hq]
  exact List.take_left _ _

/-- The stripped text is the text before the leftmost match of the
trailing-clause pattern, or the whole text when there is no match. -/
theorem stripOnDuplicateKey_eq (q : Text) :
    stripOnDuplicateKey q
      = match find reMySQLOnDuplicateKey q with
        | some m => m.pre
        | none => q := by
  unfold stripOnDuplicateKey MatchString
  cases h : find reMySQLOnDuplicateKey q with
  | none => simp
  | some m => simp [replaceAllEmpty_reMySQL h]

theorem stripOnDuplicateKey_prefix (q : Text) : stripOnDuplicateKey q <+: q := by
  rw [stripOnDuplicateKey_eq]
  cases h : find reMySQLOnDuplicateKey q with
  | none => exact List.prefix_refl q
  | some m =>
    obtain ⟨hq, _, _⟩ := find_reMySQL_some h
    exact ⟨m.matched, hq.symm⟩

/-- The leftmost match is the one `find` returns. -/
theorem find_pre_eq {r : Regex} {s a b s1 : Text} (hs : s = a ++ b) (h : Lang r b s1)
    (hleft : ∀ a1 b1 : Text, s = a1 ++ b1 → a1.length < a.length → ∀ s2, ¬ Lang r b1 s2) :
    ∃ m, find r s = some m ∧ m.pre = a := by
  cases hf : find r s with
  | none => exact absurd h (find_none hf a b hs s1)
  | some m =>
    refine ⟨m, rfl, ?_⟩
    obtain ⟨h1, h2, h3⟩ := find_some hf
    have hlen : m.pre.length = a.length := by
      rcases Nat.lt_trichotomy m.pre.length a.length with hlt | heq | hgt
      · exact absurd h2.lang (hleft _ _ h1 hlt _)
      · exact heq
      · exact absurd h (h3 a b hs hgt s1)
    have hp1 : m.pre <+: s := ⟨_, h1.symm⟩
    have hp2 : a <+: s := ⟨_, hs.symm⟩
    rcases List.prefix_or_prefix_of_prefix hp1 hp2 with hp | hp
    · exact hp.eq_of_length hlen
    · exact (hp.eq_of_length hlen.symm).symm

theorem checkQuery_congr {q q1 : Text} (h : stripOnDuplicateKey q = stripOnDuplicateKey q1) :
    CheckQuery q = CheckQuery q1 := by
  simp only [CheckQuery, h]

theorem extractValues_congr {q q1 : Text} (h : stripOnDuplicateKey q = stripOnDuplicateKey q1) :
    extractValues q = extractValues q1 := by
  simp only [extractValues, h]

/-- When `extractValues` succeeds, `reSQLValues` has a match in the stripped text. -/
theorem find_of_extractValues {q t : Text} (h : extractValues q = Except.ok t) :
    ∃ m, find reSQLValues (stripOnDuplicateKey q) = some m ∧ t = m.submatch "values"
      ∧ MatchString reEmptyValues t = false := by
  unfold extractValues at h
  simp only at h
  split at h
  · cases h
  · next m hm =>
    split at h
    · next hne =>
      injection h with h
      subst h
      exact ⟨m, hm, rfl, by simpa using hne⟩
    · cases h

/-- A text on which `extractValues` succeeds is accepted by `CheckQuery`. -/
theorem checkQuery_of_extractValues {q t : Text} (h : extractValues q = Except.ok t) :
    CheckQuery q = none := by
  obtain ⟨m, hm, _, _⟩ := find_of_extractValues h
  have h2 : MatchString reSQLValues (stripOnDuplicateKey q) = true := by
    simp [MatchString, hm]
  have h1 := matchString_insertStmt_of_values (infix_values_of_matchString h2)
  simp [CheckQuery, h1, h2]

theorem mem_of_append_eq_append_singleton {a c front : Text} {z : Char}
    (h : a ++ c = front ++ [z]) (hc : c ≠ []) : z ∈ c := by
  have h1 : (a ++ c).getLast? = c.getLast? := List.getLast?_append_of_ne_nil a hc
  have h2 : (front ++ [z]).getLast? = some z := by simp
  rw [h, h2] at h1
  exact List.mem_of_getLast?_eq_some h1.symm

theorem Sem.caps_eq {r : Regex} {s s1 : Text} {c c1 : Caps} (h : Sem r s c s1 c1)
    (hg : r.groupFree = true) : c1 = c := by
  induction h with
  | eps s c => rfl
  | set p x s c hp => rfl
  | cat _ _ iha ihb =>
    simp only [Regex.groupFree, Bool.and_eq_true] at hg
    rw [ihb hg.2, iha hg.1]
  | altL b _ ih =>
    simp only [Regex.groupFree, Bool.and_eq_true] at hg
    exact ih hg.1
  | altR a _ ih =>
    simp only [Regex.groupFree, Bool.and_eq_true] at hg
    exact ih hg.2
  | starNil a g s c => rfl
  | starCons _ _ iha ihb =>
    have hg1 : Regex.groupFree _ = true := hg
    rw [ihb hg, iha hg1]
  | group n _ ih => simp [Regex.groupFree] at hg
  | eot c => rfl

theorem sem_cat_inv {a b : Regex} {s s2 : Text} {c c2 : Caps} (h : Sem (.cat a b) s c s2 c2) :
    ∃ s1 c1, Sem a s c s1 c1 ∧ Sem b s1 c1 s2 c2 := by
  cases h with | cat h1 h2 => exact ⟨_, _, h1, h2⟩

theorem sem_group_inv {n : String} {a : Regex} {s s1 : Text} {c c1 : Caps}
    (h : Sem (.group n a) s c s1 c1) :
    ∃ c0, Sem a s c s1 c0 ∧ c1 = (n, s.take (s.length - s1.length)) :: c0 := by
  cases h with | group _ h => exact ⟨_, h, rfl⟩

/-- The matches of `reSQLValues` together with the submatch of the group
named values: it is the parenthesised group. -/
theorem sem_reSQLValues {s s1 : Text} {c caps : Caps} (h : Sem reSQLValues s c s1 caps) :
    ∃ (a ws body rest : Text) (c1 : Caps),
      s = a ++ ("VALUES".toList ++ (ws ++ ('(' :: (body ++ (')' :: (rest ++ s1))))))
        ∧ NoNewline a ∧ AllSpace ws ∧ body ≠ [] ∧ NoNewline body ∧ NoNewline rest
        ∧ caps = ("values", '(' :: (body ++ [')'])) :: c1 := by
  unfold reSQLValues at h
  obtain ⟨t1, c1, h1, h⟩ := sem_cat_inv h
  obtain ⟨t2, c2, h2, h⟩ := sem_cat_inv h
  obtain ⟨t3, c3, h3, h⟩ := sem_cat_inv h
  obtain ⟨t4, c4, h4, h5⟩ := sem_cat_inv h
  obtain ⟨c0, h4, hc4⟩ := sem_group_inv h4
  have hc5 : caps = c4 := h5.caps_eq rfl
  obtain ⟨a, rfl, ha⟩ := lang_star_dot.mp h1.lang
  have e2 := lang_lit.mp h2.lang
  subst e2
  obtain ⟨ws, rfl, hws⟩ := (lang_star_single (fun _ _ => lang_space_group)).mp h3.lang
  have h4l := h4.lang
  simp only [lang_cat, lang_chr, lang_plus_dot] at h4l
  obtain ⟨t5, rfl, t6, ⟨body, hb, rfl, hbody⟩, rfl⟩ := h4l
  obtain ⟨rest, rfl, hrest⟩ := lang_star_dot.mp h5.lang
  refine ⟨a, ws, body, rest, c0, rfl, ha, hws, hb, hbody, hrest, ?_⟩
  rw [hc5, hc4]
  congr 2
  have : ('(' :: (body ++ ')' :: (rest ++ s1))).length - (rest ++ s1).length
      = ('(' :: (body ++ [')'])).length := by
    simp only [List.length_cons, List.length_append, List.length_nil]
    omega
  rw [this]
  have e : '(' :: (body ++ ')' :: (rest ++ s1)) = ('(' :: (body ++ [')'])) ++ (rest ++ s1) := by
    simp
  rw [e, List.take_left]

/-- What `extractValues` returns: the parenthesised group that follows the
token VALUES and whitespace in the stripped text, on one line and not empty. -/
theorem extractValues_ok {q t : Text} (h : extractValues q = Except.ok t) :
    ∃ pre ws body post : Text,
      stripOnDuplicateKey q = pre ++ ("VALUES".toList ++ (ws ++ (t ++ post)))
        ∧ t = '(' :: (body ++ [')']) ∧ AllSpace ws ∧ body ≠ [] ∧ NoNewline body := by
  obtain ⟨m, hm, ht, _⟩ := find_of_extractValues h
  obtain ⟨h1, h2, _⟩ := find_some hm
  obtain ⟨a, ws, body, rest, c1, hs, _, hws, hb, hbody, _, hcaps⟩ := sem_reSQLValues h2
  have hv : m.submatch "values" = '(' :: (body ++ [')']) := by
    simp [Match.submatch, hcaps]
  rw [hv] at ht
  refine ⟨m.pre ++ a, ws, body, rest ++ m.post, ?_, ht, hws, hb, hbody⟩
  rw [h1, hs, ht]
  simp

theorem extractValues_infix {q t : Text} (h : extractValues q = Except.ok t) :
    t ≠ [] ∧ t <:+: q := by
  obtain ⟨pre, ws, body, post, hs, ht, _⟩ := extractValues_ok h
  refine ⟨by rw [ht]; simp, ?_⟩
  obtain ⟨tail, htail⟩ := stripOnDuplicateKey_prefix q
  refine ⟨pre ++ ("VALUES".toList ++ ws), post ++ tail, ?_⟩
  rw [← htail, hs]
  simp

theorem exists_first_occurrence (t : Text) (ht : t ≠ []) : ∀ q : Text, t <:+: q →
    ∃ pre post : Text, q = pre ++ t ++ post ∧ ∀ a b : Text, pre ++ t = a ++ t ++ b → b = [] := by
  intro q
  induction q with
  | nil =>
    intro h
    exact absurd (List.infix_nil.mp h) ht
  | cons x q ih =>
    intro h
    by_cases hp : t <+: x :: q
    · obtain ⟨post, hpost⟩ := hp
      refine ⟨[], post, by simpa using hpost.symm, ?_⟩
      intro a b hab
      have hl := congrArg List.length hab
      simp only [List.nil_append, List.length_append] at hl
      exact List.length_eq_zero.mp (by omega)
    · have h1 : t <:+: q := by
        rcases List.infix_cons_iff.mp h with h | h
        · exact absurd h hp
        · exact h
      obtain ⟨pre, post, hq, hfirst⟩ := ih h1
      refine ⟨x :: pre, post, by simp [hq], ?_⟩
      intro a b hab
      cases a with
      | nil =>
        exfalso
        apply hp
        rw [hq]
        simp only [List.nil_append] at hab
        exact ⟨b ++ post, by rw [← List.append_assoc, ← hab]; simp⟩
      | cons y a =>
        simp only [List.cons_append, List.cons.injEq] at hab
        exact hfirst a b (by simpa using hab.2)

/-- The matches of `reEmptyValues`. -/
theorem lang_reEmptyValues {s s1 : Text} :
    Lang reEmptyValues s s1 ↔ ∃ w rest : Text,
      s = '(' :: (w ++ (')' :: (rest ++ s1))) ∧ w ≠ [] ∧ AllSpace w ∧ NoNewline rest := by
  unfold reEmptyValues
  simp only [lang_cat, lang_chr, lang_plus_set, lang_star_dot]
  constructor
  · rintro ⟨t1, rfl, t2, ⟨w, hw, rfl, hws⟩, t3, rfl, rest, rfl, hrest⟩
    exact ⟨w, rest, rfl, hw, hws, hrest⟩
  · rintro ⟨w, rest, rfl, hw, hws, hrest⟩
    exact ⟨_, rfl, _, ⟨w, hw, rfl, hws⟩, _, rfl, rest, rfl, hrest⟩

/-- The texts on which `reEmptyValues` has a match: an opening parenthesis,
one or more whitespace characters and a closing parenthesis occur somewhere. -/
theorem matchString_reEmptyValues (v : Text) :
    MatchString reEmptyValues v = true ↔ ∃ a w b : Text,
      v = a ++ ('(' :: (w ++ (')' :: b))) ∧ w ≠ [] ∧ AllSpace w := by
  rw [matchString_iff]
  constructor
  · rintro ⟨a, b, s1, rfl, h⟩
    obtain ⟨w, rest, rfl, hw, hws, _⟩ := lang_reEmptyValues.mp h
    exact ⟨a, w, rest ++ s1, rfl, hw, hws⟩
  · rintro ⟨a, w, b, rfl, hw, hws⟩
    exact ⟨a, _, b, rfl, lang_reEmptyValues.mpr ⟨w, [], by simp, hw, hws,
      (by intro x hx; cases hx)⟩⟩

/-- The shape check also passes on a text that holds the token VALUES and a
tuple but no INSERT keyword: the second branch of `reSQLInsertStmt` stands on
its own. -/
theorem checkQuery_without_insert :
    CheckQuery "VALUES (?)".toList = none ∧ ¬ "INSERT".toList <:+: "VALUES (?)".toList := by
  decide!

theorem split_of_append_lt {P S a1 b1 : Text} (h : P ++ S = a1 ++ b1)
    (hlt : a1.length < P.length) : ∃ c1, P = a1 ++ c1 ∧ b1 = c1 ++ S ∧ c1 ≠ [] := by
  rcases List.append_eq_append_iff.mp h with ⟨a2, ha2, _⟩ | ⟨c1, hc1, hc2⟩
  · rw [ha2] at hlt
    simp at hlt
  · refine ⟨c1, hc1, hc2, ?_⟩
    intro h0
    rw [h0, List.append_nil] at hc1
    rw [hc1] at hlt
    omega

/-- A match of the trailing-clause pattern that starts inside a statement
ending with a closing parenthesis does not depend on a following clause with
an even number of quote characters. -/
theorem lang_reMySQL_append_iff {c1 S : Text} (hc : ')' ∈ c1) (hev : EvenQuotes S) :
    Lang reMySQLOnDuplicateKey (c1 ++ S) [] ↔ Lang reMySQLOnDuplicateKey c1 [] := by
  constructor
  · intro hl
    obtain ⟨_, w, w1, w2, tail, hb1, hw, hw1, hs1, hw2, hs2, htail⟩ :=
      lang_reMySQLOnDuplicateKey.mp hl
    have hb2 : c1 ++ S = (w ++ ("ON".toList ++ (w1 ++ ("DUPLICATE".toList
        ++ (w2 ++ "KEY".toList))))) ++ tail := by
      rw [hb1]; simp
    rcases List.append_eq_append_iff.mp hb2 with ⟨a2, ha2, _⟩ | ⟨c2, hc2, hc3⟩
    · exfalso
      have hz : ')' ∈ w ++ ("ON".toList ++ (w1 ++ ("DUPLICATE".toList ++ (w2 ++ "KEY".toList)))) := by
        rw [ha2]; exact List.mem_append_left _ hc
      simp only [List.mem_append] at hz
      rcases hz with h | h | h | h | h | h
      · exact absurd (hw _ h) (by decide)
      · revert h; decide
      · exact absurd (hs1 _ h) (by decide)
      · revert h; decide
      · exact absurd (hs2 _ h) (by decide)
      · revert h; decide
    · refine lang_reMySQLOnDuplicateKey.mpr ⟨rfl, w, w1, w2, c2, ?_, hw, hw1, hs1, hw2, hs2, ?_⟩
      · rw [hc2]; simp
      · unfold EvenQuotes at htail hev ⊢
        rw [hc3, List.countP_append] at htail
        omega
  · intro hl
    obtain ⟨_, w, w1, w2, tail, hb1, hw, hw1, hs1, hw2, hs2, htail⟩ :=
      lang_reMySQLOnDuplicateKey.mp hl
    refine lang_reMySQLOnDuplicateKey.mpr ⟨rfl, w, w1, w2, tail ++ S, ?_, hw, hw1, hs1, hw2, hs2, ?_⟩
    · rw [hb1]; simp
    · unfold EvenQuotes at htail hev ⊢
      rw [List.countP_append]
      omega

theorem lang_reMySQL_nil_right {b s2 : Text} (h : Lang reMySQLOnDuplicateKey b s2) :
    Lang reMySQLOnDuplicateKey b [] := by
  have := (lang_reMySQLOnDuplicateKey.mp h).1
  rw [this] at h
  exact h

/-- A trailing clause with an even number of quote characters, after a
statement that ends with a closing parenthesis, is stripped as a whole: the
stripped text is the stripped statement. -/
theorem strip_append_clause (P S front : Text) (hlast : P = front ++ [')'])
    (hS : " ON DUPLICATE KEY".toList <+: S) (hev : EvenQuotes S) :
    stripOnDuplicateKey (P ++ S) = stripOnDuplicateKey P := by
  have hinside : ∀ a1 b1 : Text, P ++ S = a1 ++ b1 → a1.length < P.length →
      ∀ s2, Lang reMySQLOnDuplicateKey b1 s2 →
        ∃ c1, P = a1 ++ c1 ∧ Lang reMySQLOnDuplicateKey c1 [] := by
    intro a1 b1 hab hlt s2 hl
    obtain ⟨c1, hc1, hb1, hne⟩ := split_of_append_lt hab hlt
    have hz : ')' ∈ c1 := by
      rw [hlast] at hc1
      exact mem_of_append_eq_append_singleton hc1.symm hne
    refine ⟨c1, hc1, (lang_reMySQL_append_iff hz hev).mp ?_⟩
    rw [← hb1]
    exact lang_reMySQL_nil_right hl
  cases hf : find reMySQLOnDuplicateKey P with
  | none =>
    obtain ⟨R, hR⟩ := hS
    have hRev : EvenQuotes R := by
      unfold EvenQuotes at hev ⊢
      rw [← hR, List.countP_append] at hev
      have : List.countP isQuote " ON DUPLICATE KEY".toList = 0 := by decide
      omega
    have hmatch : Lang reMySQLOnDuplicateKey S [] := by
      rw [← hR]
      exact lang_reMySQLOnDuplicateKey.mpr ⟨rfl, [' '], [' '], [' '], R, rfl, by decide,
        by decide, by decide, by decide, by decide, hRev⟩
    have hleft : ∀ a1 b1 : Text, P ++ S = a1 ++ b1 → a1.length < P.length →
        ∀ s2, ¬ Lang reMySQLOnDuplicateKey b1 s2 := by
      intro a1 b1 hab hlt s2 hl
      obtain ⟨c1, hc1, hl1⟩ := hinside a1 b1 hab hlt s2 hl
      exact find_none hf a1 c1 hc1 [] hl1
    obtain ⟨m, hm, hpre⟩ := find_pre_eq rfl hmatch hleft
    rw [stripOnDuplicateKey_eq, stripOnDuplicateKey_eq, hm, hf]
    exact hpre
  | some m0 =>
    obtain ⟨h1, h2, h3⟩ := find_some hf
    obtain ⟨hq, hpost, hlen⟩ := find_reMySQL_some hf
    rw [hpost, List.append_nil] at h2
    have hz : ')' ∈ m0.matched := by
      have hne : m0.matched ≠ [] := by
        intro h0; rw [h0] at hlen; simp at hlen
      rw [hlast] at hq
      exact mem_of_append_eq_append_singleton hq.symm hne
    have hmatch : Lang reMySQLOnDuplicateKey (m0.matched ++ S) [] :=
      (lang_reMySQL_append_iff hz hev).mpr h2.lang
    have hsplit : P ++ S = m0.pre ++ (m0.matched ++ S) := by
      rw [← List.append_assoc, ← hq]
    have hleft : ∀ a1 b1 : Text, P ++ S = a1 ++ b1 → a1.length < m0.pre.length →
        ∀ s2, ¬ Lang reMySQLOnDuplicateKey b1 s2 := by
      intro a1 b1 hab hlt s2 hl
      have hlt2 : a1.length < P.length := by
        rw [hq, List.length_append]; omega
      obtain ⟨c1, hc1, hl1⟩ := hinside a1 b1 hab hlt2 s2 hl
      exact h3 a1 c1 hc1 hlt [] hl1
    obtain ⟨m, hm, hpre⟩ := find_pre_eq hsplit hmatch hleft
    rw [stripOnDuplicateKey_eq, stripOnDuplicateKey_eq, hm, hf]
    exact hpre

theorem starLoop_set_none {α : Type} (p : Char → Bool) (g : Bool) :
    ∀ (n : Nat) (s : Text) (c : Caps) (k : Text → Caps → Option α), s.length ≤ n →
      starLoop (run (.set p)) g n s c k = none →
      ∀ m s1 : Text, s = m ++ s1 → (∀ ch ∈ m, p ch = true) → k s1 c = none := by
  intro n
  induction n with
  | zero =>
    intro s c k hn h m s1 hs _
    have hs0 : s = [] := List.length_eq_zero.mp (by omega)
    subst hs0
    obtain ⟨rfl, rfl⟩ := List.append_eq_nil.mp hs.symm
    simpa [starLoop] using h
  | succ n ih =>
    intro s c k hn h m s1 hs hm
    have hk : k s c = none := by
      rw [starLoop] at h
      cases g with
      | true =>
        simp only [if_true] at h
        split at h
        · cases h
        · exact h
      | false =>
        simp only [Bool.false_eq_true, if_false] at h
        split at h
        · cases h
        · next hk => exact hk
    have hbody : run (.set p) s c (fun s1 c1 =>
        if s1.length < s.length then starLoop (run (.set p)) g n s1 c1 k else none) = none := by
      rw [starLoop] at h
      cases g with
      | true =>
        simp only [if_true] at h
        split at h
        · cases h
        · next hb => exact hb
      | false =>
        simp only [Bool.false_eq_true, if_false] at h
        split at h
        · cases h
        · exact h
    cases m with
    | nil =>
      simp only [List.nil_append] at hs
      subst hs
      exact hk
    | cons ch m1 =>
      subst hs
      have hch : p ch = true := hm ch (List.mem_cons_self _ _)
      simp only [List.cons_append, run, hch, if_true, List.length_cons, List.append_eq,
        Nat.lt_succ_self] at hbody
      exact ih (m1 ++ s1) c k (by simp only [List.cons_append, List.length_cons] at hn; omega)
        hbody m1 s1 rfl (fun y hy => hm y (List.mem_cons_of_mem _ hy))

/-- A greedy repetition of a character class hands over at the longest
prefix of class characters after which the rest of the expression matches. -/
theorem starLoop_set_greedy {α : Type} (p : Char → Bool) :
    ∀ (n : Nat) (s : Text) (c : Caps) (k : Text → Caps → Option α) (x : α), s.length ≤ n →
      starLoop (run (.set p)) true n s c k = some x →
      ∃ m s1 : Text, s = m ++ s1 ∧ (∀ ch ∈ m, p ch = true) ∧ k s1 c = some x
        ∧ ∀ m1 s2 : Text, s = m1 ++ s2 → (∀ ch ∈ m1, p ch = true) → m.length < m1.length →
            k s2 c = none := by
  intro n
  induction n with
  | zero =>
    intro s c k x hn h
    have hs0 : s = [] := List.length_eq_zero.mp (by omega)
    subst hs0
    refine ⟨[], [], rfl, by simp, by simpa [starLoop] using h, ?_⟩
    intro m1 s2 hs _ hlt
    obtain ⟨rfl, rfl⟩ := List.append_eq_nil.mp hs.symm
    simp at hlt
  | succ n ih =>
    intro s c k x hn h
    rw [starLoop] at h
    simp only [if_true] at h
    cases s with
    | nil =>
      simp only [run] at h
      refine ⟨[], [], rfl, by simp, h, ?_⟩
      intro m1 s2 hs _ hlt
      obtain ⟨rfl, rfl⟩ := List.append_eq_nil.mp hs.symm
      simp at hlt
    | cons ch s1 =>
      have hlen : s1.length ≤ n := by
        simp only [List.length_cons] at hn; omega
      by_cases hch : p ch = true
      · simp only [run, hch, if_true, List.length_cons, Nat.lt_succ_self] at h
        cases hrec : starLoop (run (.set p)) true n s1 c k with
        | some y =>
          rw [hrec] at h
          simp only [Option.some.injEq] at h
          subst h
          obtain ⟨m, s2, hs, hm, hk, hmax⟩ := ih s1 c k y hlen hrec
          refine ⟨ch :: m, s2, by rw [hs]; rfl, ?_, hk, ?_⟩
          · intro z hz
            rcases List.mem_cons.mp hz with rfl | hz
            · exact hch
            · exact hm z hz
          · intro m1 s3 hs3 hm1 hlt
            cases m1 with
            | nil => simp at hlt
            | cons z m2 =>
              simp only [List.cons_append, List.cons.injEq] at hs3
              exact hmax m2 s3 hs3.2 (fun y hy => hm1 y (List.mem_cons_of_mem _ hy))
                (by simpa using hlt)
        | none =>
          rw [hrec] at h
          simp only at h
          refine ⟨[], ch :: s1, rfl, by simp, h, ?_⟩
          intro m1 s3 hs3 hm1 hlt
          cases m1 with
          | nil => simp at hlt
          | cons z m2 =>
            simp only [List.cons_append, List.cons.injEq] at hs3
            exact starLoop_set_none p true n s1 c k hlen hrec m2 s3 hs3.2
              (fun y hy => hm1 y (List.mem_cons_of_mem _ hy))
      · simp only [run, hch, if_false] at h
        simp only [Bool.false_eq_true, if_false] at h
        refine ⟨[], ch :: s1, rfl, by simp, h, ?_⟩
        intro m1 s3 hs3 hm1 hlt
        cases m1 with
        | nil => simp at hlt
        | cons z m2 =>
          simp only [List.cons_append, List.cons.injEq] at hs3
          have := hm1 z (List.mem_cons_self _ _)
          rw [← hs3.1] at this
          exact absurd this hch

/-- The match `find` returns is the first result of the matcher at its start. -/
theorem find_matchAt {r : Regex} : ∀ {s : Text} {m : Match}, find r s = some m →
    matchAt r (m.matched ++ m.post) = some (m.post, m.caps) := by
  intro s
  induction s with
  | nil =>
    intro m h
    rw [find] at h
    split at h
    · next rest c hm =>
      cases h
      have hnil : rest = [] := List.suffix_nil.mp (matchAt_sound hm).lang.suffix
      subst hnil
      exact hm
    · cases h
  | cons x s ih =>
    intro m h
    rw [find] at h
    split at h
    · next rest c hm =>
      cases h
      simp only
      rw [take_suffix_append (matchAt_sound hm).lang.suffix]
      exact hm
    · split at h
      · next m1 hf =>
        cases h
        exact @ih m1 hf
      · cases h

theorem run_star_dot_isSome (s : Text) (c : Caps) :
    (run (.star Regex.dot true) s c (fun s1 c1 => some (s1, c1))).isSome = true :=
  run_complete (Lang.starNil _ _ s) c _ (fun _ => rfl)

/-- The first result of the matcher for `reSQLValues`: the group named values
ends at the last closing parenthesis of its line. -/
theorem matchAt_reSQLValues {s rest : Text} {caps : Caps}
    (h : matchAt reSQLValues s = some (rest, caps)) :
    ∃ (a ws body post : Text) (c1 : Caps),
      s = a ++ ("VALUES".toList ++ (ws ++ ('(' :: (body ++ (')' :: post)))))
        ∧ NoNewline a ∧ AllSpace ws ∧ body ≠ [] ∧ NoNewline body
        ∧ caps = ("values", '(' :: (body ++ [')'])) :: c1
        ∧ ∀ u v : Text, post = u ++ ')' :: v → ¬ NoNewline u := by
  unfold matchAt reSQLValues at h
  rw [run] at h
  obtain ⟨t1, c1, h1, h⟩ := run_sound _ _ _ _ _ h
  rw [run] at h
  obtain ⟨t2, c2, h2, h⟩ := run_sound _ _ _ _ _ h
  rw [run] at h
  obtain ⟨t3, c3, h3, h⟩ := run_sound _ _ _ _ _ h
  rw [run, run, run] at h
  obtain ⟨t4, c4, h4, h⟩ := run_sound _ _ _ _ _ h
  unfold Regex.plus at h
  rw [run, run] at h
  obtain ⟨t5, c5, h5, h⟩ := run_sound _ _ _ _ _ h
  unfold Regex.dot at h
  rw [run] at h
  obtain ⟨m, t6, ht5, hm, hk, hmax⟩ := starLoop_set_greedy _ _ _ _ _ _ (Nat.le_refl _) h
  obtain ⟨t7, c7, h7, h⟩ := run_sound _ _ _ _ _ hk
  obtain ⟨t8, c8, h8, h⟩ := run_sound _ _ _ _ _ h
  simp only [Option.some.injEq, Prod.mk.injEq] at h
  obtain ⟨rfl, rfl⟩ := h
  obtain ⟨a, rfl, ha⟩ := lang_star_dot.mp h1.lang
  have e2 := lang_lit.mp h2.lang
  subst e2
  obtain ⟨ws, rfl, hws⟩ := (lang_star_single (fun _ _ => lang_space_group)).mp h3.lang
  have e4 := lang_chr.mp h4.lang
  subst e4
  obtain ⟨x, e5, hx⟩ := lang_set.mp h5.lang
  subst e5
  subst ht5
  have e7 := lang_chr.mp h7.lang
  subst e7
  have hc8 : c8 = _ := h8.caps_eq rfl
  have hc4 : c4 = c3 := h4.caps_eq rfl
  have hc5 : c5 = c4 := h5.caps_eq rfl
  have hc7 : c7 = c5 := h7.caps_eq rfl
  have hbody : NoNewline (x :: m) := by
    intro y hy
    rcases List.mem_cons.mp hy with rfl | hy
    · simpa using hx
    · simpa using hm y hy
  refine ⟨a, ws, x :: m, t7, c7, by simp, ha, hws, by simp, hbody, ?_, ?_⟩
  · rw [hc8]
    congr 2
    have hl : ('(' :: x :: (m ++ ')' :: t7)).length - t7.length
        = ('(' :: (x :: m ++ [')'])).length := by
      simp only [List.length_cons, List.length_append, List.length_nil]
      omega
    rw [hl]
    have e : '(' :: x :: (m ++ ')' :: t7) = ('(' :: (x :: m ++ [')'])) ++ t7 := by simp
    rw [e, List.take_left]
  · intro u v hpost hu
    have hnone := hmax (m ++ ')' :: u) (')' :: v) (by rw [hpost]; simp)
      (by
        intro y hy
        rcases List.mem_append.mp hy with hy | hy
        · exact hm y hy
        · rcases List.mem_cons.mp hy with rfl | hy
          · decide
          · simpa using hu y hy)
      (by simp)
    simp only [Regex.chr, run, beq_self_eq_true, if_true] at hnone
    have hsome := run_star_dot_isSome v
      (("values", List.take (('(' :: x :: (m ++ ')' :: t7)).length - v.length)
        ('(' :: x :: (m ++ ')' :: t7))) :: c5)
    unfold Regex.dot at hsome
    rw [run] at hsome
    rw [hnone] at hsome
    cases hsome

theorem min_bounds_nat (i b R : Nat) :
    (i ≤ R → (0 : Int) ≤ (i : Int) ∧ (i : Int) ≤ min ((i : Int) + (b : Int)) (R : Int)) := by
  intro h
  unfold min
  split <;> omega

theorem execBatch_step {α : Type} (conn : Driver α) (b : Nat) (i : Nat) (size : Nat) (st : Stmt)
    (tr : List (Event α)) (batch : List (List α)) :
    (conn.exec tr st.id st.query (joinArgs batch) = none
        ∧ execBatch conn (b : Int) (i : Int) size st tr batch
          = .inr ⟨(i : Int) + (b : Int), size, some st, tr ++ [Event.exec st.id (joinArgs batch) none]⟩)
      ∨ ∃ e, conn.exec tr st.id st.query (joinArgs batch) = some e
        ∧ execBatch conn (b : Int) (i : Int) size st tr batch
          = .inl ⟨tr ++ [Event.exec st.id (joinArgs batch) (some e)]
              ++ [Event.close st.id (conn.close (tr ++ [Event.exec st.id (joinArgs batch) (some e)])
                st.id)], .returned (some e)⟩ := by
  cases h : conn.exec tr st.id st.query (joinArgs batch) with
  | none => left; exact ⟨rfl, by simp only [execBatch, h]⟩
  | some e => right; exact ⟨e, rfl, by simp only [execBatch, h]⟩

/-- One iteration of the loop follows one of the paths of `LoopStep`. -/
theorem loopBody_step {α : Type} (conn : Driver α) (b : Nat) (q v : Text)
    (args : List (List α)) (s : LoopState α) (i : Nat) (hi : s.i = (i : Int))
    (hlt : i < args.length) :
    LoopStep conn b q v args s i (loopBody conn (b : Int) q v args s) := by
  obtain ⟨si, ssize, sstmt, str⟩ := s
  simp only at hi
  subst hi
  have hb := min_bounds_nat i b args.length (Nat.le_of_lt hlt)
  unfold loopBody
  simp only [hb, and_self, if_true]
  cases sstmt with
  | none =>
    simp only
    cases hp : conn.prepare str (rewriteInsertSQL q v
        ((args.drop (i : Int).toNat).take
          (min ((i : Int) + (b : Int)) (args.length : Int) - (i : Int)).toNat).length) with
    | some e =>
      exact LoopStep.prepareFail e (fun st h => by cases h) hp
    | none =>
      simp only
      rcases execBatch_step conn b i
        ((args.drop (i : Int).toNat).take
          (min ((i : Int) + (b : Int)) (args.length : Int) - (i : Int)).toNat).length
        ⟨str.length, rewriteInsertSQL q v ((args.drop (i : Int).toNat).take
          (min ((i : Int) + (b : Int)) (args.length : Int) - (i : Int)).toNat).length⟩
        (str ++ [Event.prepare (rewriteInsertSQL q v ((args.drop (i : Int).toNat).take
          (min ((i : Int) + (b : Int)) (args.length : Int) - (i : Int)).toNat).length) none])
        ((args.drop (i : Int).toNat).take
          (min ((i : Int) + (b : Int)) (args.length : Int) - (i : Int)).toNat)
        with ⟨he, heq⟩ | ⟨e, he, heq⟩
      · rw [heq]
        exact LoopStep.prepareOk (fun st h => by cases h) hp he
      · rw [heq]
        exact LoopStep.prepareOkFail e (fun st h => by cases h) hp he
  | some st =>
    simp only
    by_cases hsz : ((args.drop (i : Int).toNat).take
          (min ((i : Int) + (b : Int)) (args.length : Int) - (i : Int)).toNat).length = ssize
    · simp only [hsz, ne_eq, not_true_eq_false, if_false]
      rcases execBatch_step conn b i ssize st str
        ((args.drop (i : Int).toNat).take
          (min ((i : Int) + (b : Int)) (args.length : Int) - (i : Int)).toNat)
        with ⟨he, heq⟩ | ⟨e, he, heq⟩
      · rw [heq]
        exact LoopStep.keepOk st rfl hsz he
      · rw [heq]
        exact LoopStep.keepFail st e rfl hsz he
    · simp only [ne_eq, hsz, not_false_eq_true, if_true]
      have hneed : ∀ st1, (some st : Option Stmt) = some st1 →
          (window args i b).length ≠ ssize := fun _ _ => hsz
      cases hp : conn.prepare (str ++ [Event.close st.id (conn.close str st.id)])
          (rewriteInsertSQL q v ((args.drop (i : Int).toNat).take
            (min ((i : Int) + (b : Int)) (args.length : Int) - (i : Int)).toNat).length) with
      | some e =>
        exact LoopStep.prepareFail e hneed hp
      | none =>
        simp only
        rcases execBatch_step conn b i
          ((args.drop (i : Int).toNat).take
            (min ((i : Int) + (b : Int)) (args.length : Int) - (i : Int)).toNat).length
          ⟨(str ++ [Event.close st.id (conn.close str st.id)]).length,
            rewriteInsertSQL q v ((args.drop (i : Int).toNat).take
            (min ((i : Int) + (b : Int)) (args.length : Int) - (i : Int)).toNat).length⟩
          (str ++ [Event.close st.id (conn.close str st.id)]
            ++ [Event.prepare (rewriteInsertSQL q v ((args.drop (i : Int).toNat).take
            (min ((i : Int) + (b : Int)) (args.length : Int) - (i : Int)).toNat).length) none])
          ((args.drop (i : Int).toNat).take
            (min ((i : Int) + (b : Int)) (args.length : Int) - (i : Int)).toNat)
          with ⟨he, heq⟩ | ⟨e, he, heq⟩
        · rw [heq]
          exact LoopStep.prepareOk hneed hp he
        · rw [heq]
          exact LoopStep.prepareOkFail e hneed hp he

theorem window_length {α : Type} (args : List (List α)) (i b : Nat) :
    (window args i b).length = Nat.min b (args.length - i) := by
  unfold window slice min
  split
  · next h =>
    have : ((i : Int) + (b : Int) - (i : Int)).toNat = b := by omega
    rw [this]
    simp
  · next h =>
    have : ((args.length : Int) - (i : Int)).toNat = args.length - i := by omega
    rw [this]
    simp
    omega

theorem window_eq {α : Type} (args : List (List α)) (i b : Nat) :
    window args i b = (args.drop i).take b := by
  unfold window slice min
  split
  · next h =>
    have : ((i : Int) + (b : Int) - (i : Int)).toNat = b := by omega
    rw [this]
    simp
  · next h =>
    have : ((args.length : Int) - (i : Int)).toNat = args.length - i := by omega
    rw [this]
    simp only [Int.toNat_ofNat]
    have h1 : (args.drop i).length = args.length - i := by simp
    rw [List.take_of_length_le (by omega), List.take_of_length_le (by omega)]

theorem LoopStep.inr_state {α : Type} {conn : Driver α} {b : Nat} {q v : Text}
    {args : List (List α)} {s s1 : LoopState α} {i : Nat}
    (h : LoopStep conn b q v args s i (.inr s1)) :
    s1.i = ((i + b : Nat) : Int) ∧ ∃ st, s1.stmt = some st := by
  cases h with
  | keepOk st _ _ _ => exact ⟨by push_cast; rfl, st, rfl⟩
  | prepareOk _ _ _ => exact ⟨by push_cast; rfl, _, rfl⟩

/-- Induction over the iterations of the loop of `MultiInsert`, for a batch
size of at least one and enough fuel: a property kept by every iteration that
goes on, and implied on every way out of the loop, holds of the run. -/
theorem batchLoop_induct {α : Type} (conn : Driver α) (b : Nat) (hb : 1 ≤ b) (q v : Text)
    (args : List (List α)) (Inv : LoopState α → Prop) (Post : Run α → Prop)
    (hinl : ∀ (s : LoopState α) (i : Nat) (r : Run α), s.i = (i : Int) → i < args.length → Inv s →
      LoopStep conn b q v args s i (.inl r) → Post r)
    (hinr : ∀ (s : LoopState α) (i : Nat) (s1 : LoopState α), s.i = (i : Int) → i < args.length → Inv s →
      LoopStep conn b q v args s i (.inr s1) → Inv s1)
    (hexit : ∀ (s : LoopState α) (i : Nat) (st : Stmt), s.i = (i : Int) → args.length ≤ i → Inv s → s.stmt = some st →
      Post ⟨s.trace ++ [Event.close st.id (conn.close s.trace st.id)],
        .returned (conn.close s.trace st.id)⟩) :
    ∀ (fuel : Nat) (s : LoopState α) (i : Nat), s.i = (i : Int) → Inv s →
      (s.stmt = none → i < args.length) → (args.length - i + b - 1) / b < fuel →
      Post (batchLoop conn (b : Int) q v args fuel s) := by
  intro fuel
  induction fuel with
  | zero => intro s i _ _ _ h; exact absurd h (Nat.not_lt_zero _)
  | succ fuel ih =>
    intro s i hi hinv hstmt hfuel
    rw [batchLoop]
    by_cases hlt : i < args.length
    · have hlt1 : s.i < (args.length : Int) := by rw [hi]; exact_mod_cast hlt
      simp only [hlt1, if_true]
      have hstep := loopBody_step conn b q v args s i hi hlt
      cases hres : loopBody conn (b : Int) q v args s with
      | inl r =>
        rw [hres] at hstep
        exact hinl s i r hi hlt hinv hstep
      | inr s1 =>
        rw [hres] at hstep
        obtain ⟨hi1, st1, hst1⟩ := hstep.inr_state
        refine ih s1 (i + b) hi1 (hinr s i s1 hi hlt hinv hstep) (by rw [hst1]; intro h; cases h) ?_
        rcases Nat.lt_or_ge (args.length - i) b with hsmall | hbig
        · have e0 : args.length - (i + b) + b - 1 = b - 1 := by omega
          rw [e0, Nat.div_eq_of_lt (by omega)]
          have e1 : 1 ≤ (args.length - i + b - 1) / b := by
            rw [Nat.le_div_iff_mul_le (by omega)]
            omega
          omega
        · have e1 : args.length - i + b - 1 = (args.length - (i + b) + b - 1) + b := by omega
          rw [e1, Nat.add_div_right _ (by omega)] at hfuel
          omega
    · have hlt1 : ¬ s.i < (args.length : Int) := by
        rw [hi]; intro h; exact hlt (by exact_mod_cast h)
      simp only [hlt1, if_false]
      cases hst : s.stmt with
      | none => exact absurd (hstmt hst) hlt
      | some st => exact hexit s i st hi (by omega) hinv hst

/-- With a batch size of at least one the loop of `MultiInsert` ends, for
every connection: after at most the ceiling of `R / b` iterations the
function has returned. -/
theorem batchLoop_returns {α : Type} (conn : Driver α) (b : Nat) (hb : 1 ≤ b) (q v : Text)
    (args : List (List α)) (fuel : Nat) (s : LoopState α) (i : Nat) (hi : s.i = (i : Int))
    (hstmt : s.stmt = none → i < args.length) (hfuel : (args.length - i + b - 1) / b < fuel) :
    ∃ e, (batchLoop conn (b : Int) q v args fuel s).outcome = Outcome.returned e := by
  refine batchLoop_induct conn b hb q v args (fun _ => True)
    (fun r => ∃ e, r.outcome = Outcome.returned e) ?_ ?_ ?_ fuel s i hi trivial hstmt hfuel
  · intro s i r _ _ _ h
    cases h with
    | keepFail st e _ _ _ => exact ⟨_, rfl⟩
    | prepareFail e _ _ => exact ⟨_, rfl⟩
    | prepareOkFail e _ _ _ => exact ⟨_, rfl⟩
  · intro s i s1 _ _ _ _
    trivial
  · intro s i st _ _ _ _
    exact ⟨_, rfl⟩

theorem noFail_append {α : Type} {tr l : List (Event α)} (h1 : NoFail tr) (h2 : NoFail l) :
    NoFail (tr ++ l) := by
  intro ev hev
  rcases List.mem_append.mp hev with h | h
  · exact h1 ev h
  · exact h2 ev h

theorem noFail_single {α : Type} {ev : Event α} (h : ev.failure = none) : NoFail [ev] := by
  intro x hx
  rw [List.mem_singleton] at hx
  rw [hx]; exact h

theorem noFail_closeOld {α : Type} (conn : Driver α) (s : LoopState α) (h : NoFail s.trace) :
    NoFail (closeOld conn s) := by
  unfold closeOld
  cases s.stmt with
  | none => exact h
  | some st => exact noFail_append h (noFail_single rfl)

theorem isClose_failure {α : Type} {x : Event α} (h : x.isClose = true) : x.failure = none := by
  cases x with
  | close _ _ => rfl
  | prepare _ _ => cases h
  | exec _ _ _ => cases h

/-- Every run of the loop with a batch size of at least one and enough fuel
has one of the two shapes of `RunShape`. -/
theorem batchLoop_shape {α : Type} (conn : Driver α) (b : Nat) (hb : 1 ≤ b) (q v : Text)
    (args : List (List α)) (fuel : Nat) (s : LoopState α) (i : Nat) (hi : s.i = (i : Int))
    (hinv : NoFail s.trace) (hstmt : s.stmt = none → i < args.length)
    (hfuel : (args.length - i + b - 1) / b < fuel) :
    RunShape conn (batchLoop conn (b : Int) q v args fuel s) := by
  refine batchLoop_induct conn b hb q v args (fun s => NoFail s.trace) (RunShape conn)
    ?_ ?_ ?_ fuel s i hi hinv hstmt hfuel
  · intro s i r _ _ hnf h
    right
    cases h with
    | keepFail st e _ _ he =>
      refine ⟨s.trace, Event.exec _ _ _, e, [Event.close _ _], List.append_assoc _ _ _, hnf, rfl,
        ?_, rfl, Or.inr ⟨_, _, _, he⟩⟩
      intro x hx
      rw [List.mem_singleton] at hx
      rw [hx]; rfl
    | prepareFail e _ hp =>
      refine ⟨closeOld conn s, Event.prepare _ _, e, [], rfl, noFail_closeOld conn s hnf, rfl,
        ?_, rfl, Or.inl ⟨_, hp⟩⟩
      intro x hx
      cases hx
    | prepareOkFail e _ _ he =>
      refine ⟨closeOld conn s ++ [Event.prepare _ none], Event.exec _ _ _, e, [Event.close _ _],
        List.append_assoc _ _ _,
        noFail_append (noFail_closeOld conn s hnf) (noFail_single rfl), rfl,
        ?_, rfl, Or.inr ⟨_, _, _, he⟩⟩
      intro x hx
      rw [List.mem_singleton] at hx
      rw [hx]; rfl
  · intro s i s1 _ _ hnf h
    cases h with
    | keepOk st _ _ _ => exact noFail_append hnf (noFail_single rfl)
    | prepareOk _ _ _ =>
      exact noFail_append (noFail_append (noFail_closeOld conn s hnf) (noFail_single rfl))
        (noFail_single rfl)
  · intro s i st _ _ hnf _
    left
    exact ⟨noFail_append hnf (noFail_single rfl), s.trace, st.id, rfl, rfl⟩

theorem ceil_div_le (R b : Nat) (hb : 1 ≤ b) : (R + b - 1) / b ≤ R := by
  have h : (R + b - 1) / b < R + 1 := by
    rw [Nat.div_lt_iff_lt_mul (by omega)]
    have : R ≤ R * b := Nat.le_mul_of_pos_right R (by omega)
    rw [Nat.add_mul]
    omega
  omega

/-- The run of `MultiInsert` on a statement that passes both checks, with a
row and a batch size of at least one and enough fuel, has one of the two
shapes of `RunShape`. -/
theorem multiInsert_shape {α : Type} (conn : Driver α) (b : Nat) (hb : 1 ≤ b) (fuel : Nat)
    (q t : Text) (args : List (List α)) (hargs : args ≠ [])
    (hcheck : CheckQuery q = none) (hvalues : extractValues q = Except.ok t)
    (hfuel : (args.length + b - 1) / b < fuel) :
    RunShape conn (MultiInsert conn (b : Int) fuel q args) := by
  have hlen : ¬ args.length = 0 := fun h => hargs (List.length_eq_zero.mp h)
  simp only [MultiInsert, hlen, if_false, hcheck, hvalues]
  exact batchLoop_shape conn b hb q t args fuel ⟨0, 0, none, []⟩ 0 rfl
    (by intro ev hev; cases hev) (fun _ => by omega) (by simpa using hfuel)

/-- In a trace that splits at its only failed call, any failed call is that one. -/
theorem split_at_failure {α : Type} {tr0 closes pre post : List (Event α)} {ev0 ev : Event α}
    (h : tr0 ++ ev0 :: closes = pre ++ ev :: post) (h0 : NoFail tr0) (h1 : NoFail closes)
    (hev : ev.failure ≠ none) : pre = tr0 ∧ ev = ev0 ∧ post = closes := by
  rcases List.append_eq_append_iff.mp h with ⟨a, ha, hb⟩ | ⟨c, hc, hd⟩
  · cases a with
    | nil =>
      simp only [List.nil_append, List.cons.injEq] at hb
      exact ⟨by simpa using ha, hb.1.symm, hb.2.symm⟩
    | cons x a =>
      simp only [List.cons_append, List.cons.injEq] at hb
      exfalso
      apply hev
      apply h1
      rw [hb.2]
      simp
  · cases c with
    | nil =>
      simp only [List.nil_append, List.cons.injEq] at hd
      exact ⟨by simpa using hc.symm, hd.1, hd.2⟩
    | cons x c =>
      simp only [List.cons_append, List.cons.injEq] at hd
      exfalso
      apply hev
      apply h0
      rw [hc, hd.1]
      simp

theorem checkQuery_messages {q : Text} {e : GoError} (h : CheckQuery q = some e) :
    e = errShape ∨ e = errValues := by
  unfold CheckQuery at h
  simp only at h
  split at h
  · left; injection h with h; exact h.symm
  · split at h
    · right; injection h with h; exact h.symm
    · cases h

theorem extractValues_message {q : Text} {e : GoError} (h : extractValues q = Except.error e) :
    e = errParse := by
  unfold extractValues at h
  simp only at h
  split at h
  · injection h with h; exact h.symm
  · split at h
    · cases h
    · injection h with h; exact h.symm

theorem replay_append {α : Type} (tr : List (Event α)) (ev : Event α) :
    replay (tr ++ [ev]) = protoStep (replay tr) ev := by
  simp [replay, List.foldl_append]

theorem closeCount_append {α : Type} (p : Nat) (tr : List (Event α)) (ev : Event α) :
    closeCount p (tr ++ [ev]) = closeCount p tr + closeCount p [ev] := by
  simp [closeCount, List.countP_append]

theorem getElem?_snoc {α : Type} (tr : List (Event α)) (ev x : Event α) (p : Nat)
    (h : (tr ++ [ev])[p]? = some x) : (p < tr.length ∧ tr[p]? = some x) ∨ (p = tr.length ∧ ev = x) := by
  rcases Nat.lt_trichotomy p tr.length with hlt | heq | hgt
  · left
    rw [List.getElem?_append_left hlt] at h
    exact ⟨hlt, h⟩
  · right
    subst heq
    simp at h
    exact ⟨rfl, h⟩
  · exfalso
    have : (tr ++ [ev]).length ≤ p := by simp; omega
    rw [List.getElem?_eq_none this] at h
    cases h

/-- What a trace that keeps the discipline says about `Close` calls: a
statement that was prepared with success is closed once, or not yet when it
is the open one. -/
theorem replay_counts {α : Type} : ∀ (tr : List (Event α)) (n : Nat) (live : Option Nat),
    replay tr = some (n, live) →
      n = tr.length
        ∧ (∀ p, live = some p → ∃ mq, tr[p]? = some (Event.prepare mq none))
        ∧ (∀ p mq, tr[p]? = some (Event.prepare mq none) →
            closeCount p tr = if live = some p then 0 else 1)
        ∧ ∀ p, n ≤ p → closeCount p tr = 0 := by
  intro tr
  induction tr using List.reverseRecOn with
  | nil =>
    intro n live h
    simp only [replay, List.foldl_nil, Option.some.injEq, Prod.mk.injEq] at h
    obtain ⟨rfl, rfl⟩ := h
    refine ⟨rfl, ?_, ?_, ?_⟩
    · intro p hp; cases hp
    · intro p mq hp; simp at hp
    · intro p _; rfl
  | append_singleton tr ev ih =>
    intro n live h
    rw [replay_append] at h
    cases hprev : replay tr with
    | none => rw [hprev] at h; cases ev <;> simp [protoStep] at h
    | some st =>
      obtain ⟨n0, live0⟩ := st
      obtain ⟨hn0, hlive0, hcount0, hzero0⟩ := ih n0 live0 hprev
      rw [hprev] at h
      cases ev with
      | prepare mq err =>
        cases live0 with
        | some l => simp [protoStep] at h
        | none =>
          have hcc : ∀ p, closeCount p (tr ++ [Event.prepare mq err]) = closeCount p tr := by
            intro p; rw [closeCount_append]; simp [closeCount]
          cases err with
          | none =>
            simp only [protoStep, Option.some.injEq, Prod.mk.injEq] at h
            obtain ⟨rfl, rfl⟩ := h
            refine ⟨by simp [hn0], ?_, ?_, ?_⟩
            · intro p hp
              injection hp with hp
              subst hp
              exact ⟨mq, by rw [hn0]; simp⟩
            · intro p mq1 hp
              rw [hcc]
              rcases getElem?_snoc _ _ _ _ hp with ⟨hlt, hp1⟩ | ⟨heq, _⟩
              · rw [hcount0 p mq1 hp1]
                have : n0 ≠ p := by omega
                simp [this]
              · rw [hzero0 p (by omega)]
                simp [heq, hn0]
            · intro p hp
              rw [hcc]
              exact hzero0 p (by omega)
          | some e =>
            simp only [protoStep, Option.some.injEq, Prod.mk.injEq] at h
            obtain ⟨rfl, rfl⟩ := h
            refine ⟨by simp [hn0], ?_, ?_, ?_⟩
            · intro p hp; cases hp
            · intro p mq1 hp
              rw [hcc]
              rcases getElem?_snoc _ _ _ _ hp with ⟨hlt, hp1⟩ | ⟨_, heq⟩
              · rw [hcount0 p mq1 hp1]
              · cases heq
            · intro p hp
              rw [hcc]
              exact hzero0 p (by omega)
      | exec id a err =>
        have hcc : ∀ p, closeCount p (tr ++ [Event.exec id a err]) = closeCount p tr := by
          intro p; rw [closeCount_append]; simp [closeCount]
        simp only [protoStep] at h
        split at h
        · next hl =>
          simp only [Option.some.injEq, Prod.mk.injEq] at h
          obtain ⟨rfl, rfl⟩ := h
          refine ⟨by simp [hn0], ?_, ?_, ?_⟩
          · intro p hp
            obtain ⟨mq, hmq⟩ := hlive0 p hp
            have hlt : p < tr.length := by
              by_contra hge
              rw [List.getElem?_eq_none (by omega)] at hmq
              cases hmq
            exact ⟨mq, by rw [List.getElem?_append_left hlt]; exact hmq⟩
          · intro p mq1 hp
            rw [hcc]
            rcases getElem?_snoc _ _ _ _ hp with ⟨hlt, hp1⟩ | ⟨_, heq⟩
            · exact hcount0 p mq1 hp1
            · cases heq
          · intro p hp
            rw [hcc]
            exact hzero0 p (by omega)
        · cases h
      | close id err =>
        simp only [protoStep] at h
        split at h
        · next hl =>
          simp only [Option.some.injEq, Prod.mk.injEq] at h
          obtain ⟨rfl, rfl⟩ := h
          obtain ⟨mq0, hmq0⟩ := hlive0 id hl
          have hidlt : id < tr.length := by
            by_contra hge
            rw [List.getElem?_eq_none (by omega)] at hmq0
            cases hmq0
          have hcc : ∀ p, closeCount p (tr ++ [Event.close id err])
              = closeCount p tr + if id = p then 1 else 0 := by
            intro p; rw [closeCount_append]
            by_cases hp : id = p <;> simp [closeCount, hp]
          refine ⟨by simp [hn0], ?_, ?_, ?_⟩
          · intro p hp; cases hp
          · intro p mq1 hp
            rw [hcc]
            rcases getElem?_snoc _ _ _ _ hp with ⟨hlt, hp1⟩ | ⟨_, heq⟩
            · rw [hcount0 p mq1 hp1, hl]
              by_cases hp : id = p <;> simp [hp]
            · cases heq
          · intro p hp
            rw [hcc, hzero0 p (by omega)]
            have : id ≠ p := by omega
            simp [this]
        · cases h

theorem replay_closeOld {α : Type} (conn : Driver α) (s : LoopState α)
    (h : replay s.trace = some (s.trace.length, s.stmt.map (fun st => st.id))) :
    replay (closeOld conn s) = some ((closeOld conn s).length, none) := by
  unfold closeOld
  cases hst : s.stmt with
  | none =>
    rw [hst] at h
    simpa using h
  | some st =>
    rw [hst] at h
    simp only [Option.map_some'] at h
    simp only [replay_append, h, protoStep, if_true, List.length_append, List.length_singleton]

/-- The traces of the loop keep the life cycle of prepared statements. -/
theorem batchLoop_replay {α : Type} (conn : Driver α) (b : Nat) (hb : 1 ≤ b) (q v : Text)
    (args : List (List α)) (fuel : Nat) (s : LoopState α) (i : Nat) (hi : s.i = (i : Int))
    (hinv : replay s.trace = some (s.trace.length, s.stmt.map (fun st => st.id)))
    (hstmt : s.stmt = none → i < args.length)
    (hfuel : (args.length - i + b - 1) / b < fuel) :
    replay (batchLoop conn (b : Int) q v args fuel s).trace
      = some ((batchLoop conn (b : Int) q v args fuel s).trace.length, none) := by
  refine batchLoop_induct conn b hb q v args
    (fun s => replay s.trace = some (s.trace.length, s.stmt.map (fun st => st.id)))
    (fun r => replay r.trace = some (r.trace.length, none))
    ?_ ?_ ?_ fuel s i hi hinv hstmt hfuel
  · intro s i r _ _ hinv h
    cases h with
    | keepFail st e hst _ _ =>
      rw [hst] at hinv
      simp only [Option.map_some'] at hinv
      simp only [replay_append, hinv, protoStep, if_true, List.length_append,
        List.length_singleton]
    | prepareFail e _ _ =>
      simp only [replay_append, replay_closeOld conn s hinv, protoStep, List.length_append,
        List.length_singleton]
    | prepareOkFail e _ _ _ =>
      simp only [replay_append, replay_closeOld conn s hinv, protoStep, if_true,
        List.length_append, List.length_singleton]
  · intro s i s1 _ _ hinv h
    cases h with
    | keepOk st hst _ _ =>
      rw [hst] at hinv
      simp only [Option.map_some'] at hinv
      simp only [replay_append, hinv, protoStep, if_true, List.length_append,
        List.length_singleton, Option.map_some']
    | prepareOk _ _ _ =>
      simp only [replay_append, replay_closeOld conn s hinv, protoStep, if_true,
        List.length_append, List.length_singleton, Option.map_some']
  · intro s i st _ _ hinv hst
    rw [hst] at hinv
    simp only [Option.map_some'] at hinv
    simp only [replay_append, hinv, protoStep, if_true, List.length_append,
      List.length_singleton]

theorem getElem?_append_of_some {α : Type} {tr : List (Event α)} {p : Nat} {x : Event α}
    (h : tr[p]? = some x) (l : List (Event α)) : (tr ++ l)[p]? = some x := by
  have hlt : p < tr.length := by
    by_contra hge
    rw [List.getElem?_eq_none (by omega)] at h
    cases h
  rw [List.getElem?_append_left hlt]
  exact h

theorem window_infix {α : Type} (args : List (List α)) (i b : Nat) : window args i b <:+: args := by
  rw [window_eq]
  exact (List.take_prefix _ _).isInfix.trans (List.drop_suffix _ _).isInfix

theorem getElem?_length_snoc {α : Type} (tr : List (Event α)) (ev : Event α) :
    (tr ++ [ev])[tr.length]? = some ev := by
  simp

theorem joinArgs_foldl {α : Type} (rows : List (List α)) : ∀ init : List α,
    rows.foldl (fun joined p => joined ++ p) init = init ++ rows.flatten := by
  induction rows with
  | nil => intro init; simp
  | cons r rows ih =>
    intro init
    simp only [List.foldl_cons, ih, List.flatten_cons, List.append_assoc]

theorem joinArgs_eq_flatten {α : Type} (rows : List (List α)) : joinArgs rows = rows.flatten := by
  unfold joinArgs
  rw [joinArgs_foldl]
  simp

theorem joinArgs_length {α : Type} (rows : List (List α)) :
    (joinArgs rows).length = (rows.map List.length).sum := by
  rw [joinArgs_eq_flatten, List.length_flatten]

theorem execArgs_append {α : Type} (tr l : List (Event α)) :
    execArgs (tr ++ l) = execArgs tr ++ execArgs l := by
  induction tr with
  | nil => rfl
  | cons ev tr ih =>
    cases ev <;> simp [execArgs, ih]

theorem execArgs_closeOld {α : Type} (conn : Driver α) (s : LoopState α) :
    execArgs (closeOld conn s) = execArgs s.trace := by
  unfold closeOld
  cases s.stmt with
  | none => rfl
  | some st => simp [execArgs_append, execArgs]

/-- On a connection on which every `Prepare` and `Exec` succeeds, the `Exec`
calls of the loop pass the joined rows of the slices of the loop header, one
call for each slice. -/
theorem batchLoop_execArgs {α : Type} (conn : Driver α) (b : Nat) (q v : Text)
    (args : List (List α))
    (hp : ∀ h s, conn.prepare h s = none) (he : ∀ h n s a, conn.exec h n s a = none) :
    ∀ (fuel : Nat) (s : LoopState α) (i : Nat), s.i = (i : Int) →
      execArgs (batchLoop conn (b : Int) q v args fuel s).trace
        = execArgs s.trace
          ++ (windowBounds (b : Int) args.length fuel (i : Int)).map
              (fun w => joinArgs (slice args w.1 w.2)) := by
  intro fuel
  induction fuel with
  | zero =>
    intro s i _
    simp [batchLoop, windowBounds]
  | succ fuel ih =>
    intro s i hi
    rw [batchLoop, windowBounds]
    by_cases hlt : i < args.length
    · have hlt1 : s.i < (args.length : Int) := by rw [hi]; exact_mod_cast hlt
      have hlt2 : (i : Int) < (args.length : Int) := by exact_mod_cast hlt
      simp only [hlt1, hlt2, if_true, List.map_cons]
      have hstep := loopBody_step conn b q v args s i hi hlt
      have hnext : ((i : Int) + (b : Int)) = ((i + b : Nat) : Int) := by push_cast; rfl
      cases hres : loopBody conn (b : Int) q v args s with
      | inl r =>
        rw [hres] at hstep
        cases hstep with
        | keepFail st e _ _ h => rw [he] at h; cases h
        | prepareFail e _ h => rw [hp] at h; cases h
        | prepareOkFail e _ _ h => rw [he] at h; cases h
      | inr s1 =>
        rw [hres] at hstep
        simp only
        cases hstep with
        | keepOk st _ _ _ =>
          rw [hnext, ih _ (i + b) (by push_cast; rfl)]
          simp only [execArgs_append, execArgs, List.append_assoc, List.singleton_append]
          rfl
        | prepareOk _ _ _ =>
          rw [hnext, ih _ (i + b) (by push_cast; rfl)]
          simp only [execArgs_append, execArgs, List.append_assoc, List.singleton_append,
            execArgs_closeOld, List.append_nil, List.nil_append]
          rfl
    · have hlt1 : ¬ s.i < (args.length : Int) := by
        rw [hi]; intro h; exact hlt (by exact_mod_cast h)
      have hlt2 : ¬ (i : Int) < (args.length : Int) := by
        intro h; exact hlt (by exact_mod_cast h)
      simp only [hlt1, hlt2, if_false, List.map_nil, List.append_nil]
      cases s.stmt with
      | none => rfl
      | some st => simp [execArgs_append, execArgs]

/-- With a batch size of at least one and enough fuel, the slices of the loop
header, one after the other, make up the rows from `i` on. -/
theorem windowBounds_flatten {α : Type} (args : List (List α)) (b : Nat) (hb : 1 ≤ b) :
    ∀ (fuel i : Nat), args.length - i ≤ fuel →
      ((windowBounds (b : Int) args.length fuel (i : Int)).map
        (fun w => slice args w.1 w.2)).flatten = args.drop i := by
  intro fuel
  induction fuel with
  | zero =>
    intro i h
    simp only [windowBounds, List.map_nil, List.flatten_nil]
    rw [List.drop_of_length_le (by omega)]
  | succ fuel ih =>
    intro i h
    rw [windowBounds]
    by_cases hlt : i < args.length
    · have hlt2 : (i : Int) < (args.length : Int) := by exact_mod_cast hlt
      have hnext : ((i : Int) + (b : Int)) = ((i + b : Nat) : Int) := by push_cast; rfl
      simp only [hlt2, if_true, List.map_cons, List.flatten_cons]
      rw [hnext, ih (i + b) (by omega)]
      have hw : slice args (i : Int) (min ((i : Int) + (b : Int)) (args.length : Int))
          = window args i b := rfl
      rw [← hnext, hw, window_eq, ← List.drop_drop]
      exact List.take_append_drop b (args.drop i)
    · have hlt2 : ¬ (i : Int) < (args.length : Int) := by
        intro h; exact hlt (by exact_mod_cast h)
      simp only [hlt2, if_false, List.map_nil, List.flatten_nil]
      rw [List.drop_of_length_le (by omega)]

theorem joinArgs_flatten_map {α : Type} (ls : List (List (List α))) :
    (ls.map joinArgs).flatten = joinArgs ls.flatten := by
  rw [joinArgs_eq_flatten]
  induction ls with
  | nil => rfl
  | cons l ls ih =>
    simp only [List.map_cons, List.flatten_cons, List.flatten_append, ih, joinArgs_eq_flatten]

/-- The bounds of the slice taken at `i`, for a batch size of at least one. -/
theorem window_bounds {α : Type} (args : List (List α)) (i b : Nat) (hb : 1 ≤ b)
    (hlt : i < args.length) :
    (0 : Int) ≤ (i : Int)
      ∧ (i : Int) < min ((i : Int) + (b : Int)) (args.length : Int)
      ∧ min ((i : Int) + (b : Int)) (args.length : Int) ≤ (args.length : Int)
      ∧ (slice args (i : Int) (min ((i : Int) + (b : Int)) (args.length : Int))).length
          = (min ((i : Int) + (b : Int)) (args.length : Int) - (i : Int)).toNat
      ∧ min ((i : Int) + (b : Int)) (args.length : Int) - (i : Int) ≤ (b : Int)
      ∧ (min ((i : Int) + (b : Int)) (args.length : Int) - (i : Int) < (b : Int) →
          min ((i : Int) + (b : Int)) (args.length : Int) = (args.length : Int)) := by
  have hlen := window_length args i b
  unfold window at hlen
  rw [hlen]
  unfold min
  split
  · next h =>
    refine ⟨by omega, by omega, by omega, ?_, by omega, by omega⟩
    have : ((i : Int) + (b : Int) - (i : Int)).toNat = b := by omega
    rw [this]
    exact Nat.min_eq_left (by omega)
  · next h =>
    refine ⟨by omega, by omega, by omega, ?_, by omega, fun _ => rfl⟩
    have : ((args.length : Int) - (i : Int)).toNat = args.length - i := by omega
    rw [this]
    exact Nat.min_eq_right (by omega)

theorem windowBounds_mem {α : Type} (args : List (List α)) (b : Nat) (hb : 1 ≤ b) :
    ∀ (fuel i : Nat) (w : Int × Int), w ∈ windowBounds (b : Int) args.length fuel (i : Int) →
      (0 : Int) ≤ w.1 ∧ w.1 < w.2 ∧ w.2 ≤ (args.length : Int)
        ∧ w.2 = min (w.1 + (b : Int)) (args.length : Int)
        ∧ (slice args w.1 w.2).length = (w.2 - w.1).toNat
        ∧ w.2 - w.1 ≤ (b : Int)
        ∧ (w.2 - w.1 < (b : Int) → w.2 = (args.length : Int)) := by
  intro fuel
  induction fuel with
  | zero => intro i w h; simp [windowBounds] at h
  | succ fuel ih =>
    intro i w h
    rw [windowBounds] at h
    by_cases hlt : i < args.length
    · have hlt2 : (i : Int) < (args.length : Int) := by exact_mod_cast hlt
      simp only [hlt2, if_true, List.mem_cons] at h
      rcases h with rfl | h
      · obtain ⟨h1, h2, h3, h4, h5, h6⟩ := window_bounds args i b hb hlt
        exact ⟨h1, h2, h3, rfl, h4, h5, h6⟩
      · have hnext : ((i : Int) + (b : Int)) = ((i + b : Nat) : Int) := by push_cast; rfl
        rw [hnext] at h
        exact ih (i + b) w h
    · have hlt2 : ¬ (i : Int) < (args.length : Int) := by
        intro h; exact hlt (by exact_mod_cast h)
      simp [hlt2] at h

theorem windowBounds_length (R b : Nat) (hb : 1 ≤ b) :
    ∀ (fuel i : Nat), (windowBounds (b : Int) R fuel (i : Int)).length ≤ (R - i + b - 1) / b := by
  intro fuel
  induction fuel with
  | zero => intro i; simp [windowBounds]
  | succ fuel ih =>
    intro i
    rw [windowBounds]
    by_cases hlt : i < R
    · have hlt2 : (i : Int) < (R : Int) := by exact_mod_cast hlt
      have hnext : ((i : Int) + (b : Int)) = ((i + b : Nat) : Int) := by push_cast; rfl
      simp only [hlt2, if_true, List.length_cons]
      rw [hnext]
      have := ih (i + b)
      rcases Nat.lt_or_ge (R - i) b with hsmall | hbig
      · have e0 : R - (i + b) + b - 1 = b - 1 := by omega
        rw [e0, Nat.div_eq_of_lt (by omega)] at this
        have e1 : 1 ≤ (R - i + b - 1) / b := by
          rw [Nat.le_div_iff_mul_le (by omega)]
          omega
        omega
      · have e1 : R - i + b - 1 = (R - (i + b) + b - 1) + b := by omega
        rw [e1, Nat.add_div_right _ (by omega)]
        omega
    · have hlt2 : ¬ (i : Int) < (R : Int) := by
        intro h; exact hlt (by exact_mod_cast h)
      simp [hlt2]

/-- With a batch size of zero the loop of `MultiInsert` does not end on a
connection on which every `Prepare` and `Exec` succeeds. -/
theorem batchLoop_zero {α : Type} (conn : Driver α) (q v : Text) (args : List (List α))
    (hR : 0 < args.length)
    (hp : ∀ h s, conn.prepare h s = none) (he : ∀ h n s a, conn.exec h n s a = none) :
    ∀ (fuel : Nat) (s : LoopState α), s.i = 0 →
      (batchLoop conn 0 q v args fuel s).outcome = Outcome.running := by
  intro fuel
  induction fuel with
  | zero => intro s _; rfl
  | succ fuel ih =>
    intro s hi
    rw [batchLoop]
    have hlt1 : s.i < (args.length : Int) := by rw [hi]; exact_mod_cast hR
    simp only [hlt1, if_true]
    have hstep := loopBody_step conn 0 q v args s 0 (by rw [hi]; rfl) hR
    simp only [Nat.cast_zero] at hstep
    cases hres : loopBody conn 0 q v args s with
    | inl r =>
      rw [hres] at hstep
      cases hstep with
      | keepFail st e _ _ h => rw [he] at h; cases h
      | prepareFail e _ h => rw [hp] at h; cases h
      | prepareOkFail e _ _ h => rw [he] at h; cases h
    | inr s1 =>
      rw [hres] at hstep
      simp only
      cases hstep with
      | keepOk st _ _ _ => exact ih _ (by simp)
      | prepareOk _ _ _ => exact ih _ (by simp)

theorem windowBounds_zero (R : Nat) (hR : 0 < R) :
    ∀ fuel : Nat, windowBounds 0 R fuel 0 = List.replicate fuel (0, 0) := by
  intro fuel
  induction fuel with
  | zero => rfl
  | succ fuel ih =>
    rw [windowBounds]
    have h1 : (0 : Int) < (R : Int) := by exact_mod_cast hR
    have h2 : min (0 : Int) (R : Int) = 0 := min_eq_left (le_of_lt h1)
    simp only [h1, if_true, h2, Int.add_zero, ih, List.replicate_succ]

theorem execCount_append {α : Type} (tr1 tr2 : List (Event α)) :
    execCount (tr1 ++ tr2) = execCount tr1 + execCount tr2 := by
  simp [execCount]

theorem execsPrepared_snoc {α : Type} {q t : Text} {b : Nat} {args : List (List α)}
    {tr : List (Event α)} {ev : Event α} (h : ExecsPrepared q t b args tr)
    (hev : ∀ id a e, ev = Event.exec id a e →
      execCount tr * b < args.length ∧ a = joinArgs (window args (execCount tr * b) b)
        ∧ id < tr.length
        ∧ tr[id]? = some (Event.prepare
            (rewriteInsertSQL q t (window args (execCount tr * b) b).length) none)) :
    ExecsPrepared q t b args (tr ++ [ev]) := by
  intro k id a e hk
  rcases getElem?_snoc _ _ _ _ hk with ⟨hlt, hk1⟩ | ⟨hk0, heq⟩
  · obtain ⟨h0, h1, h2, h3⟩ := h k id a e hk1
    rw [List.take_append_of_le_length (Nat.le_of_lt hlt)]
    exact ⟨h0, h1, h2, getElem?_append_of_some h3 _⟩
  · obtain ⟨h0, h1, h2, h3⟩ := hev id a e heq
    subst hk0
    rw [List.take_append_of_le_length (Nat.le_refl _), List.take_length]
    exact ⟨h0, h1, h2, getElem?_append_of_some h3 _⟩

theorem execsPrepared_closeOld {α : Type} {q t : Text} {b : Nat} {args : List (List α)}
    (conn : Driver α) (s : LoopState α) (h : ExecsPrepared q t b args s.trace) :
    ExecsPrepared q t b args (closeOld conn s) := by
  unfold closeOld
  cases s.stmt with
  | none => exact h
  | some st => exact execsPrepared_snoc h (fun id a e h => by cases h)

theorem execCount_closeOld {α : Type} (conn : Driver α) (s : LoopState α) :
    execCount (closeOld conn s) = execCount s.trace := by
  unfold closeOld
  cases s.stmt with
  | none => rfl
  | some st => simp [execCount, Event.isExec]

theorem length_le_closeOld {α : Type} (conn : Driver α) (s : LoopState α) :
    s.trace.length ≤ (closeOld conn s).length := by
  unfold closeOld
  cases s.stmt with
  | none => exact Nat.le_refl _
  | some st => simp

theorem execCount_prepare {α : Type} (conn : Driver α) (s : LoopState α) (mq : Text)
    (e : Option GoError) :
    execCount (closeOld conn s ++ [Event.prepare mq e]) = execCount s.trace := by
  rw [execCount_append, execCount_closeOld]
  simp [execCount, Event.isExec]

theorem execCount_exec {α : Type} (tr : List (Event α)) (id : Nat) (a : List α)
    (e : Option GoError) : execCount (tr ++ [Event.exec id a e]) = execCount tr + 1 := by
  rw [execCount_append]
  simp [execCount, Event.isExec]

/-- The traces of the loop execute, in order, the batches of `b` rows on a
statement prepared for the number of rows of the batch. -/
theorem batchLoop_execsPrepared {α : Type} (conn : Driver α) (b : Nat) (hb : 1 ≤ b) (q v : Text)
    (args : List (List α)) (fuel : Nat) (s : LoopState α) (i : Nat) (hi : s.i = (i : Int))
    (hinv : ExecsPrepared q v b args s.trace
      ∧ s.i = ((execCount s.trace * b : Nat) : Int)
      ∧ ∀ st, s.stmt = some st → st.id < s.trace.length
        ∧ s.trace[st.id]? = some (Event.prepare (rewriteInsertSQL q v s.size) none))
    (hstmt : s.stmt = none → i < args.length)
    (hfuel : (args.length - i + b - 1) / b < fuel) :
    ExecsPrepared q v b args (batchLoop conn (b : Int) q v args fuel s).trace := by
  refine batchLoop_induct conn b hb q v args
    (fun s => ExecsPrepared q v b args s.trace
      ∧ s.i = ((execCount s.trace * b : Nat) : Int)
      ∧ ∀ st, s.stmt = some st → st.id < s.trace.length
        ∧ s.trace[st.id]? = some (Event.prepare (rewriteInsertSQL q v s.size) none))
    (fun r => ExecsPrepared q v b args r.trace)
    ?_ ?_ ?_ fuel s i hi hinv hstmt hfuel
  · intro s i r hi hlt hinv h
    obtain ⟨hex, hc, hst0⟩ := hinv
    have hi1 : i = execCount s.trace * b := by rw [hi] at hc; exact_mod_cast hc
    subst hi1
    cases h with
    | keepFail st e hst hsz _ =>
      refine execsPrepared_snoc (execsPrepared_snoc hex ?_) (fun id a e h => by cases h)
      intro id a e1 heq
      injection heq with h1 h2 h3
      subst h1 h2
      exact ⟨hlt, rfl, (hst0 st hst).1, by rw [hsz]; exact (hst0 st hst).2⟩
    | prepareFail e _ _ =>
      exact execsPrepared_snoc (execsPrepared_closeOld conn s hex) (fun id a e h => by cases h)
    | prepareOkFail e _ _ _ =>
      refine execsPrepared_snoc (execsPrepared_snoc (execsPrepared_snoc
        (execsPrepared_closeOld conn s hex) (fun id a e h => by cases h)) ?_)
        (fun id a e h => by cases h)
      intro id a e1 heq
      injection heq with h1 h2 h3
      subst h1 h2
      rw [execCount_prepare]
      exact ⟨hlt, rfl, by simp, getElem?_length_snoc _ _⟩
  · intro s i s1 hi hlt hinv h
    obtain ⟨hex, hc, hst0⟩ := hinv
    have hi1 : i = execCount s.trace * b := by rw [hi] at hc; exact_mod_cast hc
    subst hi1
    cases h with
    | keepOk st hst hsz _ =>
      refine ⟨execsPrepared_snoc hex ?_, ?_, ?_⟩
      · intro id a e1 heq
        injection heq with h1 h2 h3
        subst h1 h2
        exact ⟨hlt, rfl, (hst0 st hst).1, by rw [hsz]; exact (hst0 st hst).2⟩
      · simp only [execCount_exec]
        push_cast
        rw [Int.add_mul, Int.one_mul]
      · intro st1 hst1
        injection hst1 with hst1
        subst hst1
        exact ⟨by have := (hst0 st hst).1; simp; omega,
          getElem?_append_of_some (hst0 st hst).2 _⟩
    | prepareOk _ _ _ =>
      refine ⟨execsPrepared_snoc (execsPrepared_snoc
        (execsPrepared_closeOld conn s hex) (fun id a e h => by cases h)) ?_, ?_, ?_⟩
      · intro id a e1 heq
        injection heq with h1 h2 h3
        subst h1 h2
        rw [execCount_prepare]
        exact ⟨hlt, rfl, by simp, getElem?_length_snoc _ _⟩
      · simp only [execCount_exec, execCount_prepare]
        push_cast
        rw [Int.add_mul, Int.one_mul]
      · intro st1 hst1
        injection hst1 with hst1
        subst hst1
        exact ⟨by simp, getElem?_append_of_some (getElem?_length_snoc _ _) _⟩
  · intro s i st _ _ hinv _
    exact execsPrepared_snoc hinv.1 (fun id a e h => by cases h)

theorem lang_sqlComment {s s1 : Text} :
    Lang sqlComment s s1
      ↔ ∃ body : Text, s = '/' :: '*' :: (body ++ ('*' :: '/' :: s1)) ∧ NoNewline body := by
  unfold sqlComment
  simp only [lang_group, lang_cat, lang_chr, lang_star_dot]
  constructor
  · rintro ⟨t1, rfl, t2, rfl, t3, ⟨body, rfl, hb⟩, t4, rfl, rfl⟩
    exact ⟨body, rfl, hb⟩
  · rintro ⟨body, rfl, hb⟩
    exact ⟨_, rfl, _, rfl, _, ⟨body, rfl, hb⟩, _, rfl, rfl⟩

/-- The repetition of comment blocks and whitespace matches the runs of
`CommentsOrSpace`. -/
theorem lang_commentsOrSpace {g : Bool} {s s1 : Text} :
    Lang (.star (.group "" (.alt sqlComment (.set isSpace))) g) s s1
      ↔ ∃ gap : Text, s = gap ++ s1 ∧ CommentsOrSpace gap := by
  constructor
  · intro h
    generalize hr : Regex.star (.group "" (.alt sqlComment (.set isSpace))) g = r at h
    induction h with
    | starNil a1 g1 s => exact ⟨[], rfl, CommentsOrSpace.nil⟩
    | @starCons a1 g1 s t s2 h1 _ _ ih2 =>
      cases hr
      obtain ⟨gap, rfl, hgap⟩ := ih2 rfl
      rcases lang_alt.mp (lang_group.mp h1) with hc | hs
      · obtain ⟨body, rfl, hb⟩ := lang_sqlComment.mp hc
        exact ⟨'/' :: '*' :: (body ++ ('*' :: '/' :: gap)), by simp,
          CommentsOrSpace.comment body gap hb hgap⟩
      · obtain ⟨x, rfl, hx⟩ := lang_set.mp hs
        exact ⟨x :: gap, rfl, CommentsOrSpace.space x gap hx hgap⟩
    | _ => cases hr
  · rintro ⟨gap, rfl, hgap⟩
    induction hgap with
    | nil => exact Lang.starNil _ _ _
    | space x rest hx _ ih =>
      exact Lang.starCons (lang_group.mpr (lang_alt.mpr (Or.inr (lang_set.mpr ⟨x, rfl, hx⟩)))) ih
    | comment body rest hb _ ih =>
      refine Lang.starCons (lang_group.mpr (lang_alt.mpr (Or.inl
        (lang_sqlComment.mpr ⟨body, ?_, hb⟩)))) ih
      simp

/-- The texts on which `reSQLInsertStmt` has a match: those that hold the
shape of its first branch, and those that hold the token VALUES. -/
theorem matchString_reSQLInsertStmt (s : Text) :
    MatchString reSQLInsertStmt s = true ↔ InsertShape s ∨ "VALUES".toList <:+: s := by
  constructor
  · intro h
    obtain ⟨a, b, s1, rfl, hl⟩ := (matchString_iff _ _).mp h
    unfold reSQLInsertStmt at hl
    rcases lang_alt.mp hl with h | h
    · left
      obtain ⟨t1, h1, h⟩ := lang_cat.mp h
      obtain ⟨t2, h2, h⟩ := lang_cat.mp h
      obtain ⟨t3, h3, h⟩ := lang_cat.mp h
      obtain ⟨t4, h4, h5⟩ := lang_cat.mp h
      obtain ⟨lead, rfl, _⟩ := lang_commentsOrSpace.mp h1
      have e2 := lang_lit.mp h2
      obtain ⟨gap, rfl, hgap⟩ := lang_commentsOrSpace.mp h3
      have e4 := lang_lit.mp h4
      obtain ⟨m, hm, e5, hnl⟩ := lang_plus_dot.mp h5
      obtain ⟨x, m1, rfl⟩ := List.exists_cons_of_ne_nil hm
      refine ⟨a ++ lead, gap, m1 ++ s1, x, ?_, hgap, hnl x (List.mem_cons_self _ _)⟩
      rw [e2, e4, e5]
      simp
    · right
      obtain ⟨t1, h1, h⟩ := lang_cat.mp h
      obtain ⟨t2, h2, h3⟩ := lang_cat.mp h
      obtain ⟨pre, hpre⟩ := h1.suffix
      have e2 := lang_lit.mp h2
      exact ⟨a ++ pre, t2, by rw [← hpre, e2]; simp⟩
  · rintro (⟨pre, gap, post, x, rfl, hgap, hx⟩ | h)
    · rw [matchString_iff]
      refine ⟨pre, _, post, rfl, ?_⟩
      unfold reSQLInsertStmt
      apply Lang.altL
      refine Lang.cat (Lang.starNil _ _ _) (Lang.cat (lang_lit.mpr rfl)
        (Lang.cat (lang_commentsOrSpace.mpr ⟨gap, rfl, hgap⟩) (Lang.cat (lang_lit.mpr rfl)
          (lang_plus_dot.mpr ⟨[x], by simp, rfl, ?_⟩))))
      intro y hy
      rw [List.mem_singleton] at hy
      rw [hy]
      exact hx
    · exact matchString_insertStmt_of_values h

/-! ## Claims -/

/-- C1: for every statement text, batch size and connection, `MultiInsert`
called without rows returns the no-arguments failure and makes no call on the
connection (in particular no `Prepare`). -/
theorem multiInsert_no_args {α : Type} (conn : Driver α) (BatchSize : Int) (fuel : Nat)
    (query : Text) :
    (MultiInsert conn BatchSize fuel query []).outcome
        = Outcome.returned (some "Invalid multi-row INSERT call with no arguments")
      ∧ (MultiInsert conn BatchSize fuel query []).trace = [] := by
  simp [MultiInsert, errNoArgs]

/-- C2: for a non-empty sequence of rows, a failure of `CheckQuery` is returned
as it is, and otherwise a failure of `extractValues` is returned and is the
unable-to-parse message; in both cases no call is made on the connection. -/
theorem multiInsert_validation_failure {α : Type} (conn : Driver α) (BatchSize : Int)
    (fuel : Nat) (query : Text) (args : List (List α)) (hargs : args ≠ []) :
    (∀ e, CheckQuery query = some e →
        (MultiInsert conn BatchSize fuel query args).outcome = Outcome.returned (some e)
          ∧ (MultiInsert conn BatchSize fuel query args).trace = [])
      ∧ (CheckQuery query = none → ∀ e, extractValues query = Except.error e →
        (MultiInsert conn BatchSize fuel query args).outcome
            = Outcome.returned (some "Unable to parse VALUES (? [, ...?]) sequence")
          ∧ (MultiInsert conn BatchSize fuel query args).trace = []) := by
  have hlen : ¬ args.length = 0 := by
    intro h; exact hargs (List.length_eq_zero.mp h)
  refine ⟨?_, ?_⟩
  · intro e he
    simp [MultiInsert, hlen, he]
  · intro hc e he
    have hmsg : e = errParse := by
      unfold extractValues at he
      simp only at he
      split at he
      · injection he with he; exact he.symm
      · split at he
        · cases he
        · injection he with he; exact he.symm
    subst hmsg
    simp [MultiInsert, hlen, hc, he, errParse]

/-- C2 (witness): one row with a statement that fails `CheckQuery`, and one row
with a statement that fails `extractValues` only. -/
theorem multiInsert_validation_failure_witness :
    ([[1]] : List (List Nat)) ≠ []
      ∧ (MultiInsert okDriver 5 0 "UPDATE t SET v = 1".toList [[1]]).outcome
          = Outcome.returned (some errShape)
      ∧ (MultiInsert okDriver 5 0 "INSERT INTO t (v) VALUES ( )".toList [[11]]).outcome
          = Outcome.returned (some "Unable to parse VALUES (? [, ...?]) sequence") :=
  ⟨by decide,
    ((multiInsert_validation_failure okDriver 5 0 "UPDATE t SET v = 1".toList [[1]]
      (by decide)).1 errShape (by decide!)).1,
    ((multiInsert_validation_failure okDriver 5 0 "INSERT INTO t (v) VALUES ( )".toList [[11]]
      (by decide)).2 (by decide!) errParse (by rfl)).1⟩

/-- C3 (counterexample): `CheckQuery` accepts the statement with a
whitespace-only tuple, while `extractValues` fails on it. -/
theorem checkQuery_empty_tuple :
    CheckQuery emptyTupleInsert = none
      ∧ extractValues emptyTupleInsert
          = Except.error "Unable to parse VALUES (? [, ...?]) sequence" := by
  decide!

/-- C3 (amended): a text whose stripped form passes the shape check but holds
no token VALUES followed by whitespace and a one-line parenthesised group with
at least one character fails `CheckQuery` with the values-error message; when
`CheckQuery` succeeds, `extractValues` succeeds or fails because the captured
group contains an opening parenthesis, whitespace and a closing parenthesis. -/
theorem checkQuery_values (q : Text) :
    (MatchString reSQLInsertStmt (stripOnDuplicateKey q) = true →
        (¬ ∃ pre ws body post : Text,
          stripOnDuplicateKey q = pre ++ ("VALUES".toList ++ (ws ++ ('(' :: (body ++ (')' :: post)))))
            ∧ AllSpace ws ∧ body ≠ [] ∧ NoNewline body) →
        CheckQuery q = some
          "Invalid statement for multi-row INSERT: ... VALUES (? [, ...?]) ... sequence not recognized")
      ∧ (CheckQuery q = none →
          (∃ t, extractValues q = Except.ok t)
            ∨ (extractValues q = Except.error "Unable to parse VALUES (? [, ...?]) sequence"
                ∧ ∃ m, find reSQLValues (stripOnDuplicateKey q) = some m
                  ∧ ∃ a w b : Text, m.submatch "values" = a ++ ('(' :: (w ++ (')' :: b)))
                    ∧ w ≠ [] ∧ AllSpace w)) := by
  refine ⟨?_, ?_⟩
  · intro h1 hno
    have h2 : MatchString reSQLValues (stripOnDuplicateKey q) = false := by
      cases h : MatchString reSQLValues (stripOnDuplicateKey q) with
      | false => rfl
      | true => exact absurd ((matchString_reSQLValues _).mp h) hno
    simp [CheckQuery, h1, h2, errValues]
  · intro hc
    have h2 : MatchString reSQLValues (stripOnDuplicateKey q) = true := by
      unfold CheckQuery at hc
      simp only at hc
      split at hc
      · cases hc
      · split at hc
        · cases hc
        · next h => simpa using h
    unfold MatchString at h2
    cases hf : find reSQLValues (stripOnDuplicateKey q) with
    | none => rw [hf] at h2; cases h2
    | some m =>
      cases he : MatchString reEmptyValues (m.submatch "values") with
      | false =>
        left
        exact ⟨m.submatch "values", by simp [extractValues, hf, he]⟩
      | true =>
        right
        exact ⟨by simp [extractValues, hf, he, errParse], m, rfl,
          (matchString_reEmptyValues _).mp he⟩

/-- C3 (witness): a statement with the shape and no tuple gets the
values-error message; on the statement of the integration test, which
`CheckQuery` accepts, `extractValues` succeeds. -/
theorem checkQuery_values_witness :
    CheckQuery "INSERT INTO T1 DEFAULT VALUES".toList = some
        "Invalid statement for multi-row INSERT: ... VALUES (? [, ...?]) ... sequence not recognized"
      ∧ ((∃ t, extractValues "INSERT INTO t VALUES (?)".toList = Except.ok t)
        ∨ (extractValues "INSERT INTO t VALUES (?)".toList
              = Except.error "Unable to parse VALUES (? [, ...?]) sequence"
            ∧ ∃ m, find reSQLValues (stripOnDuplicateKey "INSERT INTO t VALUES (?)".toList) = some m
              ∧ ∃ a w b : Text, m.submatch "values" = a ++ ('(' :: (w ++ (')' :: b)))
                ∧ w ≠ [] ∧ AllSpace w)) :=
  ⟨(checkQuery_values "INSERT INTO T1 DEFAULT VALUES".toList).1 (by decide!)
      (fun h => absurd ((matchString_reSQLValues _).mpr h) (by decide!)),
    (checkQuery_values "INSERT INTO t VALUES (?)".toList).2 (by decide!)⟩

/-- C4 (counterexample): a text with INSERT INTO but without the keyword
VALUES passes the shape check; `CheckQuery` fails on it with the values-error
message, not with the shape-error message. -/
theorem checkQuery_insert_select :
    ¬ "VALUES".toList <:+: "INSERT INTO t (v) SELECT a FROM b".toList
      ∧ CheckQuery "INSERT INTO t (v) SELECT a FROM b".toList = some
          "Invalid statement for multi-row INSERT: ... VALUES (? [, ...?]) ... sequence not recognized"
      ∧ CheckQuery "INSERT INTO t (v) SELECT a FROM b".toList ≠ some
          "Invalid statement for multi-row INSERT: INSERT [ INTO ] <object> [ column_list ] VALUES sequence not recognized" := by
  decide!

/-- C4 (amended): for a text whose stripped form does not hold the token
VALUES, `CheckQuery` fails with the shape-error message exactly when the
stripped form does not hold the keyword INSERT, a run of whitespace and
one-line comment blocks, the keyword INTO and one more character on the same
line, and with the values-error message when it does; a text whose stripped
form holds that shape never gets the shape-error message; every text
`CheckQuery` accepts contains the token VALUES. -/
theorem checkQuery_shape (q : Text) :
    ((¬ "VALUES".toList <:+: stripOnDuplicateKey q) →
        (CheckQuery q = some
            "Invalid statement for multi-row INSERT: INSERT [ INTO ] <object> [ column_list ] VALUES sequence not recognized"
          ↔ ¬ InsertShape (stripOnDuplicateKey q))
        ∧ (InsertShape (stripOnDuplicateKey q) → CheckQuery q = some
            "Invalid statement for multi-row INSERT: ... VALUES (? [, ...?]) ... sequence not recognized"))
      ∧ (InsertShape (stripOnDuplicateKey q) → CheckQuery q ≠ some
          "Invalid statement for multi-row INSERT: INSERT [ INTO ] <object> [ column_list ] VALUES sequence not recognized")
      ∧ (CheckQuery q = none →
          "VALUES".toList <:+: stripOnDuplicateKey q ∧ "VALUES".toList <:+: q) := by
  have hshape : InsertShape (stripOnDuplicateKey q) → CheckQuery q ≠ some errShape := by
    intro hi
    have h1 := (matchString_reSQLInsertStmt _).mpr (Or.inl hi)
    unfold CheckQuery
    simp only [h1, Bool.not_true, Bool.false_eq_true, if_false]
    split
    · simp [errValues, errShape]
    · simp
  refine ⟨?_, hshape, ?_⟩
  · intro hv
    have h2 : MatchString reSQLValues (stripOnDuplicateKey q) = false := by
      cases h : MatchString reSQLValues (stripOnDuplicateKey q) with
      | false => rfl
      | true => exact absurd (infix_values_of_matchString h) hv
    refine ⟨⟨fun hc hi => hshape hi hc, ?_⟩, ?_⟩
    · intro hi
      have h1 : MatchString reSQLInsertStmt (stripOnDuplicateKey q) = false := by
        cases h : MatchString reSQLInsertStmt (stripOnDuplicateKey q) with
        | false => rfl
        | true =>
          rcases (matchString_reSQLInsertStmt _).mp h with h | h
          · exact absurd h hi
          · exact absurd h hv
      simp [CheckQuery, h1, errShape]
    · intro hi
      have h1 := (matchString_reSQLInsertStmt _).mpr (Or.inl hi)
      simp [CheckQuery, h1, h2, errValues]
  · intro hc
    have h2 : MatchString reSQLValues (stripOnDuplicateKey q) = true := by
      unfold CheckQuery at hc
      simp only at hc
      split at hc
      · cases hc
      · split at hc
        · cases hc
        · next h => simpa using h
    have h3 := infix_values_of_matchString h2
    have hp := stripOnDuplicateKey_prefix q
    exact ⟨h3, h3.trans hp.isInfix⟩

/-- C4 (witness): without the token VALUES, a text without INSERT and a text
with other words between INSERT and INTO get the shape-error message, and a
text with a comment block between INSERT and INTO gets the values-error
message; the accepted statement of the integration test holds VALUES. -/
theorem checkQuery_shape_witness :
    CheckQuery "UPDATE t SET v = 1".toList = some
        "Invalid statement for multi-row INSERT: INSERT [ INTO ] <object> [ column_list ] VALUES sequence not recognized"
      ∧ CheckQuery "INSERT junk INTO x".toList = some
        "Invalid statement for multi-row INSERT: INSERT [ INTO ] <object> [ column_list ] VALUES sequence not recognized"
      ∧ CheckQuery "INSERT /* c */ INTO t (v) SELECT a FROM b".toList = some
        "Invalid statement for multi-row INSERT: ... VALUES (? [, ...?]) ... sequence not recognized"
      ∧ "VALUES".toList <:+: "INSERT INTO t VALUES (?)".toList :=
  ⟨((checkQuery_shape "UPDATE t SET v = 1".toList).1 (by decide!)).1.mpr
      (fun h => absurd ((matchString_reSQLInsertStmt _).mpr (Or.inl h)) (by decide!)),
    ((checkQuery_shape "INSERT junk INTO x".toList).1 (by decide!)).1.mpr
      (fun h => absurd ((matchString_reSQLInsertStmt _).mpr (Or.inl h)) (by decide!)),
    ((checkQuery_shape "INSERT /* c */ INTO t (v) SELECT a FROM b".toList).1 (by decide!)).2
      ⟨[], " /* c */ ".toList, "t (v) SELECT a FROM b".toList, ' ', by rfl,
        CommentsOrSpace.space ' ' _ rfl
          (CommentsOrSpace.comment " c ".toList [' '] (by decide)
            (CommentsOrSpace.space ' ' [] rfl CommentsOrSpace.nil)),
        by decide⟩,
    ((checkQuery_shape "INSERT INTO t VALUES (?)".toList).2.2 (by decide!)).2⟩

/-- C5: a text whose stripped form contains INSERT INTO followed by a space
but not the token VALUES is rejected by `CheckQuery` with the values-error
message, whatever the stripped trailing clause contains. -/
theorem checkQuery_insert_without_values (q : Text)
    (hinsert : "INSERT INTO ".toList <:+: stripOnDuplicateKey q)
    (hno : ¬ "VALUES".toList <:+: stripOnDuplicateKey q) :
    CheckQuery q = some
      "Invalid statement for multi-row INSERT: ... VALUES (? [, ...?]) ... sequence not recognized" := by
  have h1 := matchString_insertStmt_of_insert_into hinsert
  have h2 : MatchString reSQLValues (stripOnDuplicateKey q) = false := by
    cases h : MatchString reSQLValues (stripOnDuplicateKey q) with
    | false => rfl
    | true => exact absurd (infix_values_of_matchString h) hno
  simp [CheckQuery, h1, h2, errValues]

/-- C5 (witness): the statement of the test, whose trailing clause matches the
pattern and refers to VALUES twice. -/
theorem checkQuery_insert_without_values_witness :
    MatchString reMySQLOnDuplicateKey insertSelectOnDuplicateKey = true
      ∧ "VALUES".toList <:+: insertSelectOnDuplicateKey
      ∧ CheckQuery insertSelectOnDuplicateKey = some
        "Invalid statement for multi-row INSERT: ... VALUES (? [, ...?]) ... sequence not recognized" :=
  ⟨by decide!, by decide!,
    checkQuery_insert_without_values insertSelectOnDuplicateKey
      (by rw [strip_insertSelectOnDuplicateKey]; decide!)
      (by rw [strip_insertSelectOnDuplicateKey]; decide!)⟩

/-- C6 (counterexample): with a trailing clause that holds an odd number of
quote characters the clause is not stripped, and `extractValues` returns text
of the clause instead of the leading tuple. -/
theorem extractValues_odd_quote_clause :
    extractValues clauseHead = Except.ok "(?)".toList
      ∧ " ON DUPLICATE KEY UPDATE".toList <+: oddQuoteClause
      ∧ extractValues (clauseHead ++ oddQuoteClause) = Except.ok "(c)".toList := by
  decide!

/-- C6 (amended): a statement `P` that ends with the tuple `extractValues`
returns for it, followed by a clause `S` that begins with " ON DUPLICATE KEY"
and holds an even number of quote characters, is accepted by `CheckQuery`,
and `extractValues` returns the same tuple for it. -/
theorem extractValues_with_clause (P S tuple : Text)
    (hP : extractValues P = Except.ok tuple) (hend : tuple <:+ P)
    (hS : " ON DUPLICATE KEY".toList <+: S) (hev : EvenQuotes S) :
    CheckQuery (P ++ S) = none ∧ extractValues (P ++ S) = Except.ok tuple := by
  obtain ⟨_, _, body, _, _, ht, _⟩ := extractValues_ok hP
  obtain ⟨pfx, hpfx⟩ := hend
  have hlast : P = (pfx ++ '(' :: body) ++ [')'] := by
    rw [← hpfx, ht]; simp
  have hstrip := strip_append_clause P S _ hlast hS hev
  exact ⟨by rw [checkQuery_congr hstrip]; exact checkQuery_of_extractValues hP,
    by rw [extractValues_congr hstrip]; exact hP⟩

/-- C6 (witness): the statement of the test of the trailing clause. -/
theorem extractValues_with_clause_witness :
    CheckQuery (onDuplicateKeyHead ++ onDuplicateKeyClause) = none
      ∧ extractValues (onDuplicateKeyHead ++ onDuplicateKeyClause)
          = Except.ok "(?, CURRENT_TIMESTAMP,?)".toList :=
  extractValues_with_clause onDuplicateKeyHead onDuplicateKeyClause
    "(?, CURRENT_TIMESTAMP,?)".toList
    (by decide!) (by decide!) (by decide!) (by decide!)

/-- C7: rewriting with a count of one returns the statement text unchanged,
for every statement text and every tuple text. -/
theorem rewriteInsertSQL_one (q t : Text) : rewriteInsertSQL q t 1 = q := by
  simp [rewriteInsertSQL, stringsReplaceFirst, stringsJoin]

/-- C8: when `t` is non-empty and its first occurrence in `pre ++ t ++ post`
is the one after `pre`, rewriting with a count `N` of at least one gives `pre`,
then `N` copies of `t` joined by single commas, then `post`; the length of the
result is the length of the statement plus `(N - 1) * (|t| + 1)`. -/
theorem rewriteInsertSQL_spec (pre t post : Text) (N : Nat) (ht : t ≠ []) (hN : 1 ≤ N)
    (hfirst : ∀ a b : Text, pre ++ t = a ++ t ++ b → b = []) :
    rewriteInsertSQL (pre ++ t ++ post) t N
        = pre ++ stringsJoin [','] (List.replicate N t) ++ post
      ∧ (rewriteInsertSQL (pre ++ t ++ post) t N).length
        = (pre ++ t ++ post).length + (N - 1) * (t.length + 1) := by
  have h := rewriteInsertSQL_first pre t post N ht hfirst
  refine ⟨h, ?_⟩
  rw [h]
  obtain ⟨n, rfl⟩ : ∃ n, N = n + 1 := ⟨N - 1, by omega⟩
  simp only [List.length_append, stringsJoin_replicate_length, Nat.add_sub_cancel]
  simp [String.toList]
  ring

/-- C8 (witness): three rows for a tuple of three placeholders. -/
theorem rewriteInsertSQL_spec_witness :
    rewriteInsertSQL ("INSERT tbl VALUES ".toList ++ "(?,?,?)".toList ++ "\n".toList)
        "(?,?,?)".toList 3
      = "INSERT tbl VALUES (?,?,?),(?,?,?),(?,?,?)\n".toList :=
  (rewriteInsertSQL_spec "INSERT tbl VALUES ".toList "(?,?,?)".toList "\n".toList 3
    (by decide) (by decide)
    (first_occurrence_of_drop _ _ (by decide))).1

/-- C9 (counterexample): an accepted statement in which the extracted tuple
occurs twice; the rewrite with two rows repeats the first occurrence, the
column list, and the result holds the tuple three times. -/
theorem tuple_occurs_twice :
    CheckQuery sameColumnAndTuple = none
      ∧ extractValues sameColumnAndTuple = Except.ok "(a)".toList
      ∧ sameColumnAndTuple = "INSERT INTO t ".toList ++ "(a)".toList ++ " VALUES (a)".toList
      ∧ sameColumnAndTuple = "INSERT INTO t (a) VALUES ".toList ++ "(a)".toList ++ []
      ∧ rewriteInsertSQL sameColumnAndTuple "(a)".toList 2
          = "INSERT INTO t (a),(a) VALUES (a)".toList := by
  decide!

/-- C9 (amended): the tuple returned by `extractValues` is not empty and
occurs in the statement, and the rewrite with `N` rows is the statement with
the first occurrence of the tuple replaced by `N` copies joined by commas;
the text before and after that occurrence is unchanged. -/
theorem rewriteInsertSQL_of_extractValues (q t : Text) (N : Nat)
    (ht : extractValues q = Except.ok t) :
    t ≠ [] ∧ ∃ pre post : Text, q = pre ++ t ++ post
      ∧ (∀ a b : Text, pre ++ t = a ++ t ++ b → b = [])
      ∧ rewriteInsertSQL q t N = pre ++ stringsJoin [','] (List.replicate N t) ++ post := by
  obtain ⟨hne, hinf⟩ := extractValues_infix ht
  obtain ⟨pre, post, hq, hfirst⟩ := exists_first_occurrence t hne q hinf
  refine ⟨hne, pre, post, hq, hfirst, ?_⟩
  rw [hq]
  exact rewriteInsertSQL_first pre t post N hne hfirst

/-- C9 (witness): the statement of the integration test, three rows. -/
theorem rewriteInsertSQL_of_extractValues_witness :
    "(?)".toList ≠ [] ∧ ∃ pre post : Text, "INSERT INTO t VALUES (?)".toList = pre ++ "(?)".toList ++ post
      ∧ (∀ a b : Text, pre ++ "(?)".toList = a ++ "(?)".toList ++ b → b = [])
      ∧ rewriteInsertSQL "INSERT INTO t VALUES (?)".toList "(?)".toList 3
          = pre ++ stringsJoin [','] (List.replicate 3 "(?)".toList) ++ post :=
  rewriteInsertSQL_of_extractValues "INSERT INTO t VALUES (?)".toList "(?)".toList 3 (by decide!)

/-- C10: with a batch size `b` of at least one, `R` rows (at least one), a
statement accepted by `CheckQuery` and `extractValues`, and a connection on
which every `Prepare` and `Exec` succeeds, the run returns, the number of
`Exec` calls is the ceiling of `R / b`, and the number of `Prepare` calls is
one when `R ≤ b` or `b` divides `R`, and two otherwise. -/
theorem multiInsert_counts {α : Type} (conn : Driver α) (b : Nat) (fuel : Nat) (query t : Text)
    (args : List (List α)) (hb : 1 ≤ b) (hR : 1 ≤ args.length)
    (hcheck : CheckQuery query = none) (hvalues : extractValues query = Except.ok t)
    (hp : ∀ h s, conn.prepare h s = none) (he : ∀ h n s a, conn.exec h n s a = none)
    (hfuel : args.length < fuel) :
    (∃ e, (MultiInsert conn (b : Int) fuel query args).outcome = Outcome.returned e)
      ∧ execCount (MultiInsert conn (b : Int) fuel query args).trace
          = (args.length + b - 1) / b
      ∧ prepareCount (MultiInsert conn (b : Int) fuel query args).trace
          = (if args.length ≤ b ∨ b ∣ args.length then 1 else 2) := by
  have hlen : ¬ args.length = 0 := by omega
  obtain ⟨fuel, rfl⟩ : ∃ n, fuel = n + 1 := ⟨fuel - 1, by omega⟩
  simp only [MultiInsert, hlen, if_false, hcheck, hvalues]
  rw [batchLoop]
  have hlt : ((0 : Nat) : Int) < (args.length : Int) := by exact_mod_cast hR
  have hb0 := min_bounds 0 b args.length hR
  have hbl := batch_length args 0 b hR
  simp only [Nat.cast_zero] at hlt hb0 hbl
  simp only [hlt, if_true, loopBody, hb0, and_self, hp, execBatch, he, hbl]
  have := batchLoop_ok conn b hb query t args hp he fuel
    ⟨(0 : Int) + (b : Int), Nat.min b (args.length - 0),
      some ⟨([] : List (Event α)).length, rewriteInsertSQL query t (Nat.min b (args.length - 0))⟩,
      [] ++ [Event.prepare (rewriteInsertSQL query t (Nat.min b (args.length - 0))) none]
        ++ [Event.exec ([] : List (Event α)).length
          (joinArgs ((args.drop (0 : Int).toNat).take
            (min ((0 : Int) + (b : Int)) (args.length : Int) - (0 : Int)).toNat)) none]⟩
    b _ (by simp) rfl (by simp only [Nat.sub_zero]; rcases Nat.le_total b args.length with h | h
                          · exact Or.inl (Nat.min_eq_left h)
                          · exact Or.inr h) (by omega)
  obtain ⟨h1, h2, h3⟩ := this
  refine ⟨h1, ?_, ?_⟩
  · rw [h2]
    simp only [execCount, List.countP_append, List.countP_cons, List.countP_nil,
      Event.isExec, if_true]
    rcases Nat.lt_or_ge args.length b with h | h
    · have e0 : args.length - b + b - 1 = b - 1 := by omega
      rw [e0, Nat.div_eq_of_lt (by omega)]
      have e1 : (args.length + b - 1) / b = 1 := by
        apply Nat.div_eq_of_lt_le <;> omega
      rw [e1]; simp
    · have e1 : args.length + b - 1 = (args.length - b + b - 1) + b := by omega
      rw [e1, Nat.add_div_right _ (by omega)]
      simp only [List.nil_append, List.countP_cons, List.countP_nil, if_true, if_false,
        Bool.false_eq_true]
      omega
  · rw [h3]
    simp only [prepareCount, List.countP_append, List.countP_cons, List.countP_nil,
      Event.isPrepare]
    rcases Nat.lt_or_ge b args.length with h | h
    · have e1 : (args.length - b) % b = args.length % b := by
        conv_rhs => rw [show args.length = (args.length - b) + b by omega, Nat.add_mod_right]
      rw [e1]
      have hle : ¬ args.length ≤ b := by omega
      by_cases hd : b ∣ args.length
      · simp [hle, hd, Nat.mod_eq_zero_of_dvd hd]
      · have : args.length % b ≠ 0 := fun h0 => hd (Nat.dvd_of_mod_eq_zero h0)
        simp [hle, hd, this]
    · have e0 : args.length - b = 0 := by omega
      simp [e0, h]

/-- C10 (witness): twelve rows with a batch size of five give three `Exec`
calls and two `Prepare` calls. -/
theorem multiInsert_counts_witness :
    execCount (MultiInsert okDriver 5 13 "INSERT INTO t VALUES (?)".toList (rowsUpTo 12)).trace = 3
      ∧ prepareCount
          (MultiInsert okDriver 5 13 "INSERT INTO t VALUES (?)".toList (rowsUpTo 12)).trace = 2 :=
  (multiInsert_counts okDriver 5 13 "INSERT INTO t VALUES (?)".toList "(?)".toList (rowsUpTo 12)
    (by decide) (by decide) (by decide!) (by rfl) (fun _ _ => rfl) (fun _ _ _ _ => rfl)
    (by decide)).2

/-- C11: `joinArgs` appends the rows in order: it is the concatenation of the
rows, its length is the sum of the row lengths, and it is empty for no rows.
In a run of `MultiInsert` on a statement that passes both checks, with a batch
size of at least one and a connection on which every `Prepare` and `Exec`
succeeds, the argument lists of the `Exec` calls, one after the other in the
order of the calls, are `joinArgs` of all the rows. -/
theorem joinArgs_row_major {α : Type} (rows : List (List α)) :
    joinArgs rows = rows.flatten
      ∧ (joinArgs rows).length = (rows.map List.length).sum
      ∧ joinArgs ([] : List (List α)) = []
      ∧ ∀ (conn : Driver α) (b fuel : Nat) (q t : Text), 1 ≤ b → rows.length < fuel →
          CheckQuery q = none → extractValues q = Except.ok t →
          (∀ h s, conn.prepare h s = none) → (∀ h n s a, conn.exec h n s a = none) →
          (execArgs (MultiInsert conn (b : Int) fuel q rows).trace).flatten = joinArgs rows := by
  refine ⟨joinArgs_eq_flatten rows, joinArgs_length rows, rfl, ?_⟩
  intro conn b fuel q t hb hfuel hcheck hvalues hp he
  by_cases hrows : rows = []
  · subst hrows
    simp [MultiInsert, execArgs, joinArgs]
  · have hlen : ¬ rows.length = 0 := fun h => hrows (List.length_eq_zero.mp h)
    simp only [MultiInsert, hlen, if_false, hcheck, hvalues]
    have h1 := batchLoop_execArgs conn b q t rows hp he fuel ⟨0, 0, none, []⟩ 0 rfl
    rw [h1]
    simp only [execArgs, List.nil_append]
    have h2 := windowBounds_flatten rows b hb fuel 0 (by omega)
    have h3 : (windowBounds (b : Int) rows.length fuel ((0 : Nat) : Int)).map
          (fun w => joinArgs (slice rows w.1 w.2))
        = ((windowBounds (b : Int) rows.length fuel ((0 : Nat) : Int)).map
          (fun w => slice rows w.1 w.2)).map joinArgs := by
      rw [List.map_map]; rfl
    rw [h3, joinArgs_flatten_map, h2]
    rfl

/-- C11 (witness): the rows of the test of `joinArgs`, and the integration
test, whose three `Exec` calls pass the twelve values in order. -/
theorem joinArgs_row_major_witness :
    joinArgs [[1, 2, 3], [4, 5, 6]] = [1, 2, 3, 4, 5, 6]
      ∧ (execArgs (MultiInsert okDriver 5 13 "INSERT INTO t VALUES (?)".toList
          (rowsUpTo 12)).trace).flatten = joinArgs (rowsUpTo 12) :=
  ⟨(joinArgs_row_major [[1, 2, 3], [4, 5, 6]]).1,
    (joinArgs_row_major (rowsUpTo 12)).2.2.2 okDriver 5 13 "INSERT INTO t VALUES (?)".toList
      "(?)".toList (by decide) (by decide) (by decide!) (by decide!) (fun _ _ => rfl)
      (fun _ _ _ _ => rfl)⟩

/-- C12: with a batch size of at least one, a statement that passes both
checks and at least one row, a `Prepare` or `Exec` that fails ends the run:
its error is what `MultiInsert` returns and no `Prepare` or `Exec` follows it
in the trace; when every `Prepare` fails, the trace holds one `Prepare`, no
`Exec`, and the error of that `Prepare` is returned. -/
theorem multiInsert_first_failure {α : Type} (conn : Driver α) (b : Nat) (hb : 1 ≤ b)
    (fuel : Nat) (q t : Text) (args : List (List α)) (hargs : args ≠ [])
    (hcheck : CheckQuery q = none) (hvalues : extractValues q = Except.ok t)
    (hfuel : args.length < fuel) :
    (∀ (pre : List (Event α)) (ev : Event α) (post : List (Event α)) (e : GoError),
        (MultiInsert conn (b : Int) fuel q args).trace = pre ++ ev :: post →
        ev.failure = some e →
        (MultiInsert conn (b : Int) fuel q args).outcome = Outcome.returned (some e)
          ∧ ∀ x ∈ post, x.isPrepare = false ∧ x.isExec = false)
      ∧ ∀ e0 : GoError, (∀ h s, conn.prepare h s = some e0) →
        prepareCount (MultiInsert conn (b : Int) fuel q args).trace = 1
          ∧ execCount (MultiInsert conn (b : Int) fuel q args).trace = 0
          ∧ (MultiInsert conn (b : Int) fuel q args).outcome = Outcome.returned (some e0) := by
  have hfuel1 : (args.length + b - 1) / b < fuel :=
    Nat.lt_of_le_of_lt (ceil_div_le _ _ hb) hfuel
  refine ⟨?_, ?_⟩
  · intro pre ev post e htr hev
    rcases multiInsert_shape conn b hb fuel q t args hargs hcheck hvalues hfuel1 with
      ⟨hnf, _⟩ | ⟨tr0, ev0, e1, closes, htr0, hnf0, hev0, hcl, hout, _⟩
    · have := hnf ev (by rw [htr]; simp)
      rw [hev] at this
      cases this
    · rw [htr0] at htr
      obtain ⟨_, h2, h3⟩ := split_at_failure htr hnf0
        (fun x hx => isClose_failure (hcl x hx)) (by rw [hev]; intro h; cases h)
      subst h2 h3
      rw [hev] at hev0
      injection hev0 with hev0
      subst hev0
      refine ⟨hout, ?_⟩
      intro x hx
      have hc := hcl x hx
      cases x with
      | close _ _ => exact ⟨rfl, rfl⟩
      | prepare _ _ => cases hc
      | exec _ _ _ => cases hc
  · intro e0 hpf
    have hlen : ¬ args.length = 0 := fun h => hargs (List.length_eq_zero.mp h)
    obtain ⟨n, rfl⟩ : ∃ n, fuel = n + 1 := ⟨fuel - 1, by omega⟩
    simp only [MultiInsert, hlen, if_false, hcheck, hvalues]
    rw [batchLoop]
    have hlt : (0 : Int) < (args.length : Int) := by
      have : 0 < args.length := by omega
      exact_mod_cast this
    simp only [hlt, if_true]
    have hstep := loopBody_step conn b q t args ⟨0, 0, none, []⟩ 0 rfl (by omega)
    generalize loopBody conn (b : Int) q t args ⟨0, 0, none, []⟩ = res at hstep
    cases hstep with
    | keepOk st h _ _ => cases h
    | keepFail st e h _ _ => cases h
    | prepareFail e _ hp =>
      rw [hpf] at hp
      injection hp with hp
      subst hp
      simp [closeOld, prepareCount, execCount, Event.isPrepare, Event.isExec]
    | prepareOk _ hp _ => rw [hpf] at hp; cases hp
    | prepareOkFail e _ hp _ => rw [hpf] at hp; cases hp

/-- C12 (witness): the test of a failed prepare: twelve rows, batch size five. -/
theorem multiInsert_first_failure_witness :
    prepareCount (MultiInsert errPrepareDB 5 13 "INSERT INTO t VALUES (?)".toList
        (rowsUpTo 12)).trace = 1
      ∧ execCount (MultiInsert errPrepareDB 5 13 "INSERT INTO t VALUES (?)".toList
        (rowsUpTo 12)).trace = 0
      ∧ (MultiInsert errPrepareDB 5 13 "INSERT INTO t VALUES (?)".toList (rowsUpTo 12)).outcome
        = Outcome.returned (some "Unable to prepare any statement") :=
  (multiInsert_first_failure errPrepareDB 5 (by decide) 13 "INSERT INTO t VALUES (?)".toList
    "(?)".toList (rowsUpTo 12) (by decide) (by decide!) (by decide!) (by decide)).2
    "Unable to prepare any statement" (fun _ _ => rfl)

/-- C13 (counterexample): every `Prepare` and `Exec` succeeds, and `MultiInsert`
returns the error of the final `Close`. -/
theorem multiInsert_close_error :
    (∀ h s, closeFailDriver.prepare h s = none)
      ∧ (∀ h id sq a, closeFailDriver.exec h id sq a = none)
      ∧ (MultiInsert closeFailDriver 5 13 "INSERT INTO t VALUES (?)".toList (rowsUpTo 12)).outcome
        = Outcome.returned (some "close failed") :=
  ⟨fun _ _ => rfl, fun _ _ _ _ => rfl, by decide!⟩

/-- C13 (amended): with a batch size of at least one, a failure returned by
`MultiInsert` is the no-arguments message, one of the two messages of
`CheckQuery`, the unable-to-parse message, the error of a failed `Prepare` or
`Exec` of the trace, or the error of the `Close` that ends the trace; when
the statement passes both checks, there is a row and every `Prepare` and
`Exec` succeeds, `MultiInsert` returns what the final `Close` returns. -/
theorem multiInsert_outcome {α : Type} (conn : Driver α) (b : Nat) (hb : 1 ≤ b)
    (fuel : Nat) (q : Text) (args : List (List α)) (hfuel : args.length < fuel) :
    (∀ e : GoError, (MultiInsert conn (b : Int) fuel q args).outcome = Outcome.returned (some e) →
        e = "Invalid multi-row INSERT call with no arguments"
          ∨ e = "Invalid statement for multi-row INSERT: INSERT [ INTO ] <object> [ column_list ] VALUES sequence not recognized"
          ∨ e = "Invalid statement for multi-row INSERT: ... VALUES (? [, ...?]) ... sequence not recognized"
          ∨ e = "Unable to parse VALUES (? [, ...?]) sequence"
          ∨ (∃ ev ∈ (MultiInsert conn (b : Int) fuel q args).trace, ev.failure = some e)
          ∨ ∃ id, (MultiInsert conn (b : Int) fuel q args).trace.getLast?
              = some (Event.close id (some e)))
      ∧ (args ≠ [] → CheckQuery q = none → (∃ t, extractValues q = Except.ok t) →
          (∀ h s, conn.prepare h s = none) → (∀ h id sq a, conn.exec h id sq a = none) →
          ∃ tr id, (MultiInsert conn (b : Int) fuel q args).trace
              = tr ++ [Event.close id (conn.close tr id)]
            ∧ (MultiInsert conn (b : Int) fuel q args).outcome
              = Outcome.returned (conn.close tr id)) := by
  have hfuel1 : (args.length + b - 1) / b < fuel :=
    Nat.lt_of_le_of_lt (ceil_div_le _ _ hb) hfuel
  refine ⟨?_, ?_⟩
  · intro e he
    by_cases hargs : args = []
    · subst hargs
      simp only [MultiInsert, List.length_nil, if_true, Outcome.returned.injEq,
        Option.some.injEq] at he
      left; rw [← he]; rfl
    · have hlen : ¬ args.length = 0 := fun h => hargs (List.length_eq_zero.mp h)
      cases hc : CheckQuery q with
      | some e1 =>
        simp only [MultiInsert, hlen, if_false, hc, Outcome.returned.injEq,
          Option.some.injEq] at he
        subst he
        rcases checkQuery_messages hc with h | h
        · right; left; rw [h]; rfl
        · right; right; left; rw [h]; rfl
      | none =>
        cases hv : extractValues q with
        | error e1 =>
          simp only [MultiInsert, hlen, if_false, hc, hv, Outcome.returned.injEq,
            Option.some.injEq] at he
          subst he
          right; right; right; left
          rw [extractValues_message hv]; rfl
        | ok t =>
          right; right; right; right
          rcases multiInsert_shape conn b hb fuel q t args hargs hc hv hfuel1 with
            ⟨_, tr, id, htr, hout⟩ | ⟨tr0, ev0, e1, closes, htr0, _, hev0, _, hout, _⟩
          · right
            rw [hout] at he
            injection he with he
            exact ⟨id, by rw [htr, he]; simp⟩
          · left
            rw [hout] at he
            injection he with he
            injection he with he
            subst he
            exact ⟨ev0, by rw [htr0]; simp, hev0⟩
  · intro hargs hc ⟨t, hv⟩ hp hx
    rcases multiInsert_shape conn b hb fuel q t args hargs hc hv hfuel1 with
      ⟨_, tr, id, htr, hout⟩ | ⟨tr0, ev0, e1, closes, _, _, _, _, _, hd⟩
    · exact ⟨tr, id, htr, hout⟩
    · rcases hd with ⟨mq, h⟩ | ⟨id, sq, a, h⟩
      · rw [hp] at h; cases h
      · rw [hx] at h; cases h

/-- C13 (witness): the integration test on a connection on which every call
succeeds: the trace ends with a `Close` and its result is returned. -/
theorem multiInsert_outcome_witness :
    ∃ tr id, (MultiInsert okDriver 5 13 "INSERT INTO t VALUES (?)".toList (rowsUpTo 12)).trace
        = tr ++ [Event.close id (okDriver.close tr id)]
      ∧ (MultiInsert okDriver 5 13 "INSERT INTO t VALUES (?)".toList (rowsUpTo 12)).outcome
        = Outcome.returned (okDriver.close tr id) :=
  (multiInsert_outcome okDriver 5 (by decide) 13 "INSERT INTO t VALUES (?)".toList
    (rowsUpTo 12) (by decide)).2 (by decide) (by decide!) ⟨"(?)".toList, by decide!⟩
    (fun _ _ => rfl) (fun _ _ _ _ => rfl)

/-- C14: with a batch size of at least one, for every connection, the trace
of `MultiInsert` keeps the life cycle of prepared statements: a `Prepare` is
made only when no statement is open, `Exec` and `Close` are made on the open
statement only, no statement is open at the end, and every statement that was
prepared with success is closed exactly once; the run returns. -/
theorem multiInsert_lifecycle {α : Type} (conn : Driver α) (b : Nat) (hb : 1 ≤ b)
    (fuel : Nat) (q : Text) (args : List (List α)) (hfuel : args.length < fuel) :
    replay (MultiInsert conn (b : Int) fuel q args).trace
        = some ((MultiInsert conn (b : Int) fuel q args).trace.length, none)
      ∧ (∀ p mq, (MultiInsert conn (b : Int) fuel q args).trace[p]? = some (Event.prepare mq none) →
          closeCount p (MultiInsert conn (b : Int) fuel q args).trace = 1)
      ∧ ∃ e, (MultiInsert conn (b : Int) fuel q args).outcome = Outcome.returned e := by
  have hfuel1 : (args.length - 0 + b - 1) / b < fuel :=
    Nat.lt_of_le_of_lt (ceil_div_le _ _ hb) hfuel
  have key : replay (MultiInsert conn (b : Int) fuel q args).trace
        = some ((MultiInsert conn (b : Int) fuel q args).trace.length, none)
      ∧ ∃ e, (MultiInsert conn (b : Int) fuel q args).outcome = Outcome.returned e := by
    unfold MultiInsert
    split
    · exact ⟨rfl, _, rfl⟩
    · next hlen =>
      split
      · exact ⟨rfl, _, rfl⟩
      · split
        · exact ⟨rfl, _, rfl⟩
        · exact ⟨batchLoop_replay conn b hb q _ args fuel ⟨0, 0, none, []⟩ 0 rfl rfl
              (fun _ => by omega) hfuel1,
            batchLoop_returns conn b hb q _ args fuel ⟨0, 0, none, []⟩ 0 rfl
              (fun _ => by omega) hfuel1⟩
  refine ⟨key.1, ?_, key.2⟩
  intro p mq hp
  obtain ⟨_, _, hcount, _⟩ := replay_counts _ _ _ key.1
  rw [hcount p mq hp]
  simp

/-- C14 (witness): twelve rows, batch size five, on a connection on which the
second `Exec` fails: the trace of four calls keeps the life cycle. -/
theorem multiInsert_lifecycle_witness :
    replay (MultiInsert secondExecFails 5 13 "INSERT INTO t VALUES (?)".toList
        (rowsUpTo 12)).trace = some (4, none) :=
  (multiInsert_lifecycle secondExecFails 5 (by decide) 13 "INSERT INTO t VALUES (?)".toList
    (rowsUpTo 12) (by decide)).1

/-- C15 (counterexample): the stripped text of the statement passes the shape
check and the original text matches `reSQLValues`, inside its trailing
clause, yet `CheckQuery` fails with the values-error message. -/
theorem checkQuery_ignores_clause :
    MatchString reSQLInsertStmt (stripOnDuplicateKey insertSelectOnDuplicateKey) = true
      ∧ MatchString reSQLValues insertSelectOnDuplicateKey = true
      ∧ CheckQuery insertSelectOnDuplicateKey = some
        "Invalid statement for multi-row INSERT: ... VALUES (? [, ...?]) ... sequence not recognized" := by
  decide!

/-- C15 (amended): `CheckQuery` applies its values check to the stripped text:
when the stripped text passes the shape check, `CheckQuery` succeeds exactly
when the stripped text holds the token VALUES, whitespace and a one-line
parenthesised group with at least one character, and fails with the
values-error message otherwise. -/
theorem checkQuery_on_stripped (q : Text)
    (hshape : MatchString reSQLInsertStmt (stripOnDuplicateKey q) = true) :
    (CheckQuery q = none ↔ ∃ pre ws body post : Text,
        stripOnDuplicateKey q = pre ++ ("VALUES".toList ++ (ws ++ ('(' :: (body ++ (')' :: post)))))
          ∧ AllSpace ws ∧ body ≠ [] ∧ NoNewline body)
      ∧ (CheckQuery q ≠ none → CheckQuery q = some
          "Invalid statement for multi-row INSERT: ... VALUES (? [, ...?]) ... sequence not recognized") := by
  rw [← matchString_reSQLValues]
  cases h : MatchString reSQLValues (stripOnDuplicateKey q) with
  | false => simp [CheckQuery, hshape, h, errValues]
  | true => simp [CheckQuery, hshape, h]

/-- C15 (witness): the statement of the test of the trailing clause. -/
theorem checkQuery_on_stripped_witness :
    CheckQuery (onDuplicateKeyHead ++ onDuplicateKeyClause) = none ↔ ∃ pre ws body post : Text,
      stripOnDuplicateKey (onDuplicateKeyHead ++ onDuplicateKeyClause)
          = pre ++ ("VALUES".toList ++ (ws ++ ('(' :: (body ++ (')' :: post)))))
        ∧ AllSpace ws ∧ body ≠ [] ∧ NoNewline body :=
  (checkQuery_on_stripped (onDuplicateKeyHead ++ onDuplicateKeyClause) (by decide!)).1

/-- C16 (counterexample): the candidate tuple is not a whitespace-only tuple,
and `extractValues` fails on the statement. -/
theorem extractValues_inner_blank :
    (find reSQLValues (stripOnDuplicateKey nowCallInsert)).map (fun m => m.submatch "values")
        = some "(?, NOW( ))".toList
      ∧ extractValues nowCallInsert
        = Except.error "Unable to parse VALUES (? [, ...?]) sequence" := by
  decide!

/-- C16 (amended): when `reSQLValues` has a match in the stripped text, with
candidate tuple `c`, `extractValues` fails, with the unable-to-parse message,
exactly when `c` holds somewhere an opening parenthesis, one or more
whitespace characters and a closing parenthesis; otherwise it returns `c`. -/
theorem extractValues_candidate (q : Text) (m : Match)
    (hm : find reSQLValues (stripOnDuplicateKey q) = some m) :
    (extractValues q = Except.error "Unable to parse VALUES (? [, ...?]) sequence"
        ↔ ∃ a w b : Text, m.submatch "values" = a ++ ('(' :: (w ++ (')' :: b)))
            ∧ w ≠ [] ∧ AllSpace w)
      ∧ ((¬ ∃ a w b : Text, m.submatch "values" = a ++ ('(' :: (w ++ (')' :: b)))
            ∧ w ≠ [] ∧ AllSpace w)
          → extractValues q = Except.ok (m.submatch "values")) := by
  rw [← matchString_reEmptyValues]
  cases h : MatchString reEmptyValues (m.submatch "values") with
  | false => simp [extractValues, hm, h]
  | true => simp [extractValues, hm, h, errParse]

/-- C16 (witness): the statement of the integration test; its candidate holds
no blank group and is returned. -/
theorem extractValues_candidate_witness :
    extractValues "INSERT INTO t VALUES (?)".toList = Except.ok "(?)".toList :=
  (extractValues_candidate "INSERT INTO t VALUES (?)".toList
    ⟨[], "INSERT INTO t VALUES (?)".toList, [], [("values", "(?)".toList), ("", [' '])]⟩
    (by rfl)).2
    (fun h => absurd ((matchString_reEmptyValues _).mpr h) (by decide!))

/-- C17 (counterexample): `extractValues` fails on a statement whose tuple
holds a newline. -/
theorem extractValues_two_line_tuple :
    extractValues twoLineTuple = Except.error "Unable to parse VALUES (? [, ...?]) sequence" := by
  decide!

/-- C17 (amended): the tuple returned by `extractValues` begins at the opening
parenthesis that follows a token VALUES of the stripped text and a run of
whitespace, holds no newline, and ends at the last closing parenthesis of its
line: no closing parenthesis follows it before the next newline. -/
theorem extractValues_span (q t : Text) (h : extractValues q = Except.ok t) :
    ∃ pre ws body post : Text,
      stripOnDuplicateKey q = pre ++ ("VALUES".toList ++ (ws ++ (t ++ post)))
        ∧ AllSpace ws ∧ t = '(' :: (body ++ [')']) ∧ body ≠ [] ∧ NoNewline body
        ∧ ∀ u v : Text, post = u ++ ')' :: v → ¬ NoNewline u := by
  obtain ⟨m, hm, ht, _⟩ := find_of_extractValues h
  obtain ⟨h1, _, _⟩ := find_some hm
  obtain ⟨a, ws, body, post, c1, hs, _, hws, hb, hbody, hcaps, hlast⟩ :=
    matchAt_reSQLValues (find_matchAt hm)
  have hv : m.submatch "values" = '(' :: (body ++ [')']) := by
    simp [Match.submatch, hcaps]
  rw [hv] at ht
  refine ⟨m.pre ++ a, ws, body, post, ?_, hws, ht, hb, hbody, hlast⟩
  rw [h1, hs, ht]
  simp

/-- C17 (witness): the statement of the test on four lines; the tuple stands
after the token VALUES, a newline and four spaces. -/
theorem extractValues_span_witness :
    ∃ pre ws body post : Text,
      stripOnDuplicateKey multilineInsert
          = pre ++ ("VALUES".toList ++ (ws ++ ("(?, CURRENT_TIMESTAMP,?)".toList ++ post)))
        ∧ AllSpace ws ∧ "(?, CURRENT_TIMESTAMP,?)".toList = '(' :: (body ++ [')']) ∧ body ≠ []
        ∧ NoNewline body ∧ ∀ u v : Text, post = u ++ ')' :: v → ¬ NoNewline u :=
  extractValues_span multilineInsert "(?, CURRENT_TIMESTAMP,?)".toList (by decide!)

/-- C18: with a batch size `b` of at least one, for every connection, the
`Exec` of the trace of `MultiInsert` that follows `n` earlier `Exec` calls
passes the joined arguments of the batch of rows `args[n*b : min(n*b+b, R)]`,
which holds between one and `b` rows, their number being the sum of the row
lengths, on a statement whose `Prepare` stands earlier in the trace,
succeeded, and was given the text `rewriteInsertSQL q t k`, `k` the number of
rows of the batch. -/
theorem multiInsert_exec_width {α : Type} (conn : Driver α) (b : Nat) (hb : 1 ≤ b)
    (fuel : Nat) (q t : Text) (args : List (List α)) (hvalues : extractValues q = Except.ok t)
    (hfuel : args.length < fuel) :
    ∀ (k id : Nat) (a : List α) (e : Option GoError),
      (MultiInsert conn (b : Int) fuel q args).trace[k]? = some (Event.exec id a e) →
      ∃ (n : Nat) (batch : List (List α)),
        n = execCount ((MultiInsert conn (b : Int) fuel q args).trace.take k)
          ∧ n * b < args.length
          ∧ batch = window args (n * b) b
          ∧ 1 ≤ batch.length ∧ batch.length ≤ b
          ∧ a = joinArgs batch
          ∧ a.length = (batch.map List.length).sum
          ∧ id < k
          ∧ (MultiInsert conn (b : Int) fuel q args).trace[id]?
            = some (Event.prepare (rewriteInsertSQL q t batch.length) none) := by
  have hfuel1 : (args.length - 0 + b - 1) / b < fuel :=
    Nat.lt_of_le_of_lt (ceil_div_le _ _ hb) hfuel
  have key : ExecsPrepared q t b args (MultiInsert conn (b : Int) fuel q args).trace := by
    unfold MultiInsert
    split
    · intro k id a e h; simp at h
    · split
      · intro k id a e h; simp at h
      · rw [hvalues]
        exact batchLoop_execsPrepared conn b hb q t args fuel ⟨0, 0, none, []⟩ 0 rfl
          ⟨fun k id a e h => by simp at h, by simp [execCount], fun st h => by cases h⟩
          (fun _ => by omega) hfuel1
  intro k id a e h
  obtain ⟨h0, h1, h2, h3⟩ := key k id a e h
  have hlen := window_length args
    (execCount ((MultiInsert conn (b : Int) fuel q args).trace.take k) * b) b
  refine ⟨_, _, rfl, h0, rfl, ?_, ?_, h1, by rw [h1, joinArgs_length], h2, h3⟩
  · rw [hlen]
    exact Nat.le_min.mpr ⟨hb, by omega⟩
  · rw [hlen]
    exact Nat.min_le_left _ _

/-- C18 (witness): in the integration test the last `Exec`, the sixth call,
follows two `Exec` calls and passes the arguments of the two rows
`args[10:12]`, on the statement prepared by the fifth call. -/
theorem multiInsert_exec_width_witness :
    ∃ (n : Nat) (batch : List (List Nat)),
      n = execCount ((MultiInsert okDriver 5 13 "INSERT INTO t VALUES (?)".toList
            (rowsUpTo 12)).trace.take 5)
        ∧ n * 5 < (rowsUpTo 12).length
        ∧ batch = window (rowsUpTo 12) (n * 5) 5
        ∧ 1 ≤ batch.length ∧ batch.length ≤ 5
        ∧ [11, 12] = joinArgs batch
        ∧ [11, 12].length = (batch.map List.length).sum
        ∧ 4 < 5
        ∧ (MultiInsert okDriver 5 13 "INSERT INTO t VALUES (?)".toList (rowsUpTo 12)).trace[4]?
          = some (Event.prepare
              (rewriteInsertSQL "INSERT INTO t VALUES (?)".toList "(?)".toList batch.length)
              none) :=
  multiInsert_exec_width okDriver 5 (by decide) 13 "INSERT INTO t VALUES (?)".toList "(?)".toList
    (rowsUpTo 12) (by decide!) (by decide) 5 4 [11, 12] none (by rfl)

/-- C19: a tuple returned by `extractValues` is a contiguous part of the
original statement, starts with an opening parenthesis, ends with a closing
one and holds at least one character between them; for every count the
rewrite finds an occurrence of it and replaces it. -/
theorem extractValues_tuple_occurs (q t : Text) (h : extractValues q = Except.ok t) :
    t <:+: q
      ∧ (∃ body : Text, body ≠ [] ∧ t = '(' :: (body ++ [')']))
      ∧ ∀ N : Nat, ∃ pre post : Text, q = pre ++ t ++ post
          ∧ rewriteInsertSQL q t N = pre ++ stringsJoin [','] (List.replicate N t) ++ post := by
  obtain ⟨hne, hinf⟩ := extractValues_infix h
  obtain ⟨_, _, body, _, _, ht, _, hb, _⟩ := extractValues_ok h
  refine ⟨hinf, ⟨body, hb, ht⟩, ?_⟩
  intro N
  obtain ⟨pre, post, hq, hfirst⟩ := exists_first_occurrence t hne q hinf
  refine ⟨pre, post, hq, ?_⟩
  rw [hq]
  exact rewriteInsertSQL_first pre t post N hne hfirst

/-- C19 (witness): the statement of the test of the trailing clause; the
tuple lies in the original text. -/
theorem extractValues_tuple_occurs_witness :
    "(?, CURRENT_TIMESTAMP,?)".toList <:+: (onDuplicateKeyHead ++ onDuplicateKeyClause) :=
  (extractValues_tuple_occurs (onDuplicateKeyHead ++ onDuplicateKeyClause)
    "(?, CURRENT_TIMESTAMP,?)".toList (by decide!)).1

/-- C20: for `R` rows, at least one, and every connection.  With a batch
size `b` of at least one, the run of `MultiInsert` returns within the ceiling
of `R / b` iterations of the loop; the loop header takes at most that many
slices; every slice `args[i:j]` has `0 ≤ i < j ≤ R` and `j = min(i+b, R)`, so
it is in range, not empty, of at most `b` rows, and a slice of fewer rows ends
at `R`; the `Exec` calls of a run in which every call succeeds pass these
slices.  With a batch size of zero, `i` stays at zero, and a run in which
every call succeeds does not return, whatever the number of iterations. -/
theorem multiInsert_windows {α : Type} (conn : Driver α) (q : Text)
    (args : List (List α)) (hargs : args ≠ []) :
    (∀ b : Nat, 1 ≤ b →
        (∀ fuel : Nat, (args.length + b - 1) / b < fuel →
          ∃ e, (MultiInsert conn (b : Int) fuel q args).outcome = Outcome.returned e)
        ∧ (∀ fuel : Nat, (windowBounds (b : Int) args.length fuel 0).length
            ≤ (args.length + b - 1) / b)
        ∧ (∀ (fuel : Nat) (w : Int × Int), w ∈ windowBounds (b : Int) args.length fuel 0 →
            (0 : Int) ≤ w.1 ∧ w.1 < w.2 ∧ w.2 ≤ (args.length : Int)
              ∧ w.2 = min (w.1 + (b : Int)) (args.length : Int)
              ∧ (slice args w.1 w.2).length = (w.2 - w.1).toNat
              ∧ w.2 - w.1 ≤ (b : Int)
              ∧ (w.2 - w.1 < (b : Int) → w.2 = (args.length : Int)))
        ∧ (∀ (fuel : Nat) (t : Text), CheckQuery q = none → extractValues q = Except.ok t →
            (∀ h s, conn.prepare h s = none) → (∀ h n s a, conn.exec h n s a = none) →
            execArgs (MultiInsert conn (b : Int) fuel q args).trace
              = (windowBounds (b : Int) args.length fuel 0).map
                  (fun w => joinArgs (slice args w.1 w.2))))
      ∧ (∀ fuel : Nat, windowBounds 0 args.length fuel 0 = List.replicate fuel (0, 0))
      ∧ (∀ (fuel : Nat) (t : Text), CheckQuery q = none → extractValues q = Except.ok t →
          (∀ h s, conn.prepare h s = none) → (∀ h n s a, conn.exec h n s a = none) →
          (MultiInsert conn 0 fuel q args).outcome = Outcome.running) := by
  have hlen : ¬ args.length = 0 := fun h => hargs (List.length_eq_zero.mp h)
  have hR : 0 < args.length := by omega
  refine ⟨fun b hb => ⟨?_, ?_, ?_, ?_⟩, windowBounds_zero args.length hR, ?_⟩
  · intro fuel hfuel
    unfold MultiInsert
    split
    · exact ⟨_, rfl⟩
    · split
      · exact ⟨_, rfl⟩
      · split
        · exact ⟨_, rfl⟩
        · exact batchLoop_returns conn b hb q _ args fuel ⟨0, 0, none, []⟩ 0 rfl
            (fun _ => by omega) (by simpa using hfuel)
  · intro fuel
    have := windowBounds_length args.length b hb fuel 0
    simpa using this
  · intro fuel w hw
    exact windowBounds_mem args b hb fuel 0 w (by simpa using hw)
  · intro fuel t hcheck hvalues hp he
    simp only [MultiInsert, hlen, if_false, hcheck, hvalues]
    have h1 := batchLoop_execArgs conn b q t args hp he fuel ⟨0, 0, none, []⟩ 0 rfl
    rw [h1]
    simp [execArgs]
  · intro fuel t hcheck hvalues hp he
    simp only [MultiInsert, hlen, if_false, hcheck, hvalues]
    exact batchLoop_zero conn q t args hR hp he fuel ⟨0, 0, none, []⟩ rfl

/-- C20 (witness): twelve rows on a connection on which every call succeeds.
With a batch size of five the loop header takes the slices `[0:5]`, `[5:10]`
and `[10:12]` and the run returns with a fuel of four; with a batch size of
zero the run is still in the loop after four iterations. -/
theorem multiInsert_windows_witness :
    (∃ e, (MultiInsert okDriver 5 4 "INSERT INTO t VALUES (?)".toList (rowsUpTo 12)).outcome
        = Outcome.returned e)
      ∧ windowBounds 5 12 4 0 = [(0, 5), (5, 10), (10, 12)]
      ∧ (MultiInsert okDriver 0 4 "INSERT INTO t VALUES (?)".toList (rowsUpTo 12)).outcome
        = Outcome.running :=
  ⟨((multiInsert_windows okDriver "INSERT INTO t VALUES (?)".toList (rowsUpTo 12)
      (by decide)).1 5 (by decide)).1 4 (by decide),
    by decide,
    (multiInsert_windows okDriver "INSERT INTO t VALUES (?)".toList (rowsUpTo 12)
      (by decide)).2.2 4 "(?)".toList (by decide!) (by decide!) (fun _ _ => rfl)
      (fun _ _ _ _ => rfl)⟩

end Batchsql
